import Mathlib

/-!
Verification of the FullScreenMario engine core (sprite codec, string lookup
tree, spatial quadrant grid, incremental renderer) found in
`src/GameStartr/AudioPlayr/AudioPlayr.js` (a concatenated engine build holding
`ChangeLinr`, `StringFilr`, `PixelRendr`, `ObjectMakr`, `QuadsKeepr` and
`PixelDrawr`).

JavaScript strings are embedded as `List Char`; JS numbers appearing in the
relevant code paths are integers and are embedded as `Nat`/`Int`.  Unbounded
`while` loops are embedded with an explicit fuel parameter; the wrappers pass
enough fuel for every run in which the JS loop terminates after at most one
step per remaining character (which covers every terminating behaviour of
these loops, since each iteration inspects at least one character).
-/

namespace Engine

/-! ## JavaScript string primitives -/

/-- Shorthand for embedding a Lean string literal as a JS string. -/
def str (s : String) : List Char := s.toList

/-- Decimal digit character, as produced by JS `String(num)` for `num < 10`. -/
def digitChar (n : Nat) : Char := Char.ofNat (48 + n)

/-- Fuel-driven digit expansion of a natural number (most significant first). -/
def natToStrGo : Nat → Nat → List Char
  | 0, _ => []
  | fuel + 1, n =>
    if n < 10 then [digitChar n]
    else natToStrGo fuel (n / 10) ++ [digitChar (n % 10)]

/-- JS `String(num)` for a nonnegative integer `num`. -/
def natToStr (n : Nat) : List Char := natToStrGo (n + 1) n

/-- Decimal digit test, `'0' ≤ c ≤ '9'`. -/
def isDigitC (c : Char) : Bool := 48 ≤ c.toNat && c.toNat ≤ 57

/-- Value of a digit string read in base 10 (assuming all digit characters). -/
def digitsVal (l : List Char) : Nat := l.foldl (fun a c => 10 * a + (c.toNat - 48)) 0

/-- JS `Number(s)` restricted to the strings that arise here: the empty string
is `0`, an all-digit string is its decimal value, anything else is `NaN`
(embedded as `none`). -/
def jsNumber (l : List Char) : Option Nat :=
  if l.isEmpty then some 0
  else if l.all isDigitC then some (digitsVal l) else none

/-- Reading an absent JS object member gives `undefined`; concatenating it into
a string produces the text `"undefined"`. -/
def jsGetD (o : Option (List Char)) : List Char := o.getD (str "undefined")

/-- JS `makeDigit` applied to a string argument: pads with `"0"` on the left
to `size` characters (`stringOf(prefix, max(0, size - String(num).length)) +
num`; natural subtraction is exactly the `max(0, ·)`). -/
def makeDigitS (s : List Char) (size : Nat) : List Char :=
  List.replicate (size - s.length) '0' ++ s

/-- JS `makeDigit` applied to a number argument. -/
def makeDigit (n : Nat) (size : Nat) : List Char := makeDigitS (natToStr n) size

/-- First-match association-list lookup (JS object member read). -/
def alookup {α β : Type} [DecidableEq α] (k : α) : List (α × β) → Option β
  | [] => none
  | (a, b) :: r => if a = k then some b else alookup k r

/-- Position of the first occurrence of `c` in `l`, if any. -/
def findChar (c : Char) : List Char → Option Nat
  | [] => none
  | a :: r => if a = c then some 0 else (findChar c r).map (· + 1)

/-- JS `s.indexOf(c, from)` (absent occurrence embedded as `none`). -/
def indexOfFrom (full : List Char) (c : Char) (start : Nat) : Option Nat :=
  (findChar c (full.drop start)).map (start + ·)

/-- JS `s.slice(a, b)` for `0 ≤ a ≤ b`. -/
def sliceStr (full : List Char) (a b : Nat) : List Char := (full.drop a).take (b - a)

/-- JS `String.prototype.split(",")`: the empty string yields `[""]`. -/
def splitComma : List Char → List (List Char)
  | [] => [[]]
  | c :: r =>
    if c = ',' then [] :: splitComma r
    else
      match splitComma r with
      | [] => [[c]]
      | h :: t => (c :: h) :: t

/-- JS `Array.prototype.join(",")`. -/
def joinComma : List (List Char) → List Char
  | [] => []
  | [x] => x
  | x :: r => x ++ ',' :: joinComma r

/-- Fuel-driven splitting of a list into pieces of `ds` elements (the regexp
`.{1,ds}` used by `digitsplit`); the last piece may be shorter. -/
def chunksF {α : Type} : Nat → Nat → List α → List (List α)
  | 0, _, _ => []
  | _, _, [] => []
  | fuel + 1, ds, l => l.take ds :: chunksF fuel ds (l.drop ds)

/-- Split `l` into pieces of `ds` elements (`ds ≥ 1` in all uses). -/
def chunks {α : Type} (ds : Nat) (l : List α) : List (List α) := chunksF l.length ds l

/-! ### Lemmas about the string primitives -/

theorem natToStrGo_succ (fuel n : Nat) :
    natToStrGo (fuel + 1) n =
      if n < 10 then [digitChar n] else natToStrGo fuel (n / 10) ++ [digitChar (n % 10)] := rfl

theorem natToStrGo_fuel_irrel :
    ∀ f g n, n < f → n < g → natToStrGo f n = natToStrGo g n := by
  intro f
  induction f with
  | zero => intro g n h; omega
  | succ f ih =>
    intro g n hf hg
    cases g with
    | zero => omega
    | succ g =>
      rw [natToStrGo_succ, natToStrGo_succ]
      by_cases h10 : n < 10
      · simp [h10]
      · simp only [if_neg h10]
        have hn : 0 < n := by omega
        have hdiv : n / 10 < n := Nat.div_lt_self hn (by omega)
        rw [ih g (n / 10) (by omega) (by omega)]

theorem natToStr_step (n : Nat) :
    natToStr n = if n < 10 then [digitChar n]
                 else natToStr (n / 10) ++ [digitChar (n % 10)] := by
  by_cases h10 : n < 10
  · simp [natToStr, natToStrGo_succ, h10]
  · have hn : 0 < n := by omega
    have hdiv : n / 10 < n := Nat.div_lt_self hn (by omega)
    rw [natToStr, natToStrGo_succ, if_neg h10, if_neg h10]
    rw [natToStrGo_fuel_irrel n (n / 10 + 1) (n / 10) (by omega) (by omega)]
    rfl

theorem natToStr_ne_nil (n : Nat) : natToStr n ≠ [] := by
  rw [natToStr_step]
  by_cases h10 : n < 10 <;> simp [h10]

theorem digitChar_toNat {n : Nat} (h : n < 10) : (digitChar n).toNat = 48 + n := by
  interval_cases n <;> decide

theorem digitChar_isDigit {n : Nat} (h : n < 10) : isDigitC (digitChar n) = true := by
  interval_cases n <;> decide

theorem digitChar_ne_comma {n : Nat} (h : n < 10) : digitChar n ≠ ',' := by
  interval_cases n <;> decide

theorem digitChar_ne_x {n : Nat} (h : n < 10) : digitChar n ≠ 'x' := by
  interval_cases n <;> decide

theorem digitChar_ne_p {n : Nat} (h : n < 10) : digitChar n ≠ 'p' := by
  interval_cases n <;> decide

theorem digitChar_ne_rbracket {n : Nat} (h : n < 10) : digitChar n ≠ ']' := by
  interval_cases n <;> decide

theorem natToStr_all_digits (n : Nat) : (natToStr n).all isDigitC = true := by
  induction n using Nat.strong_induction_on with
  | _ n ih =>
    rw [natToStr_step]
    by_cases h10 : n < 10
    · simp [h10, digitChar_isDigit h10]
    · have hn : 0 < n := by omega
      have hdiv : n / 10 < n := Nat.div_lt_self hn (by omega)
      simp only [if_neg h10, List.all_append, Bool.and_eq_true]
      refine ⟨ih _ hdiv, ?_⟩
      simp [digitChar_isDigit (Nat.mod_lt n (show 0 < 10 by omega))]

theorem digitsVal_append (l1 l2 : List Char) :
    digitsVal (l1 ++ l2) = l2.foldl (fun a c => 10 * a + (c.toNat - 48)) (digitsVal l1) := by
  simp [digitsVal, List.foldl_append]

theorem digitsVal_natToStr (n : Nat) : digitsVal (natToStr n) = n := by
  induction n using Nat.strong_induction_on with
  | _ n ih =>
    rw [natToStr_step]
    by_cases h10 : n < 10
    · simp only [if_pos h10, digitsVal, List.foldl_cons, List.foldl_nil]
      rw [digitChar_toNat h10]
      omega
    · have hn : 0 < n := by omega
      have hdiv : n / 10 < n := Nat.div_lt_self hn (by omega)
      simp only [if_neg h10, digitsVal_append]
      rw [show (digitsVal (natToStr (n / 10))) = n / 10 from ih _ hdiv]
      have hmod : n % 10 < 10 := Nat.mod_lt n (by omega)
      simp only [List.foldl_cons, List.foldl_nil]
      rw [digitChar_toNat hmod]
      omega

theorem jsNumber_natToStr (n : Nat) : jsNumber (natToStr n) = some n := by
  have h1 := natToStr_ne_nil n
  have h2 := natToStr_all_digits n
  have h3 := digitsVal_natToStr n
  simp [jsNumber, List.isEmpty_iff, h1, h2, h3]

theorem findChar_append_of_not_mem {c : Char} {l1 : List Char} (l2 : List Char)
    (h : c ∉ l1) : findChar c (l1 ++ l2) = (findChar c l2).map (l1.length + ·) := by
  induction l1 with
  | nil => simp
  | cons a r ih =>
    simp only [List.mem_cons, not_or] at h
    have hne : ¬a = c := fun hc => h.1 hc.symm
    simp only [List.cons_append, findChar, if_neg hne]
    rw [List.append_eq, ih h.2]
    cases findChar c l2 with
    | none => simp
    | some k => simp; omega

theorem findChar_cons_self (c : Char) (l : List Char) :
    findChar c (c :: l) = some 0 := by simp [findChar]

theorem sliceStr_of_drop {full g r : List Char} {i : Nat}
    (h : full.drop i = g ++ r) :
    sliceStr full i (i + g.length) = g := by
  simp [sliceStr, h, Nat.add_sub_cancel_left, List.take_left]

theorem drop_add_of_drop {full g r : List Char} {i : Nat}
    (h : full.drop i = g ++ r) :
    full.drop (i + g.length) = r := by
  have h2 : (full.drop i).drop g.length = full.drop (i + g.length) := by
    rw [List.drop_drop, Nat.add_comm]
  rw [← h2, h, List.drop_left]

theorem chunksF_fuel_irrel {α : Type} {ds : Nat} (hds : 1 ≤ ds) :
    ∀ f g (l : List α), l.length ≤ f → l.length ≤ g →
      chunksF f ds l = chunksF g ds l := by
  intro f
  induction f with
  | zero =>
    intro g l hf _
    have : l = [] := List.eq_nil_of_length_eq_zero (by omega)
    subst this; cases g <;> simp [chunksF]
  | succ f ih =>
    intro g l hf hg
    cases l with
    | nil => cases g <;> simp [chunksF]
    | cons a r =>
      cases g with
      | zero => simp at hg
      | succ g =>
        simp only [chunksF]
        congr 1
        have hlen : ((a :: r).drop ds).length = r.length + 1 - ds := by
          simp [List.length_drop]
        have hfa : r.length + 1 ≤ f + 1 := by simpa using hf
        have hga : r.length + 1 ≤ g + 1 := by simpa using hg
        exact ih g _ (by omega) (by omega)

theorem chunksF_succ_cons {α : Type} (fuel ds : Nat) (a : α) (l : List α) :
    chunksF (fuel + 1) ds (a :: l) =
      (a :: l).take ds :: chunksF fuel ds ((a :: l).drop ds) := rfl

theorem chunks_cons_of_take {α : Type} {ds : Nat} (hds : 1 ≤ ds)
    {g rest : List α} (hg : g.length = ds) :
    chunks ds (g ++ rest) = g :: chunks ds rest := by
  cases g with
  | nil => simp at hg; omega
  | cons a gr =>
    have h1 : ((a :: gr) ++ rest).take ds = a :: gr := by rw [← hg, List.take_left]
    have h2 : ((a :: gr) ++ rest).drop ds = rest := by rw [← hg, List.drop_left]
    unfold chunks
    rw [show ((a :: gr) ++ rest).length = (gr ++ rest).length + 1 by simp]
    rw [show (a :: gr) ++ rest = a :: (gr ++ rest) from rfl] at h1 h2 ⊢
    rw [chunksF_succ_cons, h1, h2]
    congr 1
    have hglen : gr.length + 1 = ds := by simpa using hg
    exact chunksF_fuel_irrel hds (gr ++ rest).length rest.length rest
      (by simp) (le_refl _)

theorem chunks_nil {α : Type} (ds : Nat) : chunks ds ([] : List α) = [] := by
  simp [chunks, chunksF]

theorem join_chunks_aux {α : Type} {ds : Nat} (hds : 1 ≤ ds) :
    ∀ (n : Nat) (l : List α), l.length ≤ n → (chunks ds l).flatten = l := by
  intro n
  induction n with
  | zero =>
    intro l hl
    have : l = [] := List.eq_nil_of_length_eq_zero (by omega)
    subst this; simp [chunks, chunksF]
  | succ n ih =>
    intro l hl
    cases l with
    | nil => simp [chunks, chunksF]
    | cons a r =>
      unfold chunks
      cases hm : (a :: r).length with
      | zero => simp at hm
      | succ m =>
        simp only [chunksF, List.flatten_cons]
        have hm2 : r.length = m := by simpa using hm
        have hl2 : r.length + 1 ≤ n + 1 := by simpa using hl
        have hdrop : ((a :: r).drop ds).length ≤ m := by
          simp only [List.length_drop, List.length_cons]
          omega
        rw [chunksF_fuel_irrel hds m ((a :: r).drop ds).length _ hdrop (le_refl _)]
        have hdn : ((a :: r).drop ds).length ≤ n := by
          simp only [List.length_drop, List.length_cons]
          omega
        rw [show chunksF ((a :: r).drop ds).length ds ((a :: r).drop ds)
              = chunks ds ((a :: r).drop ds) from rfl]
        rw [ih _ hdn]
        exact List.take_append_drop ds (a :: r)

theorem join_chunks {α : Type} {ds : Nat} (hds : 1 ≤ ds) (l : List α) :
    (chunks ds l).flatten = l :=
  join_chunks_aux hds l.length l (le_refl _)

/-! ## PixelRendr: the sprite codec

Embedding of `PixelRendr.prototype.spriteUnravel / spriteExpand /
spriteApplyFilter / spriteGetArray` (the `ProcessorBase` pipeline, in that
order) and of `imageGetPixels / imageMapPalette / imageCombinePixels` (the
`ProcessorEncode` pipeline after the DOM-only `imageGetData` stage), together
with their helpers `getDigitSize`, `getPaletteReference(Starting)`,
`makeDigit`, `getClosestInPalette`, `arrayDifference`. -/

/-- A palette entry is stored by the JS code as an array of channel values
`[r, g, b, a]`. -/
abbrev Rgba := List Nat

/-- The `PixelRendr` constructor settings used by the codec pipeline:
`paletteDefault` and `scale` (defaulting to 1). -/
structure PixelRendrConf where
  paletteDefault : List Rgba
  scale : Nat

/-- JS `getDigitSize`: `Math.floor(Math.log(palette.length) / Math.LN10) + 1`,
i.e. the number of decimal digits of the palette length.  (The float
computation agrees with the exact digit count for every length below 1000;
all palettes in the claims are far smaller.  For an empty palette the JS
expression is `-Infinity`; that value is never consumed on the paths studied
here, and the embedding returns the digit count of 0.) -/
def getDigitSize {α : Type} (palette : List α) : Nat := (natToStr palette.length).length

/-- Digit size of the default palette (`this.digitsizeDefault`). -/
def digitsizeDefault (conf : PixelRendrConf) : Nat := getDigitSize conf.paletteDefault

/-- JS string coercion of a palette entry array: `String([0,0,0,0])` is
`"0,0,0,0"`. -/
def rgbaToStr (e : Rgba) : List Char := joinComma (e.map natToStr)

/-- JS `getPaletteReferenceStarting`: identity mapping on digit strings at the
default digit size. -/
def getPaletteReferenceStarting (conf : PixelRendrConf) : List (List Char × List Char) :=
  (List.range conf.paletteDefault.length).map
    (fun i => (makeDigit i (digitsizeDefault conf), makeDigit i (digitsizeDefault conf)))

/-- JS `getPaletteReference`: maps each digit-string index (at the palette's
own digit size) to the palette member, padded to that digit size.  The JS
function is applied both to custom palettes (arrays of digit strings) and —
on a plain `p` reset — to the default palette itself, whose members are then
the rgba arrays coerced to strings; callers pass the string forms. -/
def getPaletteReference (palette : List (List Char)) : List (List Char × List Char) :=
  let ds := getDigitSize palette
  (List.range palette.length).map
    (fun i => (makeDigit i ds, makeDigitS (palette.getD i []) ds))

/-- Loop body of JS `spriteUnravel`, with an explicit fuel parameter (one unit
per `while` iteration).  `full` is the whole encoding (the JS loop keeps the
whole string and an index `loc` into it — in the `p[` case it searches for
`"]"` from the start of the string, exactly as `colors.indexOf("]")` does).
A `none` result means the JS loop did not finish within `fuel` iterations, or
hit a missing terminator (where the JS code would read with a `-1` index). -/
def spriteUnravelLoop (conf : PixelRendrConf) (full : List Char) :
    Nat → Nat → List (List Char × List Char) → Nat → List Char → Option (List Char)
  | 0, _, _, _, _ => none
  | fuel + 1, loc, pr, ds, out =>
    match (full.drop loc).head? with
    | none => some out
    | some c =>
      if c = 'x' then
        match indexOfFrom full ',' (loc + 1) with
        | none => none
        | some nixloc =>
          let current := makeDigitS (jsGetD (alookup (sliceStr full (loc + 1) (loc + 1 + ds)) pr))
            (digitsizeDefault conf)
          let rep := (jsNumber (sliceStr full (loc + 1 + ds) nixloc)).getD 0
          spriteUnravelLoop conf full fuel (nixloc + 1) pr ds
            (out ++ (List.replicate rep current).flatten)
      else if c = 'p' then
        if (full.drop (loc + 1)).head? = some '[' then
          match indexOfFrom full ']' 0 with
          | none => none
          | some nixloc =>
            spriteUnravelLoop conf full fuel (nixloc + 1)
              (getPaletteReference (splitComma (sliceStr full (loc + 2) nixloc))) 1 out
        else
          spriteUnravelLoop conf full fuel (loc + 1)
            (getPaletteReference (conf.paletteDefault.map rgbaToStr)) (digitsizeDefault conf) out
      else
        spriteUnravelLoop conf full fuel (loc + ds) pr ds
          (out ++ makeDigitS (jsGetD (alookup (sliceStr full loc (loc + ds)) pr))
            (digitsizeDefault conf))

/-- JS `spriteUnravel`.  Every terminating run of the JS loop advances `loc`
at least once per iteration, so `length + 1` units of fuel are enough for all
of them. -/
def spriteUnravel (conf : PixelRendrConf) (s : List Char) : Option (List Char) :=
  spriteUnravelLoop conf s (s.length + 1) 0 (getPaletteReferenceStarting conf)
    (digitsizeDefault conf) []

/-- JS `spriteExpand`: each digit group is repeated `scale` times.  (The JS
loop slices groups of `digitsizeDefault` characters and appends each one
`scale` times; this is that loop phrased over the chunk decomposition.) -/
def spriteExpand (conf : PixelRendrConf) (s : List Char) : List Char :=
  ((chunks (digitsizeDefault conf) s).map
    (fun g => (List.replicate conf.scale g).flatten)).flatten

/-- JS `spriteApplyFilter` for the only implemented filter kind `"palette"`:
`filt = some m` is attributes `{filter: ["palette", m]}`, `none` is an absent
filter (identity).  Each mapping pair replaces every digit group equal to the
key (the JS `arrayReplace` loop), pairs applied in order. -/
def spriteApplyFilter (conf : PixelRendrConf) (s : List Char)
    (filt : Option (List (List Char × List Char))) : List Char :=
  match filt with
  | none => s
  | some m =>
    ((m.foldl (fun split kv => split.map (fun g => if g = kv.1 then kv.2 else g))
      (chunks (digitsizeDefault conf) s))).flatten

/-- The four RGBA bytes contributed by one palette entry; a channel missing
from the entry array is the JS `undefined`, which a `Uint8ClampedArray` store
clamps to 0. -/
def entryBytes (e : Rgba) : List Nat :=
  (List.range 4).map (fun k => (e.get? k).getD 0)

/-- JS `spriteGetArray`: looks each digit group up in the default palette and
emits four bytes per group.  A group that is not a palette index makes the JS
code dereference `undefined` (a thrown `TypeError`), and an output length
`4 * length / digitsize` that is not a whole number makes the
`Uint8ClampedArray` constructor throw; both are embedded as `none`. -/
def spriteGetArray (conf : PixelRendrConf) (s : List Char) : Option (List Nat) :=
  let ds := digitsizeDefault conf
  if ds ∣ 4 * s.length then
    ((chunks ds s).mapM (fun g =>
      (jsNumber g).bind (fun n =>
        (conf.paletteDefault.get? n).map entryBytes))).map
      (fun l => l.flatten.take (4 * s.length / ds))
  else none

/-- The `ProcessorBase` pipeline `spriteUnravel → spriteApplyFilter →
spriteExpand → spriteGetArray`, i.e. what "decoding the text" produces before
any per-request dimension processing. -/
def decodeBase (conf : PixelRendrConf) (s : List Char)
    (filt : Option (List (List Char × List Char))) : Option (List Nat) :=
  (spriteUnravel conf s).bind (fun u =>
    spriteGetArray conf (spriteExpand conf (spriteApplyFilter conf u filt)))

/-- JS `arrayDifference`: sum of the absolute channel differences (both call
sites compare lists of four channel values). -/
def arrayDifference (a b : List Nat) : Nat :=
  (List.zip a b).foldl (fun s p => s + Nat.dist p.1 p.2) 0

/-- Descending scan of JS `getClosestInPalette`: index `i` runs from
`palette.length - 1` down to 0, replacing the best index only on a strictly
smaller difference (`bestDifference` starts at `Infinity`, embedded `none`). -/
def getClosestGo (palette : List Rgba) (rgba : List Nat) :
    Nat → Option Nat → Option Nat → Option Nat
  | 0, _, bi => bi
  | i + 1, bd, bi =>
    let d := arrayDifference ((palette.get? i).getD []) rgba
    match bd with
    | none => getClosestGo palette rgba i (some d) (some i)
    | some b =>
      if d < b then getClosestGo palette rgba i (some d) (some i)
      else getClosestGo palette rgba i bd bi

/-- JS `getClosestInPalette` (for an empty palette the JS function returns
`undefined`, embedded `none`). -/
def getClosestInPalette (palette : List Rgba) (rgba : List Nat) : Option Nat :=
  getClosestGo palette rgba palette.length none none

/-- JS `imageGetPixels`: maps each 4-byte pixel to its closest default-palette
index and tallies occurrences.  The occurrence object has the occurring
indices as integer-like keys, which JS objects enumerate in ascending numeric
order, so its key list is the ascending list of occurring indices. -/
def imageGetPixels (conf : PixelRendrConf) (data : List Nat) :
    Option (List Nat × List Nat) :=
  ((chunks 4 data).mapM (getClosestInPalette conf.paletteDefault)).map
    (fun pix => (pix, (List.range conf.paletteDefault.length).filter (· ∈ pix)))

/-- JS `imageMapPalette`: the working palette is `Object.keys(occurences)`,
the sprite numbers are each pixel's position in that working palette, and the
digit size is derived from the working palette's length. -/
def imageMapPalette (pix occKeys : List Nat) : List Nat × List Nat × Nat :=
  (occKeys, pix.map (fun p => occKeys.indexOf p), getDigitSize occKeys)

/-- JS `Math.round(4 / digitsize)` for a positive integer digit size. -/
def jsRound4Div (ds : Nat) : Nat := (8 + ds) / (2 * ds)

/-- Run-length emission loop of JS `imageCombinePixels` (fuel = one unit per
run, bounded by the number list's length). -/
def imageCombineLoop (ds threshold : Nat) : Nat → List Nat → List Char
  | 0, _ => []
  | _, [] => []
  | fuel + 1, n :: rest =>
    let k := 1 + (rest.takeWhile (fun m => m == n)).length
    let digit := makeDigit n ds
    if threshold < k then
      'x' :: digit ++ natToStr k ++ ',' :: imageCombineLoop ds threshold fuel (rest.drop (k - 1))
    else
      (List.replicate k digit).flatten ++ imageCombineLoop ds threshold fuel (rest.drop (k - 1))

/-- JS `imageCombinePixels`: emits `p[` + the working palette (each member
padded to the digit size) + `]`, then the numbers, run-length-compressed when
a run is longer than `max(3, round(4 / digitsize))`. -/
def imageCombinePixels (palette numbers : List Nat) (ds : Nat) : List Char :=
  'p' :: '[' :: joinComma (palette.map (fun p => makeDigitS (natToStr p) ds)) ++
    ']' :: imageCombineLoop ds (max 3 (jsRound4Div ds)) numbers.length numbers

/-- The `ProcessorEncode` pipeline from raw RGBA bytes to the sprite string
(`imageGetPixels → imageMapPalette → imageCombinePixels`; the preceding
`imageGetData` stage only extracts these bytes from a DOM image). -/
def encodePixels (conf : PixelRendrConf) (data : List Nat) : Option (List Char) :=
  (imageGetPixels conf data).map (fun po =>
    let m := imageMapPalette po.1 po.2
    imageCombinePixels m.1 m.2.1 m.2.2)

/-- Modelled from the spec's words: the quantized image, in which every 4-byte
pixel is replaced by its nearest default-palette entry (the entry chosen by
`getClosestInPalette`, whose minimality of summed absolute channel difference
is proved in `getClosestInPalette_minimal`). -/
def quantizeImage (conf : PixelRendrConf) (data : List Nat) : Option (List Nat) :=
  ((chunks 4 data).mapM (fun px =>
    (getClosestInPalette conf.paletteDefault px).bind
      (fun i => conf.paletteDefault.get? i))).map List.flatten

/-! ### Stepping lemmas for the unravel loop -/

theorem isDigitC_ne_special {c : Char} (h : isDigitC c = true) :
    c ≠ 'x' ∧ c ≠ 'p' ∧ c ≠ ',' ∧ c ≠ ']' ∧ c ≠ '[' := by
  simp only [isDigitC, Bool.and_eq_true, decide_eq_true_eq] at h
  refine ⟨?_, ?_, ?_, ?_, ?_⟩ <;> intro hc <;> subst hc <;> revert h <;> decide

theorem makeDigitS_all_digits {s : List Char} (h : s.all isDigitC = true) (size : Nat) :
    (makeDigitS s size).all isDigitC = true := by
  simp only [makeDigitS, List.all_append, Bool.and_eq_true]
  constructor
  · simp only [List.all_eq_true]
    intro c hc
    rw [List.eq_of_mem_replicate hc]
    decide
  · exact h

theorem makeDigit_all_digits (n size : Nat) : (makeDigit n size).all isDigitC = true :=
  makeDigitS_all_digits (natToStr_all_digits n) size

theorem makeDigitS_ne_nil {s : List Char} (h : s ≠ []) (size : Nat) :
    makeDigitS s size ≠ [] := by
  simp [makeDigitS, h]

theorem makeDigit_ne_nil (n size : Nat) : makeDigit n size ≠ [] :=
  makeDigitS_ne_nil (natToStr_ne_nil n) size

theorem natToStr_length_lt10 {n : Nat} (h : n < 10) : (natToStr n).length = 1 := by
  rw [natToStr_step, if_pos h]
  rfl

theorem makeDigitS_length {s : List Char} {size : Nat} (h : s.length ≤ size) :
    (makeDigitS s size).length = size := by
  simp [makeDigitS]
  omega

theorem makeDigit_length_lt10 {n size : Nat} (hn : n < 10) (hs : 1 ≤ size) :
    (makeDigit n size).length = size := by
  unfold makeDigit
  rw [makeDigitS_length]
  rw [natToStr_length_lt10 hn]
  omega

theorem findChar_append_not_mem_then_cons {c : Char} {l1 l2 rest : List Char}
    (h1 : c ∉ l1) (h2 : c ∉ l2) :
    findChar c ((l1 ++ l2) ++ c :: rest) = some (l1.length + l2.length) := by
  rw [findChar_append_of_not_mem _ (by simp [List.mem_append, h1, h2])]
  rw [findChar_cons_self]
  simp

theorem unravel_step_end (conf : PixelRendrConf) {full : List Char} {loc : Nat}
    (hloc : full.length ≤ loc) (fuel : Nat) (pr : List (List Char × List Char))
    (ds : Nat) (out : List Char) :
    spriteUnravelLoop conf full (fuel + 1) loc pr ds out = some out := by
  have h : full.drop loc = [] := List.drop_eq_nil_of_le hloc
  simp [spriteUnravelLoop, h]

theorem unravel_step_lit (conf : PixelRendrConf) {full g rest : List Char} {loc ds : Nat}
    {c : Char} {t : List Char}
    (h : full.drop loc = g ++ rest) (hglen : g.length = ds)
    (hgct : g = c :: t) (hx : c ≠ 'x') (hp : c ≠ 'p')
    (fuel : Nat) (pr : List (List Char × List Char)) (out : List Char) :
    spriteUnravelLoop conf full (fuel + 1) loc pr ds out =
      spriteUnravelLoop conf full fuel (loc + ds) pr ds
        (out ++ makeDigitS (jsGetD (alookup g pr)) (digitsizeDefault conf)) := by
  have hdrop : full.drop loc = c :: (t ++ rest) := by rw [h, hgct]; rfl
  have hslice : sliceStr full loc (loc + ds) = g := by
    rw [← hglen]
    exact sliceStr_of_drop h
  simp [spriteUnravelLoop, hdrop, hx, hp, hslice]

theorem unravel_step_x (conf : PixelRendrConf) {full d cnt rest : List Char} {loc ds : Nat}
    (h : full.drop loc = 'x' :: (d ++ cnt ++ ',' :: rest))
    (hdlen : d.length = ds)
    (hd : ',' ∉ d) (hcnt : ',' ∉ cnt)
    (fuel : Nat) (pr : List (List Char × List Char)) (out : List Char) :
    spriteUnravelLoop conf full (fuel + 1) loc pr ds out =
      spriteUnravelLoop conf full fuel (loc + 1 + (d.length + cnt.length) + 1) pr ds
        (out ++ (List.replicate ((jsNumber cnt).getD 0)
          (makeDigitS (jsGetD (alookup d pr)) (digitsizeDefault conf))).flatten) := by
  subst hdlen
  have hdrop1 : full.drop (loc + 1) = d ++ cnt ++ ',' :: rest := by
    have := drop_add_of_drop (g := ['x']) (r := d ++ cnt ++ ',' :: rest) (i := loc)
      (by rw [h]; rfl)
    simpa using this
  have hidx : indexOfFrom full ',' (loc + 1) = some (loc + 1 + (d.length + cnt.length)) := by
    unfold indexOfFrom
    rw [hdrop1]
    rw [show d ++ cnt ++ ',' :: rest = (d ++ cnt) ++ ',' :: rest by simp]
    rw [findChar_append_not_mem_then_cons hd hcnt]
    simp
  have hsliced : sliceStr full (loc + 1) (loc + 1 + d.length) = d :=
    sliceStr_of_drop (g := d) (r := cnt ++ ',' :: rest) (by rw [hdrop1]; simp)
  have hdrop2 : full.drop (loc + 1 + d.length) = cnt ++ ',' :: rest := by
    have := drop_add_of_drop (g := d) (r := cnt ++ ',' :: rest) (i := loc + 1)
      (by rw [hdrop1]; simp)
    exact this
  have hslicec : sliceStr full (loc + 1 + d.length) (loc + 1 + (d.length + cnt.length)) = cnt := by
    have := sliceStr_of_drop (g := cnt) (r := ',' :: rest) (i := loc + 1 + d.length) hdrop2
    rw [show loc + 1 + d.length + cnt.length = loc + 1 + (d.length + cnt.length) by omega] at this
    exact this
  have hdropx : full.drop loc = 'x' :: (d ++ (cnt ++ ',' :: rest)) := by
    rw [h]; simp
  simp [spriteUnravelLoop, hdropx, hidx, hsliced, hslicec]

theorem unravel_step_p_reset (conf : PixelRendrConf) {full rest : List Char} {loc : Nat}
    (h : full.drop loc = 'p' :: rest) (hnb : rest.head? ≠ some '[')
    (fuel ds : Nat) (pr : List (List Char × List Char)) (out : List Char) :
    spriteUnravelLoop conf full (fuel + 1) loc pr ds out =
      spriteUnravelLoop conf full fuel (loc + 1)
        (getPaletteReference (conf.paletteDefault.map rgbaToStr)) (digitsizeDefault conf) out := by
  have hdrop1 : full.drop (loc + 1) = rest := by
    have := drop_add_of_drop (g := ['p']) (r := rest) (i := loc) (by rw [h]; rfl)
    simpa using this
  simp [spriteUnravelLoop, h, hdrop1, hnb]

theorem unravel_step_p_custom (conf : PixelRendrConf) {full inner rest : List Char} {loc : Nat}
    (h : full.drop loc = 'p' :: '[' :: (inner ++ ']' :: rest))
    (hin : ']' ∉ inner) (hpre : ']' ∉ full.take (loc + 2))
    (fuel ds : Nat) (pr : List (List Char × List Char)) (out : List Char) :
    spriteUnravelLoop conf full (fuel + 1) loc pr ds out =
      spriteUnravelLoop conf full fuel (loc + 2 + inner.length + 1)
        (getPaletteReference (splitComma inner)) 1 out := by
  have hdrop1 : full.drop (loc + 1) = '[' :: (inner ++ ']' :: rest) := by
    have := drop_add_of_drop (g := ['p']) (r := '[' :: (inner ++ ']' :: rest)) (i := loc)
      (by rw [h]; rfl)
    simpa using this
  have hdrop2 : full.drop (loc + 2) = inner ++ ']' :: rest := by
    have := drop_add_of_drop (g := ['p', '[']) (r := inner ++ ']' :: rest) (i := loc)
      (by rw [h]; rfl)
    simpa [Nat.add_assoc] using this
  have hlen : loc + 2 ≤ full.length := by
    by_contra hcon
    have : full.drop (loc + 2) = [] := List.drop_eq_nil_of_le (by omega)
    rw [this] at hdrop2
    exact absurd hdrop2.symm (by simp)
  have hfull : full = full.take (loc + 2) ++ (inner ++ ']' :: rest) := by
    conv_lhs => rw [← List.take_append_drop (loc + 2) full]
    rw [hdrop2]
  have hidx : indexOfFrom full ']' 0 = some (loc + 2 + inner.length) := by
    unfold indexOfFrom
    rw [show full.drop 0 = full from rfl]
    conv_lhs => rw [hfull]
    rw [show full.take (loc + 2) ++ (inner ++ ']' :: rest)
          = (full.take (loc + 2) ++ inner) ++ ']' :: rest by simp]
    rw [findChar_append_not_mem_then_cons hpre hin]
    have : (full.take (loc + 2)).length = loc + 2 := by
      rw [List.length_take]
      omega
    simp [this]
  have hslice : sliceStr full (loc + 2) (loc + 2 + inner.length) = inner :=
    sliceStr_of_drop hdrop2
  simp [spriteUnravelLoop, h, hdrop1, hidx, hslice]

/-! ### Digit-string and palette-reference lemmas -/

theorem natToStr_length_pos (n : Nat) : 1 ≤ (natToStr n).length :=
  List.length_pos.mpr (natToStr_ne_nil n)

theorem natToStr_length_mono : ∀ {j k : Nat}, j ≤ k →
    (natToStr j).length ≤ (natToStr k).length := by
  intro j
  induction j using Nat.strong_induction_on with
  | _ j ih =>
    intro k hjk
    rw [natToStr_step j, natToStr_step k]
    by_cases hj : j < 10
    · by_cases hk : k < 10
      · simp [hj, hk]
      · simp only [if_pos hj, if_neg hk, List.length_append, List.length_cons,
          List.length_nil]
        omega
    · have hk : ¬k < 10 := by omega
      simp only [if_neg hj, if_neg hk, List.length_append, List.length_cons,
        List.length_nil]
      have hdiv : j / 10 < j := Nat.div_lt_self (by omega) (by omega)
      have := ih (j / 10) hdiv (Nat.div_le_div_right hjk)
      omega

theorem digitsVal_zero_acc (m : Nat) :
    (List.replicate m '0').foldl (fun a c => 10 * a + (c.toNat - 48)) 0 = 0 := by
  induction m with
  | zero => rfl
  | succ m ih => simpa [List.replicate_succ] using ih

theorem digitsVal_makeDigitS (s : List Char) (size : Nat) :
    digitsVal (makeDigitS s size) = digitsVal s := by
  unfold makeDigitS
  rw [show digitsVal (List.replicate (size - s.length) '0' ++ s)
        = s.foldl (fun a c => 10 * a + (c.toNat - 48))
            (digitsVal (List.replicate (size - s.length) '0')) from digitsVal_append _ _]
  rw [show digitsVal (List.replicate (size - s.length) '0') = 0 from digitsVal_zero_acc _]
  rfl

theorem digitsVal_makeDigit (n size : Nat) : digitsVal (makeDigit n size) = n := by
  rw [makeDigit, digitsVal_makeDigitS, digitsVal_natToStr]

theorem jsNumber_makeDigit (n size : Nat) : jsNumber (makeDigit n size) = some n := by
  have h1 : makeDigit n size ≠ [] := makeDigit_ne_nil n size
  have h2 := makeDigit_all_digits n size
  simp [jsNumber, List.isEmpty_iff, h1, h2, digitsVal_makeDigit]

theorem makeDigitS_of_le {s : List Char} {size : Nat} (h : size ≤ s.length) :
    makeDigitS s size = s := by
  simp [makeDigitS, Nat.sub_eq_zero_of_le h]

theorem all_digits_not_mem {l : List Char} (h : l.all isDigitC = true) {c : Char}
    (hc : isDigitC c = false) : c ∉ l := by
  intro hmem
  rw [List.all_eq_true] at h
  have := h c hmem
  rw [hc] at this
  exact absurd this (by decide)

theorem alookup_map_eq {α β γ : Type} [DecidableEq γ] {l : List α} (k : α → γ) (v : α → β)
    {a : α} (ha : a ∈ l) (hinj : ∀ x ∈ l, k x = k a → v x = v a) :
    alookup (k a) (l.map (fun x => (k x, v x))) = some (v a) := by
  induction l with
  | nil => cases ha
  | cons x r ih =>
    simp only [List.map_cons, alookup]
    by_cases hx : k x = k a
    · rw [if_pos hx, hinj x (by simp) hx]
    · rw [if_neg hx]
      rcases List.mem_cons.mp ha with h | h
      · exact absurd (by rw [h]) hx
      · exact ih h (fun y hy => hinj y (by simp [hy]))

theorem alookup_starting (conf : PixelRendrConf) {i : Nat}
    (hi : i < conf.paletteDefault.length) :
    alookup (makeDigit i (digitsizeDefault conf)) (getPaletteReferenceStarting conf)
      = some (makeDigit i (digitsizeDefault conf)) := by
  unfold getPaletteReferenceStarting
  exact alookup_map_eq (fun j => makeDigit j (digitsizeDefault conf))
    (fun j => makeDigit j (digitsizeDefault conf)) (List.mem_range.mpr hi)
    (fun x _ hx => hx)

/-- Processing a run of `n` copies of a literal digit group `g` standing at
the end of the encoding. -/
theorem unravel_lit_run (conf : PixelRendrConf) {full g : List Char} {ds : Nat}
    {c : Char} {t : List Char}
    (hglen : g.length = ds) (hgct : g = c :: t) (hx : c ≠ 'x') (hp : c ≠ 'p')
    (pr : List (List Char × List Char)) :
    ∀ (n fuel loc : Nat) (out : List Char),
      full.drop loc = (List.replicate n g).flatten → n + 1 ≤ fuel →
      spriteUnravelLoop conf full fuel loc pr ds out =
        some (out ++ (List.replicate n
          (makeDigitS (jsGetD (alookup g pr)) (digitsizeDefault conf))).flatten) := by
  subst hglen
  intro n
  induction n with
  | zero =>
    intro fuel loc out hdrop hfuel
    cases fuel with
    | zero => omega
    | succ f =>
      have hloc : full.length ≤ loc := by
        by_contra hcon
        have h1 : (full.drop loc).length = full.length - loc := List.length_drop _ _
        rw [hdrop] at h1
        simp at h1
        omega
      rw [unravel_step_end conf hloc]
      simp
  | succ n ih =>
    intro fuel loc out hdrop hfuel
    cases fuel with
    | zero => omega
    | succ f =>
      have hsplit : full.drop loc = g ++ (List.replicate n g).flatten := by
        rw [hdrop, List.replicate_succ, List.flatten_cons]
      rw [unravel_step_lit conf hsplit rfl hgct hx hp]
      rw [ih f (loc + g.length) _ (drop_add_of_drop hsplit) (by omega)]
      rw [List.replicate_succ, List.flatten_cons, List.append_assoc]

theorem flatten_replicate_length {α : Type} (n : Nat) (d : List α) :
    (List.replicate n d).flatten.length = n * d.length := by
  induction n with
  | zero => simp
  | succ n ih =>
    rw [List.replicate_succ, List.flatten_cons, List.length_append, ih]
    ring

theorem unravel_end_any (conf : PixelRendrConf) {full : List Char} {loc : Nat}
    (hloc : full.length ≤ loc) {fuel : Nat} (hfuel : 1 ≤ fuel)
    (pr : List (List Char × List Char)) (ds : Nat) (out : List Char) :
    spriteUnravelLoop conf full fuel loc pr ds out = some out := by
  cases fuel with
  | zero => omega
  | succ f => exact unravel_step_end conf hloc f pr ds out

/-- Decoding `x<digit><n>,` agrees with decoding the digit group written out
`n` times, for any palette index digit of the default digit size. -/
theorem decode_runLength_eq_general (conf : PixelRendrConf) (i n : Nat)
    (hi : i < conf.paletteDefault.length) :
    decodeBase conf ('x' :: (makeDigit i (digitsizeDefault conf) ++ natToStr n ++ [','])) none
      = decodeBase conf ((List.replicate n (makeDigit i (digitsizeDefault conf))).flatten) none := by
  have hds1 : 1 ≤ digitsizeDefault conf := natToStr_length_pos _
  have hilen : (natToStr i).length ≤ digitsizeDefault conf :=
    natToStr_length_mono (le_of_lt hi)
  have hdlen : (makeDigit i (digitsizeDefault conf)).length = digitsizeDefault conf :=
    makeDigitS_length hilen
  obtain ⟨c, t, hct⟩ : ∃ c t, makeDigit i (digitsizeDefault conf) = c :: t := by
    cases hdd : makeDigit i (digitsizeDefault conf) with
    | nil => exact absurd hdd (makeDigit_ne_nil _ _)
    | cons c t => exact ⟨c, t, rfl⟩
  have hcdig : isDigitC c = true := by
    have hall := makeDigit_all_digits i (digitsizeDefault conf)
    rw [hct] at hall
    simp only [List.all_cons, Bool.and_eq_true] at hall
    exact hall.1
  obtain ⟨hx, hp, _, _, _⟩ := isDigitC_ne_special hcdig
  have hdcomma : ',' ∉ makeDigit i (digitsizeDefault conf) :=
    all_digits_not_mem (makeDigit_all_digits i _) (by decide)
  have hcntcomma : ',' ∉ natToStr n :=
    all_digits_not_mem (natToStr_all_digits n) (by decide)
  have hlookup : makeDigitS (jsGetD (alookup (makeDigit i (digitsizeDefault conf))
      (getPaletteReferenceStarting conf))) (digitsizeDefault conf)
        = makeDigit i (digitsizeDefault conf) := by
    rw [alookup_starting conf hi]
    unfold jsGetD
    rw [Option.getD_some]
    exact makeDigitS_of_le (le_of_eq hdlen.symm)
  have hunrL : spriteUnravel conf
      ('x' :: (makeDigit i (digitsizeDefault conf) ++ natToStr n ++ [','])) =
      some ((List.replicate n (makeDigit i (digitsizeDefault conf))).flatten) := by
    unfold spriteUnravel
    have hdrop0 : ('x' :: (makeDigit i (digitsizeDefault conf) ++ natToStr n ++ [','])).drop 0
        = 'x' :: (makeDigit i (digitsizeDefault conf) ++ natToStr n ++ ',' :: []) := by
      simp
    rw [unravel_step_x conf hdrop0 hdlen hdcomma hcntcomma]
    rw [unravel_end_any conf (by simp; omega) (by simp)]
    rw [jsNumber_natToStr n]
    rw [hlookup]
    simp
  have hunrR : spriteUnravel conf
      ((List.replicate n (makeDigit i (digitsizeDefault conf))).flatten) =
      some ((List.replicate n (makeDigit i (digitsizeDefault conf))).flatten) := by
    unfold spriteUnravel
    rw [unravel_lit_run conf hdlen hct hx hp _ n _ 0 [] (by simp)
      (by rw [flatten_replicate_length, hdlen]
          have : n ≤ n * digitsizeDefault conf := Nat.le_mul_of_pos_right n hds1
          omega)]
    rw [hlookup]
    simp
  unfold decodeBase
  rw [hunrL, hunrR]

/-- Default palette of the C6 concrete scenario:
`[[0,0,0,0],[255,0,0,255],[0,255,0,255]]`, digit size 1, scale 1. -/
def confC6 : PixelRendrConf := ⟨[[0, 0, 0, 0], [255, 0, 0, 255], [0, 255, 0, 255]], 1⟩

/-- C6: for every color digit `d` of the active (default) digit size and every
count `n ≥ 1`, decoding the run-length form `x<d><n>,` produces a pixel buffer
identical to decoding `d` written literally `n` times; and with the palette
`[[0,0,0,0],[255,0,0,255],[0,255,0,255]]` (digit size 1) the encoding
`"x022,1"` decodes to 22 transparent-black pixels followed by one opaque-red
pixel. -/
theorem runLength_matches_literal :
    (∀ (conf : PixelRendrConf) (i n : Nat), i < conf.paletteDefault.length → 1 ≤ n →
      decodeBase conf ('x' :: (makeDigit i (digitsizeDefault conf) ++ natToStr n ++ [','])) none
        = decodeBase conf
            ((List.replicate n (makeDigit i (digitsizeDefault conf))).flatten) none) ∧
    decodeBase confC6 (str "x022,1") none =
      some ((List.replicate 22 ([0, 0, 0, 0] : List Nat)).flatten ++ [255, 0, 0, 255]) :=
  ⟨fun conf i n hi _hn => decode_runLength_eq_general conf i n hi, by decide⟩

/-- Witness for C6: the general statement applied at the concrete scenario
(palette index 0, count 22). -/
theorem runLength_matches_literal_witness :
    0 < confC6.paletteDefault.length ∧ (1 : Nat) ≤ 22 ∧
    decodeBase confC6 ('x' :: (makeDigit 0 (digitsizeDefault confC6) ++ natToStr 22 ++ [','])) none
      = decodeBase confC6
          ((List.replicate 22 (makeDigit 0 (digitsizeDefault confC6))).flatten) none :=
  ⟨by decide, by decide, runLength_matches_literal.1 confC6 0 22 (by decide) (by decide)⟩

/-! ### C8: the plain `p` reset and repeated `p[...]` blocks -/

/-- Palette `[[0,0,0,0],[255,0,0,255]]` (digit size 1, scale 1), used for the
C8 failing inputs. -/
def confC8 : PixelRendrConf := ⟨[[0, 0, 0, 0], [255, 0, 0, 255]], 1⟩

theorem c8_step_from_4 (f : Nat) (o : List Char) :
    spriteUnravelLoop confC8 (str "p[0]0p[1]0") (f + 1) 4 [(['0'], ['0'])] 1 o =
      spriteUnravelLoop confC8 (str "p[0]0p[1]0") f 5 [(['0'], ['0'])] 1 (o ++ ['0']) := rfl

theorem c8_step_from_5 (f : Nat) (o : List Char) :
    spriteUnravelLoop confC8 (str "p[0]0p[1]0") (f + 1) 5 [(['0'], ['0'])] 1 o =
      spriteUnravelLoop confC8 (str "p[0]0p[1]0") f 4 [(['0'], ['0'])] 1 o := rfl

theorem c8_step_from_0 (f : Nat) (o : List Char) :
    spriteUnravelLoop confC8 (str "p[0]0p[1]0") (f + 1) 0
        (getPaletteReferenceStarting confC8) (digitsizeDefault confC8) o =
      spriteUnravelLoop confC8 (str "p[0]0p[1]0") f 4 [(['0'], ['0'])] 1 o := rfl

theorem c8_cycle : ∀ (fuel : Nat) (out : List Char),
    spriteUnravelLoop confC8 (str "p[0]0p[1]0") fuel 4 [(['0'], ['0'])] 1 out = none := by
  intro fuel
  induction fuel using Nat.strong_induction_on with
  | _ fuel ih =>
    match fuel with
    | 0 => intro out; rfl
    | 1 => intro out; rfl
    | f + 2 =>
      intro out
      rw [c8_step_from_4, c8_step_from_5]
      exact ih f (by omega) (out ++ ['0'])

/-- C8: the plain `p` reset does not restore the starting decode state.  On
palette `[[0,0,0,0],[255,0,0,255]]`, the token `0` decodes to the color digit
`0` at the start of an encoding, but after a `p` reset the same token decodes
to the text `0,0,0,0` (the reset builds its reference from the raw palette
arrays coerced to strings, instead of identity digit strings), so
`spriteUnravel "0p0"` is `"00,0,0,0"` instead of `"00"`.  Moreover an
encoding with a second `p[...]` block never terminates: the jump past the
block uses `colors.indexOf("]")`, which finds the first `]` of the whole
string, sending the scan backwards forever — the loop returns within no
finite number of iterations. -/
theorem pReset_and_secondPalette_bug :
    spriteUnravel confC8 (str "00") = some (str "00") ∧
    spriteUnravel confC8 (str "0p0") = some (str "00,0,0,0") ∧
    (∀ fuel : Nat, ∀ out : List Char,
      spriteUnravelLoop confC8 (str "p[0]0p[1]0") fuel 0
        (getPaletteReferenceStarting confC8) (digitsizeDefault confC8) out = none) := by
  refine ⟨by decide, by decide, ?_⟩
  intro fuel out
  cases fuel with
  | zero => rfl
  | succ f =>
    rw [c8_step_from_0]
    exact c8_cycle f out

/-! ### Support lemmas for the encode/decode round trip (C2) -/

theorem splitComma_no_comma {s : List Char} (h : ',' ∉ s) : splitComma s = [s] := by
  induction s with
  | nil => rfl
  | cons c r ih =>
    simp only [List.mem_cons, not_or] at h
    have hc : ¬c = ',' := fun hcc => h.1 hcc.symm
    simp only [splitComma, if_neg hc, ih h.2]

theorem splitComma_append {x : List Char} (r : List Char) (h : ',' ∉ x) :
    splitComma (x ++ ',' :: r) = x :: splitComma r := by
  induction x with
  | nil => simp [splitComma]
  | cons c t ih =>
    simp only [List.mem_cons, not_or] at h
    have hc : ¬c = ',' := fun hcc => h.1 hcc.symm
    simp only [List.cons_append, splitComma, if_neg hc, ih h.2]
    cases hsp : splitComma (t ++ ',' :: r) with
    | nil =>
      rw [ih h.2] at hsp
      cases hsp
    | cons a b =>
      rw [ih h.2] at hsp
      cases hsp
      rfl

theorem splitComma_joinComma : ∀ {parts : List (List Char)}, parts ≠ [] →
    (∀ s ∈ parts, ',' ∉ s) → splitComma (joinComma parts) = parts := by
  intro parts
  induction parts with
  | nil => intro h; cases h rfl
  | cons x t ih =>
    intro _ hall
    cases t with
    | nil => exact splitComma_no_comma (hall x (by simp))
    | cons y u =>
      rw [show joinComma (x :: y :: u) = x ++ ',' :: joinComma (y :: u) from rfl]
      rw [splitComma_append _ (hall x (by simp))]
      rw [ih (by simp) (fun s hs => hall s (by simp [hs]))]

theorem mem_joinComma {c : Char} : ∀ {parts : List (List Char)},
    c ∈ joinComma parts → c = ',' ∨ ∃ s ∈ parts, c ∈ s := by
  intro parts
  induction parts with
  | nil => intro h; cases h
  | cons x t ih =>
    intro h
    cases t with
    | nil =>
      rw [show joinComma [x] = x from rfl] at h
      exact Or.inr ⟨x, by simp, h⟩
    | cons y u =>
      rw [show joinComma (x :: y :: u) = x ++ ',' :: joinComma (y :: u) from rfl] at h
      rcases List.mem_append.mp h with h1 | h1
      · exact Or.inr ⟨x, by simp, h1⟩
      · rcases List.mem_cons.mp h1 with h2 | h2
        · exact Or.inl h2
        · rcases ih h2 with h3 | ⟨s, hs, hcs⟩
          · exact Or.inl h3
          · exact Or.inr ⟨s, by simp [hs], hcs⟩

theorem chunks_flatten_uniform {ds : Nat} (hds : 1 ≤ ds) :
    ∀ {gs : List (List Char)}, (∀ g ∈ gs, g.length = ds) →
      chunks ds gs.flatten = gs := by
  intro gs
  induction gs with
  | nil => intro _; simp [chunks, chunksF]
  | cons g t ih =>
    intro hall
    rw [List.flatten_cons, chunks_cons_of_take hds (hall g (by simp))]
    rw [ih (fun x hx => hall x (by simp [hx]))]

theorem entryBytes_of_len4 {e : Rgba} (h : e.length = 4) : entryBytes e = e := by
  match e, h with
  | [a, b, c, d], _ => rfl

theorem chunks_length_of_dvd_aux {α : Type} {ds : Nat} (hds : 1 ≤ ds) :
    ∀ (n : Nat) (l : List α), l.length ≤ n → ds ∣ l.length →
      ∀ c ∈ chunks ds l, c.length = ds := by
  intro n
  induction n with
  | zero =>
    intro l hl _ c hc
    have : l = [] := List.eq_nil_of_length_eq_zero (by omega)
    subst this
    simp [chunks, chunksF] at hc
  | succ n ih =>
    intro l hl hdvd c hc
    cases l with
    | nil => simp [chunks, chunksF] at hc
    | cons a r =>
      have hlen1 : 1 ≤ (a :: r).length := by simp
      have hdsle : ds ≤ (a :: r).length := by
        rcases hdvd with ⟨m, hm⟩
        cases m with
        | zero => omega
        | succ m =>
          rw [hm]
          calc ds ≤ ds * (m + 1) := Nat.le_mul_of_pos_right ds (by omega)
            _ = _ := rfl
      have htake : ((a :: r).take ds).length = ds := by
        rw [List.length_take]
        omega
      have hsplit : (a :: r) = (a :: r).take ds ++ (a :: r).drop ds :=
        (List.take_append_drop ds (a :: r)).symm
      rw [hsplit, chunks_cons_of_take hds htake] at hc
      rcases List.mem_cons.mp hc with h1 | h1
      · rw [h1, htake]
      · have hdlen : ((a :: r).drop ds).length = (a :: r).length - ds := List.length_drop _ _
        refine ih ((a :: r).drop ds) (by omega) ?_ c h1
        rw [hdlen]
        exact Nat.dvd_sub' hdvd (Dvd.intro 1 (by omega))

theorem chunks_length_of_dvd {α : Type} {ds : Nat} (hds : 1 ≤ ds) {l : List α}
    (hdvd : ds ∣ l.length) : ∀ c ∈ chunks ds l, c.length = ds :=
  chunks_length_of_dvd_aux hds l.length l (le_refl _) hdvd

theorem mapM_eq_some_map {α β : Type} {f : α → Option β} {g : α → β} :
    ∀ {l : List α}, (∀ a ∈ l, f a = some (g a)) → l.mapM f = some (l.map g) := by
  intro l
  induction l with
  | nil => intro _; rfl
  | cons a r ih =>
    intro h
    rw [List.mapM_cons, h a (by simp), ih (fun x hx => h x (by simp [hx]))]
    rfl

theorem imageCombineLoop_fuel_irrel (ds threshold : Nat) :
    ∀ f g (nums : List Nat), nums.length ≤ f → nums.length ≤ g →
      imageCombineLoop ds threshold f nums = imageCombineLoop ds threshold g nums := by
  intro f
  induction f with
  | zero =>
    intro g nums hf _
    have : nums = [] := List.eq_nil_of_length_eq_zero (by omega)
    subst this
    cases g <;> rfl
  | succ f ih =>
    intro g nums hf hg
    cases nums with
    | nil => cases g <;> rfl
    | cons n rest =>
      cases g with
      | zero => simp at hg
      | succ g =>
        simp only [imageCombineLoop]
        have hdrop : (rest.drop ((1 + (rest.takeWhile (fun m => m == n)).length) - 1)).length
            ≤ rest.length := by
          rw [List.length_drop]
          omega
        have h1 : rest.length + 1 ≤ f + 1 := by simpa using hf
        have h2 : rest.length + 1 ≤ g + 1 := by simpa using hg
        rw [ih g _ (by omega) (by omega)]

theorem takeWhile_eq_replicate (n : Nat) (rest : List Nat) :
    rest.takeWhile (fun m => m == n)
      = List.replicate (rest.takeWhile (fun m => m == n)).length n := by
  apply List.eq_replicate_of_mem
  intro b hb
  have := List.mem_takeWhile_imp hb
  simpa using this

theorem dropWhile_eq_drop_len {α : Type} (p : α → Bool) (l : List α) :
    l.dropWhile p = l.drop (l.takeWhile p).length := by
  induction l with
  | nil => rfl
  | cons a r ih =>
    by_cases hp : p a
    · simp [List.dropWhile_cons, List.takeWhile_cons, hp, ih]
    · simp [List.dropWhile_cons, List.takeWhile_cons, hp]

theorem takeWhile_append_dropWhile_self (n : Nat) (rest : List Nat) :
    rest = List.replicate (rest.takeWhile (fun m => m == n)).length n
      ++ rest.drop (rest.takeWhile (fun m => m == n)).length := by
  conv_lhs => rw [← List.takeWhile_append_dropWhile (p := fun m => m == n) (l := rest)]
  rw [← takeWhile_eq_replicate]
  congr 1
  rw [dropWhile_eq_drop_len]

/-- Processing a run of `m` copies of a literal digit group `g` followed by
more input: advances `m` iterations and `m * ds` characters. -/
theorem unravel_lit_chunk (conf : PixelRendrConf) {full g : List Char} {ds : Nat}
    {c : Char} {t : List Char}
    (hglen : g.length = ds) (hgct : g = c :: t) (hx : c ≠ 'x') (hp : c ≠ 'p')
    (pr : List (List Char × List Char)) :
    ∀ (m fuel loc : Nat) (out rest2 : List Char),
      full.drop loc = (List.replicate m g).flatten ++ rest2 → m ≤ fuel →
      spriteUnravelLoop conf full fuel loc pr ds out =
        spriteUnravelLoop conf full (fuel - m) (loc + m * ds) pr ds
          (out ++ (List.replicate m
            (makeDigitS (jsGetD (alookup g pr)) (digitsizeDefault conf))).flatten) := by
  intro m
  induction m with
  | zero =>
    intro fuel loc out rest2 hdrop _
    simp
  | succ m ih =>
    intro fuel loc out rest2 hdrop hfuel
    cases fuel with
    | zero => omega
    | succ f =>
      have hsplit : full.drop loc = g ++ ((List.replicate m g).flatten ++ rest2) := by
        rw [hdrop, List.replicate_succ, List.flatten_cons, List.append_assoc]
      rw [unravel_step_lit conf hsplit hglen hgct hx hp]
      have hdrop2 : full.drop (loc + ds) = (List.replicate m g).flatten ++ rest2 := by
        have := drop_add_of_drop hsplit
        rw [hglen] at this
        exact this
      rw [ih f (loc + ds) _ _ hdrop2 (by omega)]
      have e1 : f - m = f + 1 - (m + 1) := by omega
      have e2 : loc + ds + m * ds = loc + (m + 1) * ds := by ring
      have e3 : (out ++ makeDigitS (jsGetD (alookup g pr)) (digitsizeDefault conf)) ++
          (List.replicate m
            (makeDigitS (jsGetD (alookup g pr)) (digitsizeDefault conf))).flatten
          = out ++ (List.replicate (m + 1)
            (makeDigitS (jsGetD (alookup g pr)) (digitsizeDefault conf))).flatten := by
        rw [List.replicate_succ, List.flatten_cons, List.append_assoc]
      rw [e1, e2, e3]

/-! ### Well-definedness and minimality of `getClosestInPalette` -/

theorem closestGo_isSome (palette : List Rgba) (rgba : List Nat) :
    ∀ (i : Nat) (bd bi : Option Nat), (bi.isSome ∨ (bd = none ∧ 1 ≤ i)) →
      (getClosestGo palette rgba i bd bi).isSome := by
  intro i
  induction i with
  | zero =>
    intro bd bi h
    rcases h with h | ⟨_, h⟩
    · rw [show getClosestGo palette rgba 0 bd bi = bi from rfl]
      exact h
    · omega
  | succ i ih =>
    intro bd bi h
    cases bd with
    | none => exact ih _ _ (Or.inl (by simp))
    | some b =>
      have hbi : bi.isSome := by
        rcases h with h | ⟨h, _⟩
        · exact h
        · cases h
      simp only [getClosestGo]
      by_cases hd : arrayDifference ((palette.get? i).getD []) rgba < b
      · rw [if_pos hd]
        exact ih _ _ (Or.inl (by simp))
      · rw [if_neg hd]
        exact ih _ _ (Or.inl hbi)

/-- Invariant-based specification of the descending scan: a returned index is
in range and minimizes the summed absolute channel difference. -/
theorem closestGo_spec (palette : List Rgba) (rgba : List Nat) :
    ∀ (i : Nat) (bd bi : Option Nat),
      i ≤ palette.length →
      ((bd = none ∧ bi = none ∧ i = palette.length) ∨
        (∃ b k, bd = some b ∧ bi = some k ∧ k < palette.length ∧
          arrayDifference ((palette.get? k).getD []) rgba = b ∧
          ∀ j, i ≤ j → j < palette.length →
            b ≤ arrayDifference ((palette.get? j).getD []) rgba)) →
      ∀ r, getClosestGo palette rgba i bd bi = some r →
        r < palette.length ∧
        ∀ j, j < palette.length →
          arrayDifference ((palette.get? r).getD []) rgba
            ≤ arrayDifference ((palette.get? j).getD []) rgba := by
  intro i
  induction i with
  | zero =>
    intro bd bi _ hinv r hr
    simp only [getClosestGo] at hr
    rcases hinv with ⟨_, hbi, _⟩ | ⟨b, k, _, hbi, hk, hdiff, hmin⟩
    · rw [hbi] at hr; cases hr
    · rw [hbi] at hr
      cases hr
      exact ⟨hk, fun j hj => by rw [hdiff]; exact hmin j (by omega) hj⟩
  | succ i ih =>
    intro bd bi hle hinv r hr
    have hiL : i < palette.length := by omega
    rcases hinv with ⟨hbd, hbi, hilen⟩ | ⟨b, k, hbd, hbi, hk, hdiff, hmin⟩
    · subst hbd; subst hbi
      simp only [getClosestGo] at hr
      refine ih (some _) (some i) (by omega) (Or.inr ⟨_, i, rfl, rfl, hiL, rfl, ?_⟩) r hr
      intro j hj1 hj2
      have : j = i := by omega
      subst this
      exact le_refl _
    · subst hbd; subst hbi
      simp only [getClosestGo] at hr
      by_cases hd : arrayDifference ((palette.get? i).getD []) rgba < b
      · rw [if_pos hd] at hr
        refine ih (some _) (some i) (by omega) (Or.inr ⟨_, i, rfl, rfl, hiL, rfl, ?_⟩) r hr
        intro j hj1 hj2
        rcases Nat.eq_or_lt_of_le hj1 with hj | hj
        · rw [← hj]
        · exact le_trans (le_of_lt hd) (hmin j (by omega) hj2)
      · rw [if_neg hd] at hr
        refine ih (some b) (some k) (by omega)
          (Or.inr ⟨b, k, rfl, rfl, hk, hdiff, ?_⟩) r hr
        intro j hj1 hj2
        rcases Nat.eq_or_lt_of_le hj1 with hj | hj
        · rw [← hj]; omega
        · exact hmin j (by omega) hj2

theorem getClosestInPalette_isSome {palette : List Rgba} (h : 1 ≤ palette.length)
    (rgba : List Nat) : (getClosestInPalette palette rgba).isSome :=
  closestGo_isSome palette rgba palette.length none none (Or.inr ⟨rfl, h⟩)

/-- Any index returned by `getClosestInPalette` is in range and achieves the
minimum summed absolute channel difference over the whole palette. -/
theorem getClosestInPalette_minimal {palette : List Rgba} {rgba : List Nat} {r : Nat}
    (h : getClosestInPalette palette rgba = some r) :
    r < palette.length ∧
    ∀ j, j < palette.length →
      arrayDifference ((palette.get? r).getD []) rgba
        ≤ arrayDifference ((palette.get? j).getD []) rgba :=
  closestGo_spec palette rgba palette.length none none (le_refl _)
    (Or.inl ⟨rfl, rfl, rfl⟩) r h

theorem alookup_getPaletteReference {parts : List (List Char)} {n : Nat}
    (hn : n < parts.length) :
    alookup (makeDigit n (getDigitSize parts)) (getPaletteReference parts)
      = some (makeDigitS (parts.getD n []) (getDigitSize parts)) := by
  show alookup (makeDigit n (getDigitSize parts))
      ((List.range parts.length).map (fun i =>
        (makeDigit i (getDigitSize parts),
         makeDigitS (parts.getD i []) (getDigitSize parts)))) = _
  exact alookup_map_eq (fun i => makeDigit i (getDigitSize parts))
    (fun i => makeDigitS (parts.getD i []) (getDigitSize parts))
    (List.mem_range.mpr hn)
    (fun x _ hkey => by
      have hkey2 : makeDigit x (getDigitSize parts) = makeDigit n (getDigitSize parts) := hkey
      have h1 := digitsVal_makeDigit x (getDigitSize parts)
      rw [hkey2, digitsVal_makeDigit] at h1
      show makeDigitS (parts.getD x []) (getDigitSize parts)
        = makeDigitS (parts.getD n []) (getDigitSize parts)
      rw [h1])

theorem makeDigit_lt10 {n : Nat} (hn : n < 10) : makeDigit n 1 = [digitChar n] := by
  unfold makeDigit
  rw [natToStr_step, if_pos hn]
  rfl

theorem imageCombineLoop_nil (ds thr f : Nat) : imageCombineLoop ds thr f [] = [] := by
  cases f <;> rfl

theorem imageCombineLoop_cons (ds thr fuel : Nat) (n : Nat) (rest : List Nat) :
    imageCombineLoop ds thr (fuel + 1) (n :: rest) =
      if thr < 1 + (rest.takeWhile (fun m => m == n)).length then
        'x' :: makeDigit n ds
          ++ natToStr (1 + (rest.takeWhile (fun m => m == n)).length)
          ++ ',' :: imageCombineLoop ds thr fuel
              (rest.drop ((1 + (rest.takeWhile (fun m => m == n)).length) - 1))
      else
        (List.replicate (1 + (rest.takeWhile (fun m => m == n)).length)
          (makeDigit n ds)).flatten
          ++ imageCombineLoop ds thr fuel
              (rest.drop ((1 + (rest.takeWhile (fun m => m == n)).length) - 1)) := rfl

/-- Processing the run-length-compressed body emitted by `imageCombinePixels`
with a 1-digit custom palette reference: every number decodes through `f`. -/
theorem unravel_combineLoop (conf : PixelRendrConf) {full : List Char}
    {pr : List (List Char × List Char)} {W : Nat} {f : Nat → List Char}
    (hW : W ≤ 9)
    (hsem : ∀ n, n < W →
      makeDigitS (jsGetD (alookup (makeDigit n 1) pr)) (digitsizeDefault conf) = f n)
    (thr : Nat) :
    ∀ (len : Nat) (nums : List Nat), nums.length ≤ len →
      ∀ (fuel loc : Nat) (out : List Char),
      (∀ n ∈ nums, n < W) →
      full.drop loc = imageCombineLoop 1 thr nums.length nums →
      (imageCombineLoop 1 thr nums.length nums).length + 1 ≤ fuel →
      spriteUnravelLoop conf full fuel loc pr 1 out = some (out ++ (nums.map f).flatten) := by
  intro len
  induction len with
  | zero =>
    intro nums hlen fuel loc out _ hdrop hfuel
    have hnil : nums = [] := List.eq_nil_of_length_eq_zero (by omega)
    subst hnil
    rw [imageCombineLoop_nil] at hdrop hfuel
    have hloc : full.length ≤ loc := by
      by_contra hcon
      have h1 : (full.drop loc).length = full.length - loc := List.length_drop _ _
      rw [hdrop] at h1
      simp at h1
      omega
    rw [unravel_end_any conf hloc (by simpa using hfuel)]
    simp
  | succ len ih =>
    intro nums hlen fuel loc out hmem hdrop hfuel
    cases nums with
    | nil =>
      rw [show ([] : List Nat).length = 0 from rfl, imageCombineLoop_nil] at hdrop hfuel
      have hloc : full.length ≤ loc := by
        by_contra hcon
        have h1 : (full.drop loc).length = full.length - loc := List.length_drop _ _
        rw [hdrop] at h1
        simp at h1
        omega
      rw [unravel_end_any conf hloc (by simpa using hfuel)]
      simp
    | cons n rest =>
      have hnW : n < W := hmem n (by simp)
      have hn10 : n < 10 := by omega
      have hdig : makeDigit n 1 = [digitChar n] := makeDigit_lt10 hn10
      have hdiglen : (makeDigit n 1).length = 1 := by rw [hdig]; rfl
      -- abbreviations for the leading run
      have hkpos : 1 ≤ 1 + (rest.takeWhile (fun m => m == n)).length := by omega
      have hrest : rest = List.replicate (rest.takeWhile (fun m => m == n)).length n
          ++ rest.drop (rest.takeWhile (fun m => m == n)).length :=
        takeWhile_append_dropWhile_self n rest
      have hul : (n :: rest) = List.replicate (1 + (rest.takeWhile (fun m => m == n)).length) n
          ++ rest.drop (rest.takeWhile (fun m => m == n)).length := by
        conv_lhs => rw [hrest]
        rw [show 1 + (rest.takeWhile (fun m => m == n)).length
              = (rest.takeWhile (fun m => m == n)).length + 1 by omega]
        rw [List.replicate_succ]
        rfl
      have hdropmem : ∀ m ∈ rest.drop (rest.takeWhile (fun m => m == n)).length, m < W :=
        fun m hm => hmem m (by
          have := List.drop_subset (rest.takeWhile (fun m2 => m2 == n)).length rest
          exact List.mem_cons_of_mem n (this hm))
      have hdroplen : (rest.drop (rest.takeWhile (fun m => m == n)).length).length ≤ len := by
        rw [List.length_drop]
        have : (n :: rest).length ≤ len + 1 := hlen
        simp at this
        omega
      -- canonical tail body
      have hfirr : imageCombineLoop 1 thr rest.length
            (rest.drop ((1 + (rest.takeWhile (fun m => m == n)).length) - 1))
          = imageCombineLoop 1 thr
            (rest.drop (rest.takeWhile (fun m => m == n)).length).length
            (rest.drop (rest.takeWhile (fun m => m == n)).length) := by
        rw [show (1 + (rest.takeWhile (fun m => m == n)).length) - 1
              = (rest.takeWhile (fun m => m == n)).length by omega]
        apply imageCombineLoop_fuel_irrel
        · rw [List.length_drop]
          omega
        · exact le_refl _
      rw [show (n :: rest).length = rest.length + 1 from rfl, imageCombineLoop_cons,
        hfirr] at hdrop hfuel
      by_cases hbr : thr < 1 + (rest.takeWhile (fun m => m == n)).length
      · -- run-length branch
        rw [if_pos hbr] at hdrop hfuel
        cases fuel with
        | zero => simp at hfuel
        | succ fl =>
          have hshape : full.drop loc = 'x' :: (makeDigit n 1
              ++ natToStr (1 + (rest.takeWhile (fun m => m == n)).length)
              ++ ',' :: imageCombineLoop 1 thr
                  (rest.drop (rest.takeWhile (fun m => m == n)).length).length
                  (rest.drop (rest.takeWhile (fun m => m == n)).length)) := hdrop
          rw [unravel_step_x conf hshape hdiglen
            (all_digits_not_mem (makeDigit_all_digits n 1) (by decide))
            (all_digits_not_mem (natToStr_all_digits _) (by decide))]
          rw [jsNumber_natToStr, Option.getD_some, hsem n hnW]
          have hdropnext : full.drop (loc + 1 + ((makeDigit n 1).length
              + (natToStr (1 + (rest.takeWhile (fun m => m == n)).length)).length) + 1)
              = imageCombineLoop 1 thr
                  (rest.drop (rest.takeWhile (fun m => m == n)).length).length
                  (rest.drop (rest.takeWhile (fun m => m == n)).length) := by
            have hg : full.drop loc = ('x' :: (makeDigit n 1
                ++ natToStr (1 + (rest.takeWhile (fun m => m == n)).length) ++ [',']))
                ++ imageCombineLoop 1 thr
                    (rest.drop (rest.takeWhile (fun m => m == n)).length).length
                    (rest.drop (rest.takeWhile (fun m => m == n)).length) := by
              rw [hshape]
              simp
            have := drop_add_of_drop hg
            rw [show ('x' :: (makeDigit n 1
                ++ natToStr (1 + (rest.takeWhile (fun m => m == n)).length) ++ [','])).length
                = 1 + ((makeDigit n 1).length
                  + (natToStr (1 + (rest.takeWhile (fun m => m == n)).length)).length) + 1 by
              simp
              omega] at this
            rw [show loc + (1 + ((makeDigit n 1).length
                + (natToStr (1 + (rest.takeWhile (fun m => m == n)).length)).length) + 1)
                = loc + 1 + ((makeDigit n 1).length
                  + (natToStr (1 + (rest.takeWhile (fun m => m == n)).length)).length) + 1 by
              omega] at this
            exact this
          rw [ih _ hdroplen fl _ _ hdropmem hdropnext (by
            simp only [List.length_cons, List.length_append] at hfuel
            omega)]
          conv_rhs => rw [hul]
          rw [List.map_append, List.map_replicate, List.flatten_append, ← List.append_assoc]
      · -- literal branch
        rw [if_neg hbr] at hdrop hfuel
        rw [unravel_lit_chunk conf hdiglen hdig (by
            have := digitChar_isDigit hn10
            exact (isDigitC_ne_special this).1)
          (by
            have := digitChar_isDigit hn10
            exact (isDigitC_ne_special this).2.1) pr
          (1 + (rest.takeWhile (fun m => m == n)).length) fuel loc out
          (imageCombineLoop 1 thr
            (rest.drop (rest.takeWhile (fun m => m == n)).length).length
            (rest.drop (rest.takeWhile (fun m => m == n)).length)) hdrop
          (by
            rw [List.length_append, flatten_replicate_length, hdiglen] at hfuel
            omega)]
        rw [hsem n hnW]
        have hdropnext : full.drop (loc + (1 + (rest.takeWhile (fun m => m == n)).length) * 1)
            = imageCombineLoop 1 thr
                (rest.drop (rest.takeWhile (fun m => m == n)).length).length
                (rest.drop (rest.takeWhile (fun m => m == n)).length) := by
          have hg : full.drop loc = (List.replicate
              (1 + (rest.takeWhile (fun m => m == n)).length) (makeDigit n 1)).flatten
              ++ imageCombineLoop 1 thr
                  (rest.drop (rest.takeWhile (fun m => m == n)).length).length
                  (rest.drop (rest.takeWhile (fun m => m == n)).length) := hdrop
          have := drop_add_of_drop hg
          rw [flatten_replicate_length, hdiglen] at this
          exact this
        rw [ih _ hdroplen _ _ _ hdropmem hdropnext (by
          rw [List.length_append, flatten_replicate_length, hdiglen] at hfuel
          omega)]
        conv_rhs => rw [hul]
        rw [List.map_append, List.map_replicate, List.flatten_append, ← List.append_assoc]

theorem getD_mem {α : Type} : ∀ {l : List α} {n : Nat}, n < l.length → ∀ (x : α),
    l.getD n x ∈ l := by
  intro l
  induction l with
  | nil => intro n hn; simp at hn
  | cons a r ih =>
    intro n hn x
    cases n with
    | zero => simp
    | succ n =>
      have := ih (n := n) (by simpa using hn) x
      exact List.mem_cons_of_mem a this

theorem get?_getD_of_lt {α : Type} : ∀ {l : List α} {n : Nat}, n < l.length → ∀ (x : α),
    l.get? n = some (l.getD n x) := by
  intro l
  induction l with
  | nil => intro n hn; simp at hn
  | cons a r ih =>
    intro n hn x
    cases n with
    | zero => rfl
    | succ n => exact ih (by simpa using hn) x

theorem getD_indexOf_self {α : Type} [DecidableEq α] : ∀ {l : List α} {p : α}, p ∈ l →
    ∀ (x : α), l.getD (l.indexOf p) x = p := by
  intro l
  induction l with
  | nil => intro p hp; cases hp
  | cons a r ih =>
    intro p hp x
    by_cases hap : p = a
    · subst hap
      simp [List.indexOf_cons_self]
    · have hpr : p ∈ r := by
        rcases List.mem_cons.mp hp with h | h
        · exact absurd h hap
        · exact h
      rw [List.indexOf_cons_ne _ (fun h => hap h.symm)]
      exact ih hpr x

theorem getD_map_lt {α β : Type} (f : α → β) : ∀ {l : List α} {n : Nat}, n < l.length →
    ∀ (y : β) (x : α), (l.map f).getD n y = f (l.getD n x) := by
  intro l
  induction l with
  | nil => intro n hn; simp at hn
  | cons a r ih =>
    intro n hn y x
    cases n with
    | zero => rfl
    | succ n => exact ih (by simpa using hn) y x

theorem flatten_length_uniform {α : Type} {k : Nat} : ∀ {gs : List (List α)},
    (∀ g ∈ gs, g.length = k) → gs.flatten.length = gs.length * k := by
  intro gs
  induction gs with
  | nil => intro _; simp
  | cons g t ih =>
    intro h
    rw [List.flatten_cons, List.length_append, h g (by simp),
      ih (fun x hx => h x (by simp [hx]))]
    simp [List.length_cons]
    ring

theorem entryBytes_length (e : Rgba) : (entryBytes e).length = 4 := by
  simp [entryBytes]

theorem foldl_dist_acc (l : List (Nat × Nat)) :
    ∀ acc, l.foldl (fun s p => s + Nat.dist p.1 p.2) acc
      = acc + l.foldl (fun s p => s + Nat.dist p.1 p.2) 0 := by
  induction l with
  | nil => intro acc; simp
  | cons a r ih =>
    intro acc
    rw [List.foldl_cons, List.foldl_cons, ih (acc + Nat.dist a.1 a.2),
      ih (0 + Nat.dist a.1 a.2)]
    omega

theorem arrayDifference_cons (x y : Nat) (a b : List Nat) :
    arrayDifference (x :: a) (y :: b) = Nat.dist x y + arrayDifference a b := by
  unfold arrayDifference
  rw [List.zip_cons_cons, List.foldl_cons]
  show (a.zip b).foldl (fun s p => s + Nat.dist p.1 p.2) (0 + Nat.dist x y) = _
  rw [foldl_dist_acc]
  omega

theorem arrayDifference_self (a : List Nat) : arrayDifference a a = 0 := by
  induction a with
  | nil => rfl
  | cons x r ih => rw [arrayDifference_cons, ih, Nat.dist_self]

theorem arrayDifference_eq_zero {a b : List Nat} (hlen : a.length = b.length)
    (h : arrayDifference a b = 0) : a = b := by
  induction a generalizing b with
  | nil =>
    cases b with
    | nil => rfl
    | cons y t => simp at hlen
  | cons x r ih =>
    cases b with
    | nil => simp at hlen
    | cons y t =>
      rw [arrayDifference_cons] at h
      have hd : Nat.dist x y = 0 := by omega
      have hxy : x = y := Nat.eq_of_dist_eq_zero hd
      have ht : r = t := ih (by simpa using hlen) (by omega)
      rw [hxy, ht]

theorem spriteExpand_scale_one {conf : PixelRendrConf} (h1 : conf.scale = 1)
    (hds : 1 ≤ digitsizeDefault conf) (s : List Char) : spriteExpand conf s = s := by
  unfold spriteExpand
  rw [h1]
  have : ∀ g ∈ chunks (digitsizeDefault conf) s,
      (List.replicate 1 g).flatten = id g := by
    intro g _
    simp
  rw [List.map_congr_left this, List.map_id]
  exact join_chunks hds s

/-- `spriteGetArray` on a string of per-pixel digit groups produces four bytes
per group, from the default palette. -/
theorem spriteGetArray_of_groups (conf : PixelRendrConf) (pix : List Nat)
    (hpix : ∀ p ∈ pix, p < conf.paletteDefault.length) :
    spriteGetArray conf ((pix.map (fun p => makeDigit p (digitsizeDefault conf))).flatten)
      = some ((pix.map (fun p =>
          entryBytes (conf.paletteDefault.getD p []))).flatten) := by
  have hds1 : 1 ≤ digitsizeDefault conf := natToStr_length_pos _
  have hglen : ∀ p ∈ pix, (makeDigit p (digitsizeDefault conf)).length
      = digitsizeDefault conf := by
    intro p hp
    exact makeDigitS_length (natToStr_length_mono (le_of_lt (hpix p hp)))
  have hglen2 : ∀ g ∈ pix.map (fun p => makeDigit p (digitsizeDefault conf)),
      g.length = digitsizeDefault conf := by
    intro g hg
    rcases List.mem_map.mp hg with ⟨p, hp, hpg⟩
    rw [← hpg]
    exact hglen p hp
  have hflat : ((pix.map (fun p => makeDigit p (digitsizeDefault conf))).flatten).length
      = pix.length * digitsizeDefault conf := by
    rw [flatten_length_uniform hglen2, List.length_map]
  unfold spriteGetArray
  rw [if_pos (by rw [hflat]; exact Dvd.intro (4 * pix.length) (by ring))]
  rw [chunks_flatten_uniform hds1 hglen2]
  rw [mapM_eq_some_map (g := fun grp =>
    entryBytes (conf.paletteDefault.getD (digitsVal grp) [])) (by
      intro a ha
      rcases List.mem_map.mp ha with ⟨p, hp, hpa⟩
      subst hpa
      simp only [jsNumber_makeDigit, Option.some_bind]
      rw [get?_getD_of_lt (hpix p hp) []]
      simp [digitsVal_makeDigit])]
  simp only [Option.map_some']
  congr 1
  rw [List.map_map]
  have hmapeq : pix.map ((fun grp =>
      entryBytes (conf.paletteDefault.getD (digitsVal grp) []))
        ∘ (fun p => makeDigit p (digitsizeDefault conf)))
      = pix.map (fun p => entryBytes (conf.paletteDefault.getD p [])) := by
    apply List.map_congr_left
    intro p _
    simp [digitsVal_makeDigit]
  rw [hmapeq]
  have hbytes : ∀ g ∈ pix.map (fun p => entryBytes (conf.paletteDefault.getD p [])),
      g.length = 4 := by
    intro g hg
    rcases List.mem_map.mp hg with ⟨p, _, hpg⟩
    rw [← hpg]
    exact entryBytes_length _
  have hblen : ((pix.map (fun p =>
      entryBytes (conf.paletteDefault.getD p []))).flatten).length = pix.length * 4 := by
    rw [flatten_length_uniform hbytes, List.length_map]
  rw [hflat]
  rw [show 4 * (pix.length * digitsizeDefault conf) / digitsizeDefault conf
      = pix.length * 4 by
    rw [show 4 * (pix.length * digitsizeDefault conf)
        = (pix.length * 4) * digitsizeDefault conf by ring]
    exact Nat.mul_div_cancel _ (by omega)]
  rw [← hblen, List.take_length]

/-- Unraveling the full output of `imageCombinePixels` (working palette digit
size 1): the `p[...]` prefix installs the working palette reference, and every
number then decodes to its default-palette index at the default digit size. -/
theorem unravel_encode (conf : PixelRendrConf) (occ numbers : List Nat)
    (hW9 : occ.length ≤ 9)
    (hnum : ∀ m ∈ numbers, m < occ.length) :
    spriteUnravel conf (imageCombinePixels occ numbers 1)
      = some ((numbers.map
          (fun n => makeDigit (occ.getD n 0) (digitsizeDefault conf))).flatten) := by
  have hpal1 : occ.map (fun p => makeDigitS (natToStr p) 1) = occ.map natToStr := by
    apply List.map_congr_left
    intro p _
    exact makeDigitS_of_le (natToStr_length_pos p)
  have hdigits : ∀ s ∈ occ.map natToStr, ∀ c ∈ s, isDigitC c = true := by
    intro s hs c hc
    rcases List.mem_map.mp hs with ⟨o, _, hos⟩
    rw [← hos] at hc
    exact List.all_eq_true.mp (natToStr_all_digits o) c hc
  have hin : ']' ∉ joinComma (occ.map natToStr) := by
    intro h
    rcases mem_joinComma h with h1 | ⟨s, hs, hcs⟩
    · cases h1
    · have := hdigits s hs ']' hcs
      simp [isDigitC] at this
  have hnb : ',' ∉ joinComma (occ.map natToStr) → True := fun _ => trivial
  unfold imageCombinePixels
  rw [hpal1]
  have hshape : ('p' :: '[' :: joinComma (occ.map natToStr)
      ++ ']' :: imageCombineLoop 1 (max 3 (jsRound4Div 1)) numbers.length numbers).drop 0
      = 'p' :: '[' :: (joinComma (occ.map natToStr)
        ++ ']' :: imageCombineLoop 1 (max 3 (jsRound4Div 1)) numbers.length numbers) := rfl
  unfold spriteUnravel
  rw [unravel_step_p_custom conf hshape hin (by
    rw [show ('p' :: '[' :: joinComma (occ.map natToStr)
        ++ ']' :: imageCombineLoop 1 (max 3 (jsRound4Div 1)) numbers.length numbers).take (0 + 2)
        = ['p', '['] from rfl]
    decide)]
  have hdropbody : ('p' :: '[' :: joinComma (occ.map natToStr)
      ++ ']' :: imageCombineLoop 1 (max 3 (jsRound4Div 1)) numbers.length numbers).drop
        (0 + 2 + (joinComma (occ.map natToStr)).length + 1)
      = imageCombineLoop 1 (max 3 (jsRound4Div 1)) numbers.length numbers := by
    have hg : ('p' :: '[' :: joinComma (occ.map natToStr)
        ++ ']' :: imageCombineLoop 1 (max 3 (jsRound4Div 1)) numbers.length numbers).drop 0
        = ('p' :: '[' :: joinComma (occ.map natToStr) ++ [']'])
          ++ imageCombineLoop 1 (max 3 (jsRound4Div 1)) numbers.length numbers := by
      simp
    have := drop_add_of_drop hg
    rw [show ('p' :: '[' :: joinComma (occ.map natToStr) ++ [']']).length
        = (joinComma (occ.map natToStr)).length + 3 by simp] at this
    rw [show 0 + 2 + (joinComma (occ.map natToStr)).length + 1
        = 0 + ((joinComma (occ.map natToStr)).length + 3) by omega]
    exact this
  -- the working palette reference after the prefix
  by_cases hocc : occ = []
  · -- no pixels at all: the body is empty and the reference is never consulted
    subst hocc
    have hnumnil : numbers = [] := by
      cases numbers with
      | nil => rfl
      | cons m r => exact absurd (hnum m (by simp)) (by simp)
    subst hnumnil
    rw [unravel_combineLoop conf (W := 0) (f := fun n =>
        makeDigit (([] : List Nat).getD n 0) (digitsizeDefault conf))
      (by omega) (by intro n hn; omega) (max 3 (jsRound4Div 1)) 0 []
      (le_refl _) _ _ [] (by intro n hn; cases hn) hdropbody (by
        simp only [List.length_cons, List.length_append]
        omega)]
    simp
  · have hWpos : 1 ≤ occ.length := by
      cases occ with
      | nil => exact absurd rfl hocc
      | cons a r => simp
    have hsplit : splitComma (joinComma (occ.map natToStr)) = occ.map natToStr := by
      apply splitComma_joinComma
      · intro hcon
        rw [List.map_eq_nil_iff] at hcon
        exact hocc hcon
      · intro s hs
        exact all_digits_not_mem (List.all_eq_true.mpr (hdigits s hs)) (by decide)
    rw [hsplit]
    have hds : getDigitSize (occ.map natToStr) = 1 := by
      unfold getDigitSize
      rw [List.length_map]
      exact natToStr_length_lt10 (by omega)
    have hsem : ∀ n, n < occ.length →
        makeDigitS (jsGetD (alookup (makeDigit n 1)
            (getPaletteReference (occ.map natToStr)))) (digitsizeDefault conf)
          = makeDigit (occ.getD n 0) (digitsizeDefault conf) := by
      intro n hn
      have hlook := @alookup_getPaletteReference
        (occ.map natToStr) n (by rw [List.length_map]; exact hn)
      rw [hds] at hlook
      rw [hlook]
      rw [getD_map_lt natToStr hn [] 0]
      rw [show jsGetD (some (makeDigitS (natToStr (occ.getD n 0)) 1))
            = makeDigitS (natToStr (occ.getD n 0)) 1 from rfl]
      rw [makeDigitS_of_le (natToStr_length_pos _)]
      rfl
    rw [unravel_combineLoop conf hW9 hsem (max 3 (jsRound4Div 1)) numbers.length numbers
      (le_refl _) _ _ [] hnum hdropbody (by
        simp only [List.length_cons, List.length_append]
        omega)]
    simp

/-- The length of the working palette (`Object.keys(occurences)`) an image
produces, i.e. the number of distinct quantized colors. -/
def workingPaletteSize (conf : PixelRendrConf) (data : List Nat) : Nat :=
  ((imageGetPixels conf data).map (fun po => po.2.length)).getD 0

theorem decode_encode_main (conf : PixelRendrConf) (data : List Nat)
    (hscale : conf.scale = 1)
    (hL : 1 ≤ conf.paletteDefault.length)
    (hentry : ∀ e ∈ conf.paletteDefault, e.length = 4)
    (hdata : 4 ∣ data.length)
    (hW : workingPaletteSize conf data ≤ 9) :
    ∃ enc, encodePixels conf data = some enc ∧
      decodeBase conf enc none = quantizeImage conf data ∧
      ((∀ px ∈ chunks 4 data, px ∈ conf.paletteDefault) →
        quantizeImage conf data = some data) := by
  have hds1 : 1 ≤ digitsizeDefault conf := natToStr_length_pos _
  have hcl : ∀ px, getClosestInPalette conf.paletteDefault px
      = some ((getClosestInPalette conf.paletteDefault px).getD 0) := by
    intro px
    have h := getClosestInPalette_isSome hL px
    cases hx : getClosestInPalette conf.paletteDefault px with
    | none => rw [hx] at h; cases h
    | some r => rfl
  have hpixM : (chunks 4 data).mapM (getClosestInPalette conf.paletteDefault)
      = some ((chunks 4 data).map
          (fun px => (getClosestInPalette conf.paletteDefault px).getD 0)) :=
    mapM_eq_some_map (fun a _ => hcl a)
  set pix := (chunks 4 data).map
    (fun px => (getClosestInPalette conf.paletteDefault px).getD 0) with hpix_def
  set occ := (List.range conf.paletteDefault.length).filter (· ∈ pix) with hocc_def
  have himg : imageGetPixels conf data = some (pix, occ) := by
    unfold imageGetPixels
    rw [hpixM]
    rfl
  have hWocc : occ.length ≤ 9 := by
    unfold workingPaletteSize at hW
    rw [himg] at hW
    simpa using hW
  have hpixlt : ∀ p ∈ pix, p < conf.paletteDefault.length := by
    intro p hp
    rw [hpix_def] at hp
    rcases List.mem_map.mp hp with ⟨px, _, hppx⟩
    obtain ⟨r, hr⟩ := Option.isSome_iff_exists.mp (getClosestInPalette_isSome hL px)
    have hrL := (getClosestInPalette_minimal hr).1
    rw [← hppx, hr]
    exact hrL
  have hpixocc : ∀ p ∈ pix, p ∈ occ := by
    intro p hp
    rw [hocc_def]
    apply List.mem_filter.mpr
    exact ⟨List.mem_range.mpr (hpixlt p hp), by simp [hp]⟩
  set numbers := pix.map (fun p => occ.indexOf p) with hnum_def
  have hnumlt : ∀ m ∈ numbers, m < occ.length := by
    intro m hm
    rw [hnum_def] at hm
    rcases List.mem_map.mp hm with ⟨p, hp, hpm⟩
    rw [← hpm]
    exact List.indexOf_lt_length.mpr (hpixocc p hp)
  have hds_occ : getDigitSize occ = 1 := by
    unfold getDigitSize
    exact natToStr_length_lt10 (by omega)
  have henc : encodePixels conf data = some (imageCombinePixels occ numbers 1) := by
    unfold encodePixels
    rw [himg]
    simp only [Option.map_some']
    unfold imageMapPalette
    rw [hds_occ]
  refine ⟨imageCombinePixels occ numbers 1, henc, ?_, ?_⟩
  · unfold decodeBase
    rw [unravel_encode conf occ numbers hWocc hnumlt]
    simp only [Option.some_bind]
    rw [show spriteApplyFilter conf ((numbers.map
        (fun n => makeDigit (occ.getD n 0) (digitsizeDefault conf))).flatten) none
      = (numbers.map
        (fun n => makeDigit (occ.getD n 0) (digitsizeDefault conf))).flatten from rfl]
    rw [spriteExpand_scale_one hscale hds1]
    have hmapswap : numbers.map (fun n => makeDigit (occ.getD n 0) (digitsizeDefault conf))
        = pix.map (fun p => makeDigit p (digitsizeDefault conf)) := by
      rw [hnum_def, List.map_map]
      apply List.map_congr_left
      intro p hp
      simp only [Function.comp_apply]
      rw [getD_indexOf_self (hpixocc p hp) 0]
    rw [hmapswap]
    rw [spriteGetArray_of_groups conf pix hpixlt]
    unfold quantizeImage
    rw [mapM_eq_some_map (g := fun px => conf.paletteDefault.getD
        ((getClosestInPalette conf.paletteDefault px).getD 0) []) (by
      intro px _
      obtain ⟨r, hr⟩ := Option.isSome_iff_exists.mp (getClosestInPalette_isSome hL px)
      rw [hr]
      simp only [Option.some_bind]
      rw [get?_getD_of_lt (getClosestInPalette_minimal hr).1 []]
      rw [hr]
      rfl)]
    simp only [Option.map_some']
    congr 1
    rw [hpix_def, List.map_map]
    apply congrArg List.flatten
    apply List.map_congr_left
    intro px _
    simp only [Function.comp_apply]
    apply entryBytes_of_len4
    apply hentry
    apply getD_mem
    obtain ⟨r, hr⟩ := Option.isSome_iff_exists.mp (getClosestInPalette_isSome hL px)
    rw [hr]
    exact (getClosestInPalette_minimal hr).1
  · intro hexact
    unfold quantizeImage
    rw [mapM_eq_some_map (g := fun px => px) (by
      intro px hpx
      obtain ⟨r, hr⟩ := Option.isSome_iff_exists.mp (getClosestInPalette_isSome hL px)
      rw [hr]
      simp only [Option.some_bind]
      have hrL := (getClosestInPalette_minimal hr).1
      rw [get?_getD_of_lt hrL []]
      congr 1
      obtain ⟨j, hj⟩ := List.get?_of_mem (hexact px hpx)
      have hjL : j < conf.paletteDefault.length := by
        by_contra hcon
        rw [List.get?_eq_none.mpr (by omega)] at hj
        cases hj
      have hmin := (getClosestInPalette_minimal hr).2 j hjL
      rw [hj] at hmin
      rw [show (conf.paletteDefault.get? r).getD []
          = conf.paletteDefault.getD r [] from rfl] at hmin
      rw [show (some px).getD ([] : Rgba) = px from rfl] at hmin
      rw [arrayDifference_self] at hmin
      have hzero : arrayDifference (conf.paletteDefault.getD r []) px = 0 := by omega
      exact arrayDifference_eq_zero (by
        rw [hentry _ (getD_mem hrL [])]
        exact (chunks_length_of_dvd (by omega) hdata px hpx).symm) hzero)]
    simp only [Option.map_some']
    congr 1
    rw [show (chunks 4 data).map (fun px => px) = chunks 4 data from List.map_id _]
    exact join_chunks (by omega) data

/-- Ten grayscale palette entries and an image holding each exactly once:
after quantization the working palette has 10 entries, so the encoder writes
2-character digits while the decoder reads 1-character digits after `p[`. -/
def confC2 : PixelRendrConf := ⟨(List.range 10).map (fun i => [i, i, i, 255]), 1⟩

/-- The pixel buffer using each of `confC2`'s palette colors exactly once. -/
def imgC2 : List Nat := ((List.range 10).map (fun i => [i, i, i, 255])).flatten

set_option maxRecDepth 40000 in
/-- Counterexample to C2 as stated: for this image the decode of the encode
is a thrown error (`none`), not the quantized image — which here equals the
image itself, so the exact-reproduction half fails too. -/
theorem decode_encode_fails_ten_colors :
    ((encodePixels confC2 imgC2).bind (fun enc => decodeBase confC2 enc none) = none) ∧
    quantizeImage confC2 imgC2 = some imgC2 ∧
    (∀ px ∈ chunks 4 imgC2, px ∈ confC2.paletteDefault) := by
  refine ⟨by decide, by decide, by decide⟩

/-- C2 (amended): for every image whose quantization uses at most 9 distinct
palette colors (working palette digit size 1), decoding the text produced by
the encode pipeline yields the quantized image, in which each pixel is
replaced by its nearest default-palette entry (minimum summed absolute
channel difference — the minimality is the second conjunct); when such an
image already uses exactly the palette's colors, decode(encode(image))
reproduces the image's pixel buffer exactly.  (With ≥ 10 distinct colors the
digit sizes of encoder and decoder disagree and decoding fails; see the
counterexample.) -/
theorem decodeEncode_eq_quantize (conf : PixelRendrConf) (data : List Nat)
    (hscale : conf.scale = 1)
    (hL : 1 ≤ conf.paletteDefault.length)
    (hentry : ∀ e ∈ conf.paletteDefault, e.length = 4)
    (hdata : 4 ∣ data.length)
    (hW : workingPaletteSize conf data ≤ 9) :
    (∃ enc, encodePixels conf data = some enc ∧
      decodeBase conf enc none = quantizeImage conf data ∧
      ((∀ px ∈ chunks 4 data, px ∈ conf.paletteDefault) →
        quantizeImage conf data = some data)) ∧
    (∀ (px : List Nat) (r : Nat), getClosestInPalette conf.paletteDefault px = some r →
      ∀ j, j < conf.paletteDefault.length →
        arrayDifference ((conf.paletteDefault.get? r).getD []) px
          ≤ arrayDifference ((conf.paletteDefault.get? j).getD []) px) :=
  ⟨decode_encode_main conf data hscale hL hentry hdata hW,
   fun _ r hr j hj => (getClosestInPalette_minimal hr).2 j hj⟩

/-- A 2-pixel image using exactly the two opaque colors of the C6 palette. -/
def imgC2w : List Nat := [0, 0, 0, 0, 255, 0, 0, 255]

/-- Witness for C2 (amended) at a concrete palette and image. -/
theorem decodeEncode_eq_quantize_witness :
    (confC6.scale = 1 ∧ 1 ≤ confC6.paletteDefault.length ∧
      (∀ e ∈ confC6.paletteDefault, e.length = 4) ∧ 4 ∣ imgC2w.length ∧
      workingPaletteSize confC6 imgC2w ≤ 9) ∧
    ((∃ enc, encodePixels confC6 imgC2w = some enc ∧
      decodeBase confC6 enc none = quantizeImage confC6 imgC2w ∧
      ((∀ px ∈ chunks 4 imgC2w, px ∈ confC6.paletteDefault) →
        quantizeImage confC6 imgC2w = some imgC2w)) ∧
    (∀ (px : List Nat) (r : Nat), getClosestInPalette confC6.paletteDefault px = some r →
      ∀ j, j < confC6.paletteDefault.length →
        arrayDifference ((confC6.paletteDefault.get? r).getD []) px
          ≤ arrayDifference ((confC6.paletteDefault.get? j).getD []) px)) :=
  ⟨⟨by decide, by decide, by decide, by decide, by decide⟩,
   decodeEncode_eq_quantize confC6 imgC2w (by decide) (by decide) (by decide)
     (by decide) (by decide)⟩

/-! ## StringFilr: the class-token lookup tree

Embedding of `StringFilr.prototype.get / followClass` and the parts of
`PixelRendr.prototype.decode / processSpriteMultiple` that consume them.
Library values are inner objects (token → child), decoded single sprites
(`Uint8ClampedArray`s) or `SpriteMultiple` records (of which the embedding
keeps the fields `decode` reads: `multiple`, `sprites`, `processed` and
`direction`). -/

inductive SpriteNode where
  /-- An inner object with no (further) own properties. -/
  | objNil
  /-- An inner object whose first own property is `key ↦ child`, with the
  remaining properties in `rest` (an object node): the property list of a JS
  object in insertion order, written as a spine. -/
  | objCons (key : List Char) (child : SpriteNode) (rest : SpriteNode)
  | single (bytes : List Nat)
  | mult (direction : List Char) (sprites : List (List Char × List Nat)) (processed : Bool)
deriving DecidableEq

/-- JS `current.hasOwnProperty(key) ? current[key] : undefined` on a library
node.  A decoded `Uint8ClampedArray` owns only its numeric indices, and a
`SpriteMultiple`'s own field names (`multiple`, `sprites`, …) are record
bookkeeping, not class tokens; neither contributes child nodes. -/
def childOf : SpriteNode → List Char → Option SpriteNode
  | .objCons k child rest, key => if k = key then some child else childOf rest key
  | _, _ => none

/-- Size measure of a library tree (used only as loop fuel). -/
def nodeSize : SpriteNode → Nat
  | .objCons _ child rest => 1 + nodeSize child + nodeSize rest
  | _ => 1

/-- The scan of `followClass`'s `for` loop: the first key owned by `current`,
with the spliced remainder of the key list. -/
def firstMatch (current : SpriteNode) : List (List Char) → Option (SpriteNode × List (List Char))
  | [] => none
  | k :: rest =>
    match childOf current k with
    | some child => some (child, rest)
    | none => (firstMatch current rest).map (fun p => (p.1, k :: p.2))

/-- JS `followClass`, with fuel (the recursion descends one tree level per
call, so any fuel of at least the node's size is enough; the wrapper passes
`nodeSize`).  `normal = none` embeds a falsy `this.normal`. -/
def followClassF (normal : Option (List Char)) : Nat → List (List Char) → SpriteNode → SpriteNode
  | 0, _, current => current
  | fuel + 1, keys, current =>
    if keys.isEmpty then current
    else
      match firstMatch current keys with
      | some p => followClassF normal fuel p.2 p.1
      | none =>
        match normal with
        | none => current
        | some nrm =>
          match childOf current nrm with
          | some child => followClassF normal fuel keys child
          | none => current

def followClass (normal : Option (List Char)) (keys : List (List Char))
    (current : SpriteNode) : SpriteNode :=
  followClassF normal (nodeSize current) keys current

/-- Whitespace test for the `\s+` split (the characters that occur in keys). -/
def isWsChar (c : Char) : Bool := c = ' ' || c = '\t' || c = '\n' || c = '\r'

/-- JS `key.split(/\s+/g)`: separators are maximal whitespace runs; a leading
or trailing run contributes an empty piece, and `""` splits to `[""]`. -/
def splitWsGo : Bool → List Char → List Char → List (List Char)
  | _, cur, [] => [cur.reverse]
  | prevWs, cur, c :: rest =>
    if isWsChar c then
      if prevWs then splitWsGo true [] rest
      else cur.reverse :: splitWsGo true [] rest
    else splitWsGo false (c :: cur) rest

def splitWs (s : List Char) : List (List Char) := splitWsGo false [] s

/-- JS `raw.replace(pattern, "")` for a string pattern: deletes the first
occurrence of `pattern` as a plain substring (not token-aware). -/
def replaceFirst (pattern : List Char) : List Char → List Char
  | [] => []
  | c :: rest =>
    if pattern.isPrefixOf (c :: rest) then (c :: rest).drop pattern.length
    else c :: replaceFirst pattern rest

/-- Whether `pattern` occurs in the string as a plain substring. -/
def hasSubstr (pattern : List Char) : List Char → Bool
  | [] => pattern.isEmpty
  | c :: rest => pattern.isPrefixOf (c :: rest) || hasSubstr pattern rest

/-- The `StringFilr` instance state: the library tree, the optional normal
token and the output cache.  (`normal = none` embeds a falsy setting.) -/
structure StringFilr where
  library : SpriteNode
  normal : Option (List Char)
  cache : List (List Char × SpriteNode)

/-- The key normalization at the top of `get` (and `clearCached`):
`key = keyRaw.replace(this.normal, "")` when `this.normal` is truthy. -/
def normalizeKey (f : StringFilr) (raw : List Char) : List Char :=
  match f.normal with
  | none => raw
  | some nrm => if nrm.isEmpty then raw else replaceFirst nrm raw

/-- JS `StringFilr.prototype.get`: normalize, consult the cache, otherwise
descend the library and cache the result under both the normalized and the
raw key (`this.cache[key] = this.cache[keyRaw] = result`; the association
list is consulted front-first, so prepending is the object assignment). -/
def filrGet (f : StringFilr) (raw : List Char) : SpriteNode × StringFilr :=
  let key := normalizeKey f raw
  match alookup key f.cache with
  | some v => (v, f)
  | none =>
    let result := followClass f.normal (splitWs key) f.library
    (result, { f with cache := (key, result) :: (raw, result) :: f.cache })

/-! ### C7: order-(in)dependence of the token lookup -/

/-- The decoded sprite bytes a lookup result holds, if it is a single
decoded sprite. -/
def nodeBytes : SpriteNode → Option (List Nat)
  | .single b => some b
  | _ => none

theorem firstMatch_none_iff {current : SpriteNode} : ∀ {keys : List (List Char)},
    firstMatch current keys = none ↔ ∀ k ∈ keys, childOf current k = none := by
  intro keys
  induction keys with
  | nil => simp [firstMatch]
  | cons k rest ih =>
    simp only [firstMatch]
    cases hc : childOf current k with
    | some child => simp [hc]
    | none =>
      cases hf : firstMatch current rest with
      | some p =>
        simp only [hf, Option.map_some']
        constructor
        · intro h; cases h
        · intro h
          have := (ih.mpr (fun x hx => h x (by simp [hx]))).symm
          rw [hf] at this
          cases this
      | none =>
        simp only [hf, Option.map_none']
        constructor
        · intro _ x hx
          rcases List.mem_cons.mp hx with h | h
          · rw [h]; exact hc
          · exact ih.mp hf x h
        · intro _; trivial

theorem firstMatch_some_spec {current : SpriteNode} :
    ∀ {keys : List (List Char)} {p : SpriteNode × List (List Char)},
      firstMatch current keys = some p →
      ∃ k, childOf current k = some p.1 ∧ keys.Perm (k :: p.2) := by
  intro keys
  induction keys with
  | nil => intro p h; cases h
  | cons k rest ih =>
    intro p h
    simp only [firstMatch] at h
    cases hc : childOf current k with
    | some child =>
      rw [hc] at h
      cases h
      exact ⟨k, hc, List.Perm.refl _⟩
    | none =>
      rw [hc] at h
      cases hf : firstMatch current rest with
      | none => rw [hf] at h; cases h
      | some q =>
        rw [hf] at h
        cases h
        rcases ih hf with ⟨k2, hk2, hperm⟩
        refine ⟨k2, hk2, ?_⟩
        show (k :: rest).Perm (k2 :: k :: q.2)
        exact (hperm.cons k).trans (List.Perm.swap k2 k q.2)

theorem two_mem_length {α : Type} : ∀ {l : List α} {a b : α},
    a ∈ l → b ∈ l → a ≠ b → 2 ≤ l.length := by
  intro l
  induction l with
  | nil => intro a b ha; cases ha
  | cons x r ih =>
    intro a b ha hb hab
    rcases List.mem_cons.mp ha with h1 | h1
    · rcases List.mem_cons.mp hb with h2 | h2
      · exact absurd (h1.trans h2.symm) hab
      · have : r ≠ [] := List.ne_nil_of_mem h2
        have : 1 ≤ r.length := List.length_pos.mpr this
        simp only [List.length_cons]
        omega
    · have : r ≠ [] := List.ne_nil_of_mem h1
      have : 1 ≤ r.length := List.length_pos.mpr this
      simp only [List.length_cons]
      omega

/-- Decidable check that the descent of `followClass` never faces an
ambiguous choice: at each visited node, at most one of the remaining tokens
is an own property of the node. -/
def uniqueDescentF (normal : Option (List Char)) :
    Nat → List (List Char) → SpriteNode → Bool
  | 0, _, _ => false
  | fuel + 1, keys, current =>
    if keys.isEmpty then true
    else
      match firstMatch current keys with
      | some p =>
        decide ((keys.filter (fun k => (childOf current k).isSome)).length ≤ 1) &&
          uniqueDescentF normal fuel p.2 p.1
      | none =>
        match normal with
        | none => true
        | some nrm =>
          match childOf current nrm with
          | some child => uniqueDescentF normal fuel keys child
          | none => true

def uniqueDescent (normal : Option (List Char)) (keys : List (List Char))
    (current : SpriteNode) : Bool :=
  uniqueDescentF normal (nodeSize current) keys current

theorem followClassF_step_match (normal : Option (List Char)) (fuel : Nat)
    (keys : List (List Char)) (current : SpriteNode)
    (p : SpriteNode × List (List Char))
    (hemp : keys.isEmpty = false) (hf : firstMatch current keys = some p) :
    followClassF normal (fuel + 1) keys current = followClassF normal fuel p.2 p.1 := by
  simp [followClassF, hemp, hf]

theorem followClassF_step_nomatch_none (normal : Option (List Char)) (fuel : Nat)
    (keys : List (List Char)) (current : SpriteNode)
    (hemp : keys.isEmpty = false) (hf : firstMatch current keys = none)
    (hn : normal = none) :
    followClassF normal (fuel + 1) keys current = current := by
  subst hn
  simp [followClassF, hemp, hf]

theorem followClassF_step_nomatch_dead (normal : Option (List Char)) (fuel : Nat)
    (keys : List (List Char)) (current : SpriteNode) (nrm : List Char)
    (hemp : keys.isEmpty = false) (hf : firstMatch current keys = none)
    (hn : normal = some nrm) (hc : childOf current nrm = none) :
    followClassF normal (fuel + 1) keys current = current := by
  subst hn
  simp [followClassF, hemp, hf, hc]

theorem followClassF_step_nomatch_child (normal : Option (List Char)) (fuel : Nat)
    (keys : List (List Char)) (current : SpriteNode) (nrm : List Char)
    (child : SpriteNode)
    (hemp : keys.isEmpty = false) (hf : firstMatch current keys = none)
    (hn : normal = some nrm) (hc : childOf current nrm = some child) :
    followClassF normal (fuel + 1) keys current = followClassF normal fuel keys child := by
  subst hn
  simp [followClassF, hemp, hf, hc]

theorem uniqueDescentF_step_match (normal : Option (List Char)) (fuel : Nat)
    (keys : List (List Char)) (current : SpriteNode)
    (p : SpriteNode × List (List Char))
    (hemp : keys.isEmpty = false) (hf : firstMatch current keys = some p) :
    uniqueDescentF normal (fuel + 1) keys current =
      (decide ((keys.filter (fun k => (childOf current k).isSome)).length ≤ 1) &&
        uniqueDescentF normal fuel p.2 p.1) := by
  simp [uniqueDescentF, hemp, hf]

theorem uniqueDescentF_step_nomatch_child (normal : Option (List Char)) (fuel : Nat)
    (keys : List (List Char)) (current : SpriteNode) (nrm : List Char)
    (child : SpriteNode)
    (hemp : keys.isEmpty = false) (hf : firstMatch current keys = none)
    (hn : normal = some nrm) (hc : childOf current nrm = some child) :
    uniqueDescentF normal (fuel + 1) keys current = uniqueDescentF normal fuel keys child := by
  subst hn
  simp [uniqueDescentF, hemp, hf, hc]

theorem followClassF_perm (normal : Option (List Char)) :
    ∀ (fuel : Nat) (keys1 keys2 : List (List Char)) (current : SpriteNode),
      keys1.Perm keys2 → uniqueDescentF normal fuel keys1 current = true →
      followClassF normal fuel keys1 current = followClassF normal fuel keys2 current := by
  intro fuel
  induction fuel with
  | zero => intro _ _ _ _ _; rfl
  | succ fuel ih =>
    intro keys1 keys2 current hperm huniq
    by_cases hemp : keys1.isEmpty
    · have h1 : keys1 = [] := by simpa [List.isEmpty_iff] using hemp
      have h2 : keys2 = [] := by rw [h1] at hperm; exact hperm.symm.eq_nil
      simp [followClassF, h1, h2]
    · have hemp2 : ¬keys2.isEmpty = true := by
        intro hcon
        have h2 : keys2 = [] := by simpa [List.isEmpty_iff] using hcon
        have h1 : keys1 = [] := by rw [h2] at hperm; exact hperm.eq_nil
        simp [h1] at hemp
      have hempf : keys1.isEmpty = false := by
        cases h : keys1.isEmpty
        · rfl
        · exact absurd h hemp
      have hempf2 : keys2.isEmpty = false := by
        cases h : keys2.isEmpty
        · rfl
        · exact absurd h hemp2
      cases hf1 : firstMatch current keys1 with
      | some p1 =>
        rw [uniqueDescentF_step_match normal fuel keys1 current p1 hempf hf1,
          Bool.and_eq_true] at huniq
        obtain ⟨hcnt, huniq2⟩ := huniq
        have hcount1 : (keys1.filter (fun k => (childOf current k).isSome)).length ≤ 1 :=
          of_decide_eq_true hcnt
        rcases firstMatch_some_spec hf1 with ⟨k1, hck1, hperm1⟩
        have hk1mem : k1 ∈ keys1 := hperm1.symm.mem_iff.mp (by simp)
        cases hf2 : firstMatch current keys2 with
        | none =>
          exfalso
          have := firstMatch_none_iff.mp hf2 k1 (hperm.mem_iff.mp hk1mem)
          rw [this] at hck1
          cases hck1
        | some p2 =>
          rcases firstMatch_some_spec hf2 with ⟨k2, hck2, hperm2⟩
          have hk2mem : k2 ∈ keys2 := hperm2.symm.mem_iff.mp (by simp)
          have hkeq : k1 = k2 := by
            by_contra hne
            have hk2in1 : k2 ∈ keys1 := hperm.symm.mem_iff.mp hk2mem
            have hm1 : k1 ∈ keys1.filter (fun k => (childOf current k).isSome) :=
              List.mem_filter.mpr ⟨hk1mem, by rw [hck1]; rfl⟩
            have hm2 : k2 ∈ keys1.filter (fun k => (childOf current k).isSome) :=
              List.mem_filter.mpr ⟨hk2in1, by rw [hck2]; rfl⟩
            have := two_mem_length hm1 hm2 hne
            omega
          have hchild : p1.1 = p2.1 := by
            rw [hkeq] at hck1
            rw [hck1] at hck2
            exact Option.some.inj hck2
          have hremperm : p1.2.Perm p2.2 := by
            have hx : (k1 :: p1.2 : List (List Char)).Perm (k2 :: p2.2) :=
              (hperm1.symm.trans hperm).trans hperm2
            rw [hkeq] at hx
            exact hx.cons_inv
          rw [followClassF_step_match normal fuel keys1 current p1 hempf hf1,
            followClassF_step_match normal fuel keys2 current p2 hempf2 hf2, hchild]
          exact ih p1.2 p2.2 p2.1 hremperm (hchild ▸ huniq2)
      | none =>
        have hf2 : firstMatch current keys2 = none := by
          rw [firstMatch_none_iff]
          intro k hk
          exact firstMatch_none_iff.mp hf1 k (hperm.symm.mem_iff.mp hk)
        obtain hn | ⟨nrm, hn⟩ : normal = none ∨ ∃ n, normal = some n := by
          cases normal
          · exact Or.inl rfl
          · exact Or.inr ⟨_, rfl⟩
        · rw [followClassF_step_nomatch_none normal fuel keys1 current hempf hf1 hn,
            followClassF_step_nomatch_none normal fuel keys2 current hempf2 hf2 hn]
        · cases hc : childOf current nrm with
          | none =>
            rw [followClassF_step_nomatch_dead normal fuel keys1 current nrm hempf hf1 hn hc,
              followClassF_step_nomatch_dead normal fuel keys2 current nrm hempf2 hf2 hn hc]
          | some child =>
            rw [followClassF_step_nomatch_child normal fuel keys1 current nrm child
                hempf hf1 hn hc,
              followClassF_step_nomatch_child normal fuel keys2 current nrm child
                hempf2 hf2 hn hc]
            refine ih keys1 keys2 child hperm ?_
            rw [← uniqueDescentF_step_nomatch_child normal fuel keys1 current nrm child
              hempf hf1 hn hc]
            exact huniq

/-- Library `{a: {b: sprite1}, b: {a: sprite2}}`: both orders of the token
set `{a, b}` resolve, but to different sprites, because `followClass`
consumes the first matching token in the key's order. -/
def lib7 : SpriteNode :=
  .objCons (str "a") (.objCons (str "b") (.single [1]) .objNil)
    (.objCons (str "b") (.objCons (str "a") (.single [2]) .objNil) .objNil)

def filr7 : StringFilr := ⟨lib7, none, []⟩

/-- C7 counterexample: the two keys "a b" and "b a" carry the same token
set (their `\s+` splits are permutations of each other), yet
`StringFilr.get` returns the sprite `[1]` for one and `[2]` for the other:
the lookup is not order-independent in the key's tokens. -/
theorem get_order_dependent :
    (splitWs (str "a b")).Perm (splitWs (str "b a")) ∧
    nodeBytes (filrGet filr7 (str "a b")).1 = some [1] ∧
    nodeBytes (filrGet filr7 (str "b a")).1 = some [2] := by
  refine ⟨by decide, by decide, by decide⟩

/-- C7 (amended): on a fresh instance (empty cache), if the descent of the
first key never faces an ambiguous choice — at every visited node at most
one remaining token is an own property (`uniqueDescent`) — then `get` on
any two raw keys whose normalized token lists are permutations of each
other descends to the same library node and returns the same result. -/
theorem get_perm_of_uniqueDescent (f : StringFilr) (raw1 raw2 : List Char)
    (hperm : (splitWs (normalizeKey f raw1)).Perm (splitWs (normalizeKey f raw2)))
    (hcache : f.cache = [])
    (huniq : uniqueDescent f.normal (splitWs (normalizeKey f raw1)) f.library = true) :
    followClass f.normal (splitWs (normalizeKey f raw1)) f.library =
      followClass f.normal (splitWs (normalizeKey f raw2)) f.library ∧
    (filrGet f raw1).1 = (filrGet f raw2).1 := by
  have h1 : followClass f.normal (splitWs (normalizeKey f raw1)) f.library =
      followClass f.normal (splitWs (normalizeKey f raw2)) f.library :=
    followClassF_perm f.normal (nodeSize f.library) _ _ f.library hperm huniq
  refine ⟨h1, ?_⟩
  simp only [filrGet, hcache, alookup]
  exact h1

/-- A one-branch library `{a: {b: sprite}}`: every level has at most one
matching token, so the amended C7 theorem applies to "a b" vs "b a". -/
def filr7w : StringFilr :=
  ⟨.objCons (str "a") (.objCons (str "b") (.single [7]) .objNil) .objNil, none, []⟩

theorem get_perm_of_uniqueDescent_witness :
    ((splitWs (normalizeKey filr7w (str "a b"))).Perm
        (splitWs (normalizeKey filr7w (str "b a"))) ∧
      filr7w.cache = [] ∧
      uniqueDescent filr7w.normal (splitWs (normalizeKey filr7w (str "a b")))
        filr7w.library = true) ∧
    (filrGet filr7w (str "a b")).1 = (filrGet filr7w (str "b a")).1 := by
  refine ⟨⟨by decide, rfl, by decide⟩, ?_⟩
  exact (get_perm_of_uniqueDescent filr7w (str "a b") (str "b a")
    (by decide) rfl (by decide)).2

/-! ### C10: normalization deletes the first plain-substring occurrence -/

theorem replaceFirst_of_not_hasSubstr {nrm : List Char} : ∀ {l : List Char},
    hasSubstr nrm l = false → replaceFirst nrm l = l := by
  intro l
  induction l with
  | nil => intro _; rfl
  | cons c rest ih =>
    intro h
    simp only [hasSubstr, Bool.or_eq_false_iff] at h
    obtain ⟨h1, h2⟩ := h
    simp [replaceFirst, h1, ih h2]

theorem replaceFirst_length {nrm : List Char} : ∀ {l : List Char},
    hasSubstr nrm l = true → (replaceFirst nrm l).length + nrm.length = l.length := by
  intro l
  induction l with
  | nil =>
    intro h
    simp only [hasSubstr] at h
    have hnil : nrm = [] := by
      cases nrm
      · rfl
      · simp [List.isEmpty] at h
    simp [hnil, replaceFirst]
  | cons c rest ih =>
    intro h
    by_cases hp : nrm.isPrefixOf (c :: rest) = true
    · simp only [replaceFirst, if_pos hp]
      have hpre : nrm <+: c :: rest := List.isPrefixOf_iff_prefix.mp hp
      obtain ⟨t, ht⟩ := hpre
      rw [← ht]
      simp [List.drop_left, List.length_append, Nat.add_comm]
    · have h2 : hasSubstr nrm rest = true := by
        simp only [hasSubstr, Bool.or_eq_true] at h
        rcases h with h | h
        · exact absurd h hp
        · exact h
      simp only [replaceFirst, if_neg hp, List.length_cons]
      have := ih h2
      omega

/-- Library `{n: {n: sprite}}` with normal token "n": normalization is a
plain-substring deletion, so "nn" (one token) becomes the key "n". -/
def filr10 : StringFilr :=
  ⟨.objCons (str "n") (.objCons (str "n") (.single [1]) .objNil) .objNil,
    some (str "n"), []⟩

/-- C10 counterexample to the shared-result part: "nn" and "n" differ
exactly by the first occurrence of the normal token "n", yet they normalize
to different keys ("n" and "") and `get` returns an inner library node for
one and the decoded sprite for the other. -/
theorem get_normal_shared_entry_fails :
    normalizeKey filr10 (str "nn") = str "n" ∧
    normalizeKey filr10 (str "n") = str "" ∧
    nodeBytes (filrGet filr10 (str "nn")).1 = none ∧
    nodeBytes (filrGet filr10 (str "n")).1 = some [1] := by
  refine ⟨by decide, by decide, by decide, by decide⟩

/-- C10 (amended): the normalization of `get` deletes the first occurrence
of the normal token as a plain substring, so a raw key containing the token
is altered before lookup; and when the altered key itself no longer
contains the token, looking up the raw key and then the altered key shares
one cache entry and returns the same result (the second call is a pure
cache hit). -/
theorem get_normal_substring (f : StringFilr) (raw1 nrm : List Char)
    (hn : f.normal = some nrm) (hne : nrm.isEmpty = false)
    (hocc : hasSubstr nrm raw1 = true)
    (hclean : hasSubstr nrm (replaceFirst nrm raw1) = false) :
    normalizeKey f raw1 = replaceFirst nrm raw1 ∧
    replaceFirst nrm raw1 ≠ raw1 ∧
    (filrGet (filrGet f raw1).2 (replaceFirst nrm raw1)).1 = (filrGet f raw1).1 ∧
    (filrGet (filrGet f raw1).2 (replaceFirst nrm raw1)).2 = (filrGet f raw1).2 ∧
    alookup (replaceFirst nrm raw1) (filrGet f raw1).2.cache = some (filrGet f raw1).1 := by
  have hkey : normalizeKey f raw1 = replaceFirst nrm raw1 := by
    simp [normalizeKey, hn, hne]
  have hself : replaceFirst nrm (replaceFirst nrm raw1) = replaceFirst nrm raw1 :=
    replaceFirst_of_not_hasSubstr hclean
  have hlen := @replaceFirst_length nrm raw1 hocc
  have hnelen : 1 ≤ nrm.length := by
    cases nrm
    · simp [List.isEmpty] at hne
    · simp
  have hne' : replaceFirst nrm raw1 ≠ raw1 := by
    intro hcon
    rw [hcon] at hlen
    omega
  cases hl : alookup (replaceFirst nrm raw1) f.cache with
  | some v =>
    have h1 : filrGet f raw1 = (v, f) := by
      simp [filrGet, hkey, hl]
    have hkeyb : normalizeKey f (replaceFirst nrm raw1) = replaceFirst nrm raw1 := by
      simp [normalizeKey, hn, hne, hself]
    have h2 : filrGet f (replaceFirst nrm raw1) = (v, f) := by
      simp [filrGet, hkeyb, hl]
    exact ⟨hkey, hne', by simp [h1, h2], by simp [h1, h2], by simp [h1, hl]⟩
  | none =>
    set R := followClass f.normal (splitWs (replaceFirst nrm raw1)) f.library with hR
    set F1 : StringFilr :=
      { f with cache := (replaceFirst nrm raw1, R) :: (raw1, R) :: f.cache } with hF1
    have h1 : filrGet f raw1 = (R, F1) := by
      simp [filrGet, hkey, hl, hR, hF1]
    have hkeyb : normalizeKey F1 (replaceFirst nrm raw1) = replaceFirst nrm raw1 := by
      simp [normalizeKey, hF1, hn, hne, hself]
    have hl2 : alookup (replaceFirst nrm raw1) F1.cache = some R := by
      simp [hF1, alookup]
    have h2 : filrGet F1 (replaceFirst nrm raw1) = (R, F1) := by
      simp [filrGet, hkeyb, hl2]
    exact ⟨hkey, hne', by simp [h1, h2], by simp [h1, h2], by simp [h1, hl2]⟩

/-- A concrete run of the amended C10 theorem: normal "s", raw key "absc"
(the token "absc" contains "s"), altered key "abc". -/
def filr10w : StringFilr :=
  ⟨.objCons (str "abc") (.single [3]) .objNil, some (str "s"), []⟩

theorem get_normal_substring_witness :
    (filr10w.normal = some (str "s") ∧ (str "s").isEmpty = false ∧
      hasSubstr (str "s") (str "absc") = true ∧
      hasSubstr (str "s") (replaceFirst (str "s") (str "absc")) = false) ∧
    (normalizeKey filr10w (str "absc") = replaceFirst (str "s") (str "absc") ∧
      replaceFirst (str "s") (str "absc") ≠ str "absc" ∧
      (filrGet (filrGet filr10w (str "absc")).2
        (replaceFirst (str "s") (str "absc"))).1 = (filrGet filr10w (str "absc")).1 ∧
      (filrGet (filrGet filr10w (str "absc")).2
        (replaceFirst (str "s") (str "absc"))).2 = (filrGet filr10w (str "absc")).2 ∧
      alookup (replaceFirst (str "s") (str "absc"))
        (filrGet filr10w (str "absc")).2.cache = some (filrGet filr10w (str "absc")).1) := by
  refine ⟨⟨rfl, by decide, by decide, by decide⟩, ?_⟩
  exact get_normal_substring filr10w (str "absc") (str "s") rfl (by decide)
    (by decide) (by decide)

/-! ### C9: decode's error handling for keys that do not resolve to a sprite

The dimensions processor (`ProcessorDims`: `spriteRepeatRows` then
`spriteFlipDimensions`) is embedded over byte lists.  A write past the end
of a `Uint8ClampedArray` is discarded and a read past the end yields
`undefined`, which the clamped store coerces to 0; a loop whose stride is 0
never terminates in JS and is embedded as `none`. -/

/-- The attribute object handed to `decode`: the `spriteWidth` /
`spriteHeight` numbers read by the dimensions processor. -/
structure SpriteAttributes where
  spriteWidth : Nat
  spriteHeight : Nat

/-- The `PixelRendr` instance fields used by the dimensions processor:
`scale`, and the flip marker tokens (defaults "flip-vert", "flip-horiz"). -/
structure DimsConf where
  scale : Nat
  flipVert : List Char
  flipHoriz : List Char

/-- One store into a `Uint8ClampedArray`: out-of-bounds writes are
discarded. -/
def u8write (dst : List Nat) (i v : Nat) : List Nat :=
  if i < dst.length then dst.set i v else dst

/-- Read `l[i]` for a possibly negative JS index: out-of-range gives
`undefined`, which a clamped-array store coerces to 0. -/
def jsIndexI (l : List Nat) (i : Int) : Nat :=
  if 0 ≤ i then l.getD i.toNat 0 else 0

/-- The copy loop of `memcpyU8` (`while (lwritelength--)`). -/
def memcpyGo : Nat → List Nat → List Nat → Nat → Nat → List Nat
  | 0, _, dst, _, _ => dst
  | n + 1, src, dst, r, w => memcpyGo n src (u8write dst w (src.getD r 0)) (r + 1) (w + 1)

/-- JS `memcpyU8(source, destination, readloc, writeloc, writelength)`:
guard clauses return the destination unchanged (the negative-index guards
are vacuous over `Nat`), then `writelength` bytes are copied. -/
def memcpyU8 (source destination : List Nat) (readloc writeloc writelength : Nat) :
    List Nat :=
  if writelength = 0 then destination
  else if source.length ≤ readloc ∨ destination.length ≤ writeloc then destination
  else memcpyGo writelength source destination readloc writeloc

/-- JS `spriteRepeatRows`: copies each source row `scale` times into a
zeroed buffer of `sprite.length * scale`; after `si` full outer iterations
the read cursor is `si * rowsize` and the write cursor has advanced once
per inner iteration. -/
def spriteRepeatRows (conf : DimsConf) (attrs : SpriteAttributes)
    (sprite : List Nat) : List Nat :=
  let rowsize := attrs.spriteWidth * 4
  let heightscale := attrs.spriteHeight * conf.scale
  (List.range heightscale).foldl
    (fun acc si =>
      (List.range conf.scale).foldl
        (fun acc2 sj =>
          memcpyU8 sprite acc2 (si * rowsize) ((si * conf.scale + sj) * rowsize) rowsize)
        acc)
    (List.replicate (sprite.length * conf.scale) 0)

/-- JS `flipSpriteArrayHoriz`: reverses the pixels of each `rowsize`-byte
row (`rowsize = spriteWidth * 4`); `none` embeds the non-terminating JS
loop when `rowsize = 0` and the sprite is non-empty. -/
def flipSpriteArrayHoriz (attrs : SpriteAttributes) (sprite : List Nat) :
    Option (List Nat) :=
  let len := sprite.length
  let rowsize := attrs.spriteWidth * 4
  if rowsize = 0 then (if len = 0 then some [] else none)
  else
    some ((List.range ((len + rowsize - 1) / rowsize)).foldl
      (fun acc r =>
        (List.range attrs.spriteWidth).foldl
          (fun acc2 t =>
            (List.range 4).foldl
              (fun acc3 k => u8write acc3 (r * rowsize + 4 * t + k)
                (sprite.getD (r * rowsize + rowsize - 4 - 4 * t + k) 0))
              acc2)
          acc)
      (List.replicate len 0))

/-- JS `flipSpriteArrayVert`: reverses the order of the rows; the read
cursor starts at `length - rowsize`, which JS lets go negative
(`undefined` reads store 0). -/
def flipSpriteArrayVert (attrs : SpriteAttributes) (sprite : List Nat) :
    Option (List Nat) :=
  let len := sprite.length
  let rowsize := attrs.spriteWidth * 4
  if rowsize = 0 then (if len = 0 then some [] else none)
  else
    some ((List.range ((len + rowsize - 1) / rowsize)).foldl
      (fun acc r =>
        (List.range attrs.spriteWidth).foldl
          (fun acc2 t =>
            (List.range 4).foldl
              (fun acc3 j => u8write acc3 (r * rowsize + 4 * t + j)
                (jsIndexI sprite ((len : Int) - rowsize - r * rowsize + 4 * t + j)))
              acc2)
          acc)
      (List.replicate len 0))

/-- JS `flipSpriteArrayBoth`: reverses the order of the 4-byte pixels. -/
def flipSpriteArrayBoth (sprite : List Nat) : List Nat :=
  let len := sprite.length
  (List.range ((len + 3) / 4)).foldl
    (fun acc t =>
      (List.range 4).foldl
        (fun acc2 i => u8write acc2 (4 * t + i)
          (jsIndexI sprite ((len : Int) - 4 - 4 * t + i)))
        acc)
    (List.replicate len 0)

/-- JS `spriteFlipDimensions`: `key.indexOf(tok) !== -1` is substring
containment. -/
def spriteFlipDimensions (conf : DimsConf) (key : List Char)
    (attrs : SpriteAttributes) (sprite : List Nat) : Option (List Nat) :=
  if hasSubstr conf.flipHoriz key then
    if hasSubstr conf.flipVert key then some (flipSpriteArrayBoth sprite)
    else flipSpriteArrayHoriz attrs sprite
  else if hasSubstr conf.flipVert key then flipSpriteArrayVert attrs sprite
  else some sprite

/-- `ProcessorDims.process`: the two-stage pipeline. -/
def processorDims (conf : DimsConf) (key : List Char) (attrs : SpriteAttributes)
    (sprite : List Nat) : Option (List Nat) :=
  spriteFlipDimensions conf key attrs (spriteRepeatRows conf attrs sprite)

/-- JS truthiness of `sprite.multiple`: a `SpriteMultiple` carries the
literal `multiple: true`; a plain library object is truthy here exactly
when it has an own property named "multiple" (every value stored in the
parsed library is an object or typed array, hence truthy); typed arrays
and `{}` have no such property. -/
def multipleTruthy : SpriteNode → Bool
  | .mult _ _ _ => true
  | .objCons k v rest => (childOf (.objCons k v rest) (str "multiple")).isSome
  | _ => false

/-- JS truthiness of `sprite.processed` (`undefined` on anything that is
not a `SpriteMultiple`). -/
def spriteProcessed : SpriteNode → Bool
  | .mult _ _ p => p
  | _ => false

/-- Whether a node is a plain inner library object (not a decoded sprite
and not a `SpriteMultiple`). -/
def isObjNode : SpriteNode → Bool
  | .objNil => true
  | .objCons _ _ _ => true
  | _ => false

/-- JS `processSpriteMultiple`: dimension-processes each component sprite
under `key + " " + i` and marks the object processed.  On a node without a
`sprites` member the `for..in` loop over `undefined` runs zero times (the
`processed = true` store then only adds an inert boolean property, which
the tree model does not track). -/
def processSpriteMultiple (conf : DimsConf) (key : List Char)
    (attrs : SpriteAttributes) : SpriteNode → Option SpriteNode
  | .mult dir sprites _ =>
    (sprites.mapM (fun kv =>
      (processorDims conf (key ++ ' ' :: kv.1) attrs kv.2).map (fun out => (kv.1, out)))).map
      (fun done => SpriteNode.mult dir done true)
  | n => some n

/-- The ASCII apostrophe wrapped around the key in decode's thrown
message. -/
def quoteC : Char := Char.ofNat 39

/-- JS `PixelRendr.prototype.decode`: fetch via `BaseFiler.get`, branch on
`sprite.multiple`, else require a typed array and dimension-process it.
The `if (!sprite)` throw ("No raw sprite found for ...") can never fire in
the model, since `followClass` always returns a library node and every
library value is a truthy object.  `(filrGet f key).1` and `.2` are the
components of the single `BaseFiler.get(key)` call; `none` embeds a
non-terminating dimensions pipeline. -/
def decode (f : StringFilr) (conf : DimsConf) (key : List Char)
    (attrs : SpriteAttributes) :
    Option (Except (List Char) (SpriteNode × StringFilr)) :=
  if multipleTruthy (filrGet f key).1 then
    if spriteProcessed (filrGet f key).1 then
      some (Except.ok ((filrGet f key).1, (filrGet f key).2))
    else
      (processSpriteMultiple conf key attrs (filrGet f key).1).map
        (fun s => Except.ok (s, (filrGet f key).2))
  else
    match (filrGet f key).1 with
    | .single bytes =>
      (processorDims conf key attrs bytes).map
        (fun out => Except.ok (SpriteNode.single out, (filrGet f key).2))
    | _ =>
      some (Except.error
        (str "No single raw sprite found for: " ++ quoteC :: (key ++ [quoteC])))

def dconf9 : DimsConf := ⟨1, str "flip-vert", str "flip-horiz"⟩

def attrs9 : SpriteAttributes := ⟨2, 2⟩

/-- Library `{a: {multiple: {}}}`: the key "a" dead-ends on the inner node
`{multiple: {}}`, whose own property "multiple" is a truthy object. -/
def filr9 : StringFilr :=
  ⟨.objCons (str "a") (.objCons (str "multiple") .objNil .objNil) .objNil, none, []⟩

/-- The inner node the descent for "a" dead-ends on. -/
def node9 : SpriteNode := .objCons (str "multiple") .objNil .objNil

/-- C9 counterexample: the descent for "a" dead-ends on the inner library
node `{multiple: {}}`, yet decode does not throw: `sprite.multiple` is
truthy, so the node is treated as a SpriteMultiple and returned as-is — a
non-sprite value reaches the caller. -/
theorem decode_returns_non_sprite :
    (filrGet filr9 (str "a")).1 = node9 ∧
    isObjNode node9 = true ∧
    nodeBytes node9 = none ∧
    decode filr9 dconf9 (str "a") attrs9 =
      some (Except.ok (node9, (filrGet filr9 (str "a")).2)) := by
  exact ⟨by decide, by decide, by decide, rfl⟩

/-- C9 (amended): for every key whose library descent dead-ends on a plain
inner library node with no own property named "multiple", decode throws
("No single raw sprite found"); a dead-end node that does have a truthy
"multiple" member escapes the check and is returned unprocessed. -/
theorem decode_deadend_error (f : StringFilr) (conf : DimsConf) (key : List Char)
    (attrs : SpriteAttributes)
    (hnode : isObjNode (filrGet f key).1 = true)
    (hnomult : multipleTruthy (filrGet f key).1 = false) :
    decode f conf key attrs =
      some (Except.error
        (str "No single raw sprite found for: " ++ quoteC :: (key ++ [quoteC]))) := by
  simp only [decode]
  cases hsp : (filrGet f key).1 with
  | objNil => simp [multipleTruthy]
  | objCons k1 v1 r1 =>
    rw [hsp] at hnomult
    simp [hnomult]
  | single b1 =>
    rw [hsp] at hnode
    simp [isObjNode] at hnode
  | mult d1 s1 p1 =>
    rw [hsp] at hnomult
    simp [multipleTruthy] at hnomult

/-- Library `{a: {b: sprite}}`: the key "a" dead-ends on `{b: sprite}`,
which has no "multiple" member. -/
def filr9w : StringFilr :=
  ⟨.objCons (str "a") (.objCons (str "b") (.single [1]) .objNil) .objNil, none, []⟩

theorem decode_deadend_error_witness :
    (isObjNode (filrGet filr9w (str "a")).1 = true ∧
      multipleTruthy (filrGet filr9w (str "a")).1 = false) ∧
    decode filr9w dconf9 (str "a") attrs9 =
      some (Except.error
        (str "No single raw sprite found for: " ++
          quoteC :: (str "a" ++ [quoteC]))) := by
  refine ⟨⟨by decide, by decide⟩, ?_⟩
  exact decode_deadend_error filr9w dconf9 (str "a") attrs9 (by decide) (by decide)

/-! ### C5: quadrant-mode frame drawing touches only changed, visible cells

`PixelDrawr`'s quadrant refill path is embedded with an explicit event
list: every canvas-drawing call (`drawImage` of the background onto a
quadrant, a Thing draw via `drawThingOnContextSingle`/`Multiple`, and the
`drawImage` of a quadrant canvas onto the main context) appends one event.
`keyOffsetX`/`keyOffsetY` are unset (the default), so `getTop` etc. are
the plain bound fields. -/

structure DrawThing where
  id : Nat
  hidden : Bool
  opacity : ℚ
  top : Int
  right : Int
  bottom : Int
  left : Int

structure DQuadrant where
  top : Int
  right : Int
  bottom : Int
  left : Int
  changed : Bool
  things : List (List Char × List DrawThing)

/-- The `PixelDrawr` instance fields the refill path reads, including the
`framesDrawn` counter owned by `refillQuadrantGroups`. -/
structure DrawrConf where
  groupNames : List (List Char)
  framerateSkip : Nat
  framesDrawn : Nat
  epsilon : ℚ
  noRefill : Bool
  screenWidth : Int
  screenHeight : Int

inductive DrawEvent
  | bgRefill (qleft qtop : Int)
  | thingDraw (id : Nat) (qleft qtop : Int)
  | quadImage (qleft qtop : Int)
deriving DecidableEq

/-- JS `drawThingOnQuadrant`: the bounds/visibility guard, then one Thing
draw (`drawThingOnContextSingle` or `Multiple`, each of which performs
canvas-drawing work exactly when reached). -/
def drawThingOnQuadrant (conf : DrawrConf) (q : DQuadrant) (t : DrawThing) :
    List DrawEvent :=
  if t.hidden = true ∨ q.bottom < t.top ∨ t.right < q.left ∨ t.bottom < q.top ∨
      q.right < t.left ∨ t.opacity < conf.epsilon
  then []
  else [.thingDraw t.id q.left q.top]

/-- JS `refillQuadrant`: redraw the background region unless `noRefill`,
draw every Thing of every group (groups iterated from the last name down),
and clear the `changed` flag. -/
def refillQuadrant (conf : DrawrConf) (q : DQuadrant) :
    List DrawEvent × DQuadrant :=
  ((if conf.noRefill then [] else [.bgRefill q.left q.top]) ++
      conf.groupNames.reverse.flatMap (fun g =>
        ((alookup g q.things).getD []).flatMap (fun t => drawThingOnQuadrant conf q t)),
    { q with changed := false })

/-- The screen-intersection part of `refillQuadrants`' guard:
`top < MapScreener.height && right > 0 && bottom > 0 && left < width`. -/
def quadrantOnScreen (conf : DrawrConf) (q : DQuadrant) : Bool :=
  decide (q.top < conf.screenHeight) && decide (0 < q.right) &&
    decide (0 < q.bottom) && decide (q.left < conf.screenWidth)

/-- JS `refillQuadrants`: for each changed, on-screen quadrant, refill its
canvas and draw it onto the main context; other quadrants are skipped
entirely.  Returns the emitted events and the updated quadrants (each
quadrant's refill touches only that quadrant). -/
def refillQuadrants (conf : DrawrConf) (qs : List DQuadrant) :
    List DrawEvent × List DQuadrant :=
  (qs.flatMap (fun q =>
      if q.changed && quadrantOnScreen conf q then
        (refillQuadrant conf q).1 ++ [DrawEvent.quadImage q.left q.top]
      else []),
    qs.map (fun q =>
      if q.changed && quadrantOnScreen conf q then (refillQuadrant conf q).2 else q))

/-- JS `refillQuadrantGroups`: bump `framesDrawn`, do nothing on a skipped
frame, otherwise refill every group.  Returns (events, groups,
framesDrawn). -/
def refillQuadrantGroups (conf : DrawrConf) (groups : List (List DQuadrant)) :
    List DrawEvent × List (List DQuadrant) × Nat :=
  let fd := conf.framesDrawn + 1
  if fd % conf.framerateSkip ≠ 0 then ([], groups, fd)
  else
    (groups.flatMap (fun g => (refillQuadrants conf g).1),
      groups.map (fun g => (refillQuadrants conf g).2), fd)

theorem flatMap_if_eq_filter {α β : Type} (c : α → Bool) (E : α → List β) :
    ∀ l : List α,
      (l.flatMap fun a => if c a then E a else []) = (l.filter c).flatMap E := by
  intro l
  induction l with
  | nil => rfl
  | cons a rest ih =>
    cases h : c a with
    | true => simp [List.flatMap_cons, List.filter_cons, h, ih]
    | false => simp [List.flatMap_cons, List.filter_cons, h, ih]

theorem map_if_unchanged (conf : DrawrConf) :
    ∀ qs : List DQuadrant, (∀ q ∈ qs, q.changed = false) →
      (qs.map (fun q =>
        if q.changed && quadrantOnScreen conf q then (refillQuadrant conf q).2 else q)) = qs := by
  intro qs
  induction qs with
  | nil => intro _; rfl
  | cons q rest ih =>
    intro h
    have hq : q.changed = false := h q (by simp)
    simp only [List.map_cons, hq, Bool.false_and, if_neg (by simp : ¬(false = true))]
    rw [ih (fun x hx => h x (by simp [hx]))]

/-- C5: when no quadrant is marked changed, a quadrant-mode frame draw
emits no drawing calls and leaves every quadrant unchanged (on skipped
frames by the framerate gate, otherwise because each quadrant fails the
`changed` test); and in general the events of `refillQuadrants` are
exactly those of the quadrants that are both changed and on screen. -/
theorem quadrants_unchanged_no_draws (conf : DrawrConf)
    (groups : List (List DQuadrant))
    (hall : ∀ g ∈ groups, ∀ q ∈ g, q.changed = false) :
    (refillQuadrantGroups conf groups).1 = [] ∧
    (refillQuadrantGroups conf groups).2.1 = groups ∧
    ∀ qs : List DQuadrant,
      (refillQuadrants conf qs).1 =
        (qs.filter (fun q => q.changed && quadrantOnScreen conf q)).flatMap
          (fun q => (refillQuadrant conf q).1 ++ [DrawEvent.quadImage q.left q.top]) := by
  have hquads : ∀ g ∈ groups, (refillQuadrants conf g).1 = [] := by
    intro g hg
    simp only [refillQuadrants]
    rw [flatMap_if_eq_filter]
    have hfil : g.filter (fun q => q.changed && quadrantOnScreen conf q) = [] := by
      rw [List.filter_eq_nil_iff]
      intro q hq
      simp [hall g hg q hq]
    rw [hfil]
    rfl
  have hstates : ∀ g ∈ groups, (refillQuadrants conf g).2 = g := by
    intro g hg
    simp only [refillQuadrants]
    exact map_if_unchanged conf g (hall g hg)
  refine ⟨?_, ?_, ?_⟩
  · simp only [refillQuadrantGroups]
    by_cases hskip : (conf.framesDrawn + 1) % conf.framerateSkip = 0
    · have hcond : ¬((conf.framesDrawn + 1) % conf.framerateSkip ≠ 0) := by simp [hskip]
      simp only [if_neg hcond, List.flatMap_eq_nil_iff]
      intro g hg
      exact hquads g hg
    · simp [if_pos hskip]
  · simp only [refillQuadrantGroups]
    by_cases hskip : (conf.framesDrawn + 1) % conf.framerateSkip = 0
    · have hcond : ¬((conf.framesDrawn + 1) % conf.framerateSkip ≠ 0) := by simp [hskip]
      simp only [if_neg hcond]
      show groups.map (fun g => (refillQuadrants conf g).2) = groups
      have hmap : groups.map (fun g => (refillQuadrants conf g).2) = groups.map id :=
        List.map_congr_left (by intro a ha; simpa using hstates a ha)
      rw [hmap, List.map_id]
    · simp [if_pos hskip]
  · intro qs
    simp only [refillQuadrants]
    rw [flatMap_if_eq_filter]

def conf5 : DrawrConf :=
  ⟨[str "solid", str "character"], 1, 0, 7 / 1000, false, 320, 240⟩

def groups5 : List (List DQuadrant) :=
  [[⟨0, 80, 80, 0, false, [(str "solid", []), (str "character", [])]⟩]]

theorem quadrants_unchanged_no_draws_witness :
    (∀ g ∈ groups5, ∀ q ∈ g, q.changed = false) ∧
    (refillQuadrantGroups conf5 groups5).1 = [] ∧
    (refillQuadrantGroups conf5 groups5).2.1 = groups5 :=
  ⟨by decide, (quadrants_unchanged_no_draws conf5 groups5 (by decide)).1,
    (quadrants_unchanged_no_draws conf5 groups5 (by decide)).2.1⟩

/-! ### QuadsKeepr: grid state, resets, shifts and membership (C1, C3, C4)

Quadrant objects are shared by row and column containers in JS; the
embedding keeps a store from allocation ids to quadrant records, with
containers holding ids, so aliasing is explicit.  `keyOffsetX`/`keyOffsetY`
are unset (the default), so `getTop` etc. are the plain bound fields.
`onAdd`/`onRemove` are unset, so the `callUpdate` triggers never fire. -/

structure QuadRecord where
  left : Int
  top : Int
  right : Int
  bottom : Int
  changed : Bool
  things : List (List Char × List Nat)
  numthings : List (List Char × Nat)
deriving DecidableEq

/-- A `QuadrantRow` or `QuadrantCol` container. -/
structure Container where
  left : Int
  top : Int
  quadrants : List Nat
deriving DecidableEq

structure QKState where
  numRows : Int
  numCols : Int
  quadrantWidth : Int
  quadrantHeight : Int
  startLeft : Int
  startTop : Int
  groupNames : List (List Char)
  top : Int
  right : Int
  bottom : Int
  left : Int
  quadrantRows : List Container
  quadrantCols : List Container
  offsetX : Int
  offsetY : Int
  store : List (Nat × QuadRecord)
  nextId : Nat
deriving DecidableEq

def dummyContainer : Container := ⟨0, 0, []⟩

def dummyQuad : QuadRecord := ⟨0, 0, 0, 0, false, [], []⟩

def containerAt (l : List Container) (i : Nat) : Container := l.getD i dummyContainer

def storeGet (store : List (Nat × QuadRecord)) (id : Nat) : QuadRecord :=
  (alookup id store).getD dummyQuad

/-- Mutation through an alias: update the record of `id` in place. -/
def storeUpdate (store : List (Nat × QuadRecord)) (id : Nat)
    (f : QuadRecord → QuadRecord) : List (Nat × QuadRecord) :=
  store.map (fun p => if p.1 = id then (p.1, f p.2) else p)

/-- JS sparse array assignment `l[i] = v`: holes created past the end read
back as `undefined` and are modeled as 0 (no embedded scenario reads one). -/
def jsSetElem (l : List Nat) (i : Nat) (v : Nat) : List Nat :=
  if i < l.length then l.set i v
  else l ++ List.replicate (i - l.length) 0 ++ [v]

/-- The integers `a, a+1, ..., b` (empty when `b < a`), the values taken by
`for (x = a; x <= b; x += 1)`. -/
def intRange (a b : Int) : List Int :=
  (List.range (b + 1 - a).toNat).map (fun (k : Nat) => a + Int.ofNat k)

/-- JS `createQuadrant(left, top)`: a fresh Quadrant marked changed, with
empty `things`/`numthings` per group and bounds from the cell size. -/
def createQuadrant (s : QKState) (left top : Int) : Nat × QKState :=
  let q : QuadRecord :=
    { left := left, top := top,
      right := left + s.quadrantWidth, bottom := top + s.quadrantHeight,
      changed := true,
      things := s.groupNames.map (fun g => (g, [])),
      numthings := s.groupNames.map (fun g => (g, 0)) }
  (s.nextId, { s with store := s.store ++ [(s.nextId, q)], nextId := s.nextId + 1 })

/-- JS `createQuadrantRow(left, top)`: `numCols` fresh quadrants, `left`
advancing by `quadrantWidth`. -/
def createQuadrantRow (s : QKState) (left top : Int) : Container × QKState :=
  let z := (List.range s.numCols.toNat).foldl
    (fun (acc : List Nat × QKState) j =>
      let c := createQuadrant acc.2 (left + j * acc.2.quadrantWidth) top
      (acc.1 ++ [c.1], c.2)) ([], s)
  (⟨left, top, z.1⟩, z.2)

/-- JS `createQuadrantCol(left, top)`: `numRows` fresh quadrants, `top`
advancing by `quadrantHeight`. -/
def createQuadrantCol (s : QKState) (left top : Int) : Container × QKState :=
  let z := (List.range s.numRows.toNat).foldl
    (fun (acc : List Nat × QKState) i =>
      let c := createQuadrant acc.2 left (top + i * acc.2.quadrantHeight)
      (acc.1 ++ [c.1], c.2)) ([], s)
  (⟨left, top, z.1⟩, z.2)

/-- The quadrant `createQuadrant` builds for allocation `k` of
`resetQuadrants` (cell row `k / numCols`, column `k % numCols`). -/
def resetRecord (s : QKState) (k : Nat) : QuadRecord :=
  { left := s.startLeft + (k % s.numCols.toNat) * s.quadrantWidth,
    top := s.startTop + (k / s.numCols.toNat) * s.quadrantHeight,
    right := s.startLeft + (k % s.numCols.toNat) * s.quadrantWidth + s.quadrantWidth,
    bottom := s.startTop + (k / s.numCols.toNat) * s.quadrantHeight + s.quadrantHeight,
    changed := true,
    things := s.groupNames.map (fun g => (g, [])),
    numthings := s.groupNames.map (fun g => (g, 0)) }

/-- JS `resetQuadrants`: remake the bounds, the row and column containers
and a fresh quadrant per cell (row-major creation order; quadrant `(i, j)`
is allocation `i * numCols + j`, pushed to row `i` and column `j`). -/
def resetQuadrants (s : QKState) : QKState :=
  let nR := s.numRows.toNat
  let nC := s.numCols.toNat
  { s with
    top := s.startTop,
    right := s.startLeft + s.quadrantWidth * s.numCols,
    bottom := s.startTop + s.quadrantHeight * s.numRows,
    left := s.startLeft,
    offsetX := 0, offsetY := 0,
    quadrantRows := (List.range nR).map (fun (i : Nat) =>
      { left := s.startLeft, top := s.startTop + i * s.quadrantHeight,
        quadrants := (List.range nC).map (fun (j : Nat) => i * nC + j) }),
    quadrantCols := (List.range nC).map (fun (j : Nat) =>
      { left := s.startLeft + j * s.quadrantWidth, top := s.startTop,
        quadrants := (List.range nR).map (fun (i : Nat) => i * nC + j) }),
    store := (List.range (nR * nC)).map (fun k => (k, resetRecord s k)),
    nextId := nR * nC }

/-- JS `shiftQuadrant`: translate a quadrant's bounds and mark it
changed. -/
def shiftQuadrantRec (dx dy : Int) (q : QuadRecord) : QuadRecord :=
  { q with
    top := q.top + dy, right := q.right + dx,
    bottom := q.bottom + dy, left := q.left + dx, changed := true }

/-- JS `pushQuadrantRow`: append a new bottom row and push its quadrants
onto each column container (`quadrantCols[i]` gets `row.quadrants[i]`; the
two lists have the same length in every reachable state). -/
def pushQuadrantRow (s : QKState) : QKState :=
  let rc := createQuadrantRow s s.left s.bottom
  { rc.2 with
    numRows := rc.2.numRows + 1,
    quadrantRows := rc.2.quadrantRows ++ [rc.1],
    quadrantCols := List.zipWith
      (fun c id => { c with quadrants := c.quadrants ++ [id] })
      rc.2.quadrantCols rc.1.quadrants,
    bottom := rc.2.bottom + rc.2.quadrantHeight }

/-- JS `pushQuadrantCol`. -/
def pushQuadrantCol (s : QKState) : QKState :=
  let cc := createQuadrantCol s s.right s.top
  { cc.2 with
    numCols := cc.2.numCols + 1,
    quadrantCols := cc.2.quadrantCols ++ [cc.1],
    quadrantRows := List.zipWith
      (fun r id => { r with quadrants := r.quadrants ++ [id] })
      cc.2.quadrantRows cc.1.quadrants,
    right := cc.2.right + cc.2.quadrantWidth }

/-- JS `popQuadrantRow`: drop the last quadrant of every column and the
last row container. -/
def popQuadrantRow (s : QKState) : QKState :=
  { s with
    quadrantCols := s.quadrantCols.map (fun c => { c with quadrants := c.quadrants.dropLast }),
    numRows := s.numRows - 1,
    quadrantRows := s.quadrantRows.dropLast,
    bottom := s.bottom - s.quadrantHeight }

/-- JS `popQuadrantCol`. -/
def popQuadrantCol (s : QKState) : QKState :=
  { s with
    quadrantRows := s.quadrantRows.map (fun r => { r with quadrants := r.quadrants.dropLast }),
    numCols := s.numCols - 1,
    quadrantCols := s.quadrantCols.dropLast,
    right := s.right - s.quadrantWidth }

/-- JS `unshiftQuadrantRow`: prepend a new top row, prepending its
quadrants to each column container. -/
def unshiftQuadrantRow (s : QKState) : QKState :=
  let rc := createQuadrantRow s s.left (s.top - s.quadrantHeight)
  { rc.2 with
    numRows := rc.2.numRows + 1,
    quadrantRows := rc.1 :: rc.2.quadrantRows,
    quadrantCols := List.zipWith
      (fun c id => { c with quadrants := id :: c.quadrants })
      rc.2.quadrantCols rc.1.quadrants,
    top := rc.2.top - rc.2.quadrantHeight }

/-- JS `unshiftQuadrantCol`. -/
def unshiftQuadrantCol (s : QKState) : QKState :=
  let cc := createQuadrantCol s (s.left - s.quadrantWidth) s.top
  { cc.2 with
    numCols := cc.2.numCols + 1,
    quadrantCols := cc.1 :: cc.2.quadrantCols,
    quadrantRows := List.zipWith
      (fun r id => { r with quadrants := id :: r.quadrants })
      cc.2.quadrantRows cc.1.quadrants,
    left := cc.2.left - cc.2.quadrantWidth }

/-- JS `shiftQuadrantRow` ("Removes a QuadrantRow from the beginning of the
quadrantRows Array"): `quadrantCols[i].quadrants.shift()` drops the FIRST
quadrant of every column, but `this.quadrantRows.pop()` removes the LAST
row container. -/
def shiftQuadrantRow (s : QKState) : QKState :=
  { s with
    quadrantCols := s.quadrantCols.map (fun c => { c with quadrants := c.quadrants.drop 1 }),
    numRows := s.numRows - 1,
    quadrantRows := s.quadrantRows.dropLast,
    top := s.top + s.quadrantHeight }

/-- JS `shiftQuadrantCol`: same shape (drops the first quadrant of every
row but pops the last column container). -/
def shiftQuadrantCol (s : QKState) : QKState :=
  { s with
    quadrantRows := s.quadrantRows.map (fun r => { r with quadrants := r.quadrants.drop 1 }),
    numCols := s.numCols - 1,
    quadrantCols := s.quadrantCols.dropLast,
    left := s.left + s.quadrantWidth }

/-- First `while` of `adjustOffsets`:
`while (-offsetX > quadrantWidth) { shiftQuadrantCol; pushQuadrantCol; offsetX += quadrantWidth }`. -/
def adjX1 : Nat → QKState → QKState
  | 0, s => s
  | fuel + 1, s =>
    if -s.offsetX > s.quadrantWidth then
      let s2 := pushQuadrantCol (shiftQuadrantCol s)
      adjX1 fuel { s2 with offsetX := s.offsetX + s.quadrantWidth }
    else s

/-- Second `while`: `{ popQuadrantCol; unshiftQuadrantCol; offsetX -= quadrantWidth }`. -/
def adjX2 : Nat → QKState → QKState
  | 0, s => s
  | fuel + 1, s =>
    if s.offsetX > s.quadrantWidth then
      let s2 := unshiftQuadrantCol (popQuadrantCol s)
      adjX2 fuel { s2 with offsetX := s.offsetX - s.quadrantWidth }
    else s

/-- Third `while`: `{ unshiftQuadrantRow; pushQuadrantRow; offsetY += quadrantHeight }`
(the source adds two rows and removes none here). -/
def adjY1 : Nat → QKState → QKState
  | 0, s => s
  | fuel + 1, s =>
    if -s.offsetY > s.quadrantHeight then
      let s2 := pushQuadrantRow (unshiftQuadrantRow s)
      adjY1 fuel { s2 with offsetY := s.offsetY + s.quadrantHeight }
    else s

/-- Fourth `while`: `{ popQuadrantRow; unshiftQuadrantRow; offsetY -= quadrantHeight }`. -/
def adjY2 : Nat → QKState → QKState
  | 0, s => s
  | fuel + 1, s =>
    if s.offsetY > s.quadrantHeight then
      let s2 := unshiftQuadrantRow (popQuadrantRow s)
      adjY2 fuel { s2 with offsetY := s.offsetY - s.quadrantHeight }
    else s

/-- JS `adjustOffsets`: the four loops in order.  Each iteration moves the
offset `quadrantWidth`/`quadrantHeight` closer to the exit condition, so
`|offset| + 1` fuel is enough whenever the cell size is at least 1 (with a
cell size of 0 the JS loops never terminate; no claim touches that). -/
def adjustOffsets (s : QKState) : QKState :=
  let s1 := adjX1 (s.offsetX.natAbs + 1) s
  let s2 := adjX2 (s1.offsetX.natAbs + 1) s1
  let s3 := adjY1 (s2.offsetY.natAbs + 1) s2
  adjY2 (s3.offsetY.natAbs + 1) s3

/-- The translation stage of JS `shiftQuadrants(dx, dy)` (everything
before the final `adjustOffsets()` call): translate the summary bounds,
the row and column containers, and every quadrant reached through the row
containers. -/
def shiftTranslate (s : QKState) (dx dy : Int) : QKState :=
  let s1 := { s with
    offsetX := s.offsetX + dx, offsetY := s.offsetY + dy,
    top := s.top + dy, right := s.right + dx,
    bottom := s.bottom + dy, left := s.left + dx,
    quadrantRows := s.quadrantRows.map (fun (c : Container) =>
      { c with left := c.left + dx, top := c.top + dy }),
    quadrantCols := s.quadrantCols.map (fun (c : Container) =>
      { c with left := c.left + dx, top := c.top + dy }) }
  let store2 := ((s1.quadrantRows.map Container.quadrants).flatten).foldl
    (fun st id => storeUpdate st id (shiftQuadrantRec dx dy)) s1.store
  { s1 with store := store2 }

/-- JS `shiftQuadrants(dx, dy)`: the translation stage, then
`adjustOffsets`. -/
def shiftQuadrants (s : QKState) (dx dy : Int) : QKState :=
  adjustOffsets (shiftTranslate s dx dy)

/-! ### C4: the container invariant and `shiftQuadrantRow` -/

/-- An initial `QKState` as the constructor leaves it (containers and
store are built by `resetQuadrants`). -/
def qkInit (nR nC qW qH sL sT : Int) (groups : List (List Char)) : QKState :=
  { numRows := nR, numCols := nC, quadrantWidth := qW, quadrantHeight := qH,
    startLeft := sL, startTop := sT, groupNames := groups,
    top := 0, right := 0, bottom := 0, left := 0,
    quadrantRows := [], quadrantCols := [],
    offsetX := 0, offsetY := 0, store := [], nextId := 0 }

/-- The C4 invariant, decidably: the row containers and the column
containers each hold `numRows * numCols` quadrants, and every quadrant
mentioned by either appears in exactly one row container and exactly one
column container. -/
def rowColConsistent (s : QKState) : Bool :=
  let rowIds := (s.quadrantRows.map Container.quadrants).flatten
  let colIds := (s.quadrantCols.map Container.quadrants).flatten
  decide (rowIds.length = s.numRows.toNat * s.numCols.toNat) &&
  decide (colIds.length = s.numRows.toNat * s.numCols.toNat) &&
  (rowIds ++ colIds).all (fun id =>
    decide (rowIds.count id = 1) && decide (colIds.count id = 1))

def qk4 : QKState := qkInit 2 2 10 10 0 0 [str "solid"]

/-- C4: the container invariant holds after `resetQuadrants` but is broken
by one `shiftQuadrantRow` on a fresh 2×2 grid: the columns drop their
FIRST quadrant (`quadrants.shift()`) while `quadrantRows.pop()` removes
the LAST row container, so the surviving row container holds the two
quadrants that no column holds, and vice versa. -/
theorem shiftQuadrantRow_breaks_containers :
    rowColConsistent (resetQuadrants qk4) = true ∧
    rowColConsistent (shiftQuadrantRow (resetQuadrants qk4)) = false ∧
    (shiftQuadrantRow (resetQuadrants qk4)).numRows = 1 ∧
    (shiftQuadrantRow (resetQuadrants qk4)).numCols = 2 ∧
    (shiftQuadrantRow (resetQuadrants qk4)).quadrantRows.map Container.quadrants =
      [[0, 1]] ∧
    (shiftQuadrantRow (resetQuadrants qk4)).quadrantCols.map Container.quadrants =
      [[2], [3]] := by
  refine ⟨by decide, by decide, by decide, by decide, by decide, by decide⟩

/-! ### C3: shifting forth and back -/

theorem adjX1_id (fuel : Nat) (s : QKState) (h : ¬(-s.offsetX > s.quadrantWidth)) :
    adjX1 fuel s = s := by
  cases fuel <;> simp [adjX1, h]

theorem adjX2_id (fuel : Nat) (s : QKState) (h : ¬(s.offsetX > s.quadrantWidth)) :
    adjX2 fuel s = s := by
  cases fuel <;> simp [adjX2, h]

theorem adjY1_id (fuel : Nat) (s : QKState) (h : ¬(-s.offsetY > s.quadrantHeight)) :
    adjY1 fuel s = s := by
  cases fuel <;> simp [adjY1, h]

theorem adjY2_id (fuel : Nat) (s : QKState) (h : ¬(s.offsetY > s.quadrantHeight)) :
    adjY2 fuel s = s := by
  cases fuel <;> simp [adjY2, h]

theorem adjustOffsets_id (s : QKState)
    (h1 : ¬(-s.offsetX > s.quadrantWidth)) (h2 : ¬(s.offsetX > s.quadrantWidth))
    (h3 : ¬(-s.offsetY > s.quadrantHeight)) (h4 : ¬(s.offsetY > s.quadrantHeight)) :
    adjustOffsets s = s := by
  simp only [adjustOffsets]
  rw [adjX1_id _ _ h1, adjX2_id _ _ h2, adjY1_id _ _ h3, adjY2_id _ _ h4]

theorem storeFold_eq_map (f : QuadRecord → QuadRecord) :
    ∀ (L : List Nat) (st : List (Nat × QuadRecord)),
      L.foldl (fun acc id => storeUpdate acc id f) st =
        st.map (fun p => (p.1, f^[L.count p.1] p.2)) := by
  intro L
  induction L with
  | nil =>
    intro st
    simp [Function.iterate_zero]
  | cons a L ih =>
    intro st
    rw [List.foldl_cons, ih]
    simp only [storeUpdate, List.map_map]
    apply List.map_congr_left
    intro p _
    simp only [Function.comp_apply]
    by_cases hpa : p.1 = a
    · simp only [if_pos hpa, List.count_cons, hpa]
      simp [Function.iterate_succ_apply]
    · simp only [if_neg hpa, List.count_cons]
      have : ¬(a == p.1) = true := by
        simp only [beq_iff_eq]
        intro hcon
        exact hpa hcon.symm
      simp [this]

theorem shiftRec_iterate (a b : Int) :
    ∀ (m : Nat) (p : QuadRecord),
      ((shiftQuadrantRec a b)^[m] p).left = p.left + m * a ∧
      ((shiftQuadrantRec a b)^[m] p).top = p.top + m * b ∧
      ((shiftQuadrantRec a b)^[m] p).right = p.right + m * a ∧
      ((shiftQuadrantRec a b)^[m] p).bottom = p.bottom + m * b := by
  intro m
  induction m with
  | zero => intro p; simp
  | succ m ih =>
    intro p
    rw [Function.iterate_succ_apply]
    rcases ih (shiftQuadrantRec a b p) with ⟨h1, h2, h3, h4⟩
    refine ⟨?_, ?_, ?_, ?_⟩
    · rw [h1]; simp only [shiftQuadrantRec]; push_cast; ring
    · rw [h2]; simp only [shiftQuadrantRec]; push_cast; ring
    · rw [h3]; simp only [shiftQuadrantRec]; push_cast; ring
    · rw [h4]; simp only [shiftQuadrantRec]; push_cast; ring

theorem shiftTranslate_store (s : QKState) (dx dy : Int) :
    (shiftTranslate s dx dy).store =
      ((s.quadrantRows.map Container.quadrants).flatten).foldl
        (fun st id => storeUpdate st id (shiftQuadrantRec dx dy)) s.store := by
  simp only [shiftTranslate]
  have h : (s.quadrantRows.map (fun (c : Container) =>
      { c with left := c.left + dx, top := c.top + dy })).map Container.quadrants =
      s.quadrantRows.map Container.quadrants := by
    rw [List.map_map]
    exact List.map_congr_left (fun c _ => rfl)
  rw [h]

theorem shiftTranslate_rows (s : QKState) (dx dy : Int) :
    (shiftTranslate s dx dy).quadrantRows =
      s.quadrantRows.map (fun (c : Container) =>
        { c with left := c.left + dx, top := c.top + dy }) := rfl

theorem shiftTranslate_cols (s : QKState) (dx dy : Int) :
    (shiftTranslate s dx dy).quadrantCols =
      s.quadrantCols.map (fun (c : Container) =>
        { c with left := c.left + dx, top := c.top + dy }) := rfl

def qk3 : QKState := qkInit 3 3 10 10 0 0 [str "solid"]

/-- C3 counterexample: on a fresh 3×3 grid of 10×10 cells (bounds
`[0,30]×[0,30]`, so any `|dx| < 30` is "less than one full grid
traversal"), `shiftQuadrants(11, 0)` followed by `shiftQuadrants(-11, 0)`
does not restore the grid: the summary bounds and the first cell of row 0
end up one cell width to the left (`left = -10`, first-cell left `-10`,
`right = 20` instead of `0`/`0`/`30`).  The first shift's `adjustOffsets`
pops the rightmost column and unshifts a new leftmost one, and the second
shift's offset (`-10`) is not strictly beyond the cell width, so nothing
is adjusted back. -/
theorem shiftQuadrants_roundtrip_fails :
    ((resetQuadrants qk3).left = 0 ∧ (resetQuadrants qk3).right = 30 ∧
      (storeGet (resetQuadrants qk3).store
        ((containerAt (resetQuadrants qk3).quadrantRows 0).quadrants.getD 0 0)).left = 0) ∧
    (shiftQuadrants (shiftQuadrants (resetQuadrants qk3) 11 0) (-11) 0).left = -10 ∧
    (shiftQuadrants (shiftQuadrants (resetQuadrants qk3) 11 0) (-11) 0).right = 20 ∧
    (storeGet (shiftQuadrants (shiftQuadrants (resetQuadrants qk3) 11 0) (-11) 0).store
      ((containerAt
        (shiftQuadrants (shiftQuadrants (resetQuadrants qk3) 11 0) (-11) 0).quadrantRows
        0).quadrants.getD 0 0)).left = -10 := by
  exact ⟨⟨by decide, by decide, by decide⟩, by decide, by decide, by decide⟩

/-- C3 (amended): from a state with zero offsets (e.g. right after
`resetQuadrants`), `shiftQuadrants(dx, dy)` then `shiftQuadrants(-dx, -dy)`
restores the summary bounds, the row/column counts, every container's
position and contents, and every stored quadrant's bounds — provided
`|dx| ≤ quadrantWidth` and `|dy| ≤ quadrantHeight`, so that neither call
triggers `adjustOffsets`' rebalancing (the original claim's bound, one
full grid traversal, is refuted by the counterexample). -/
theorem shiftQuadrants_roundtrip (s : QKState) (dx dy : Int)
    (hW : 0 ≤ s.quadrantWidth) (hH : 0 ≤ s.quadrantHeight)
    (hx0 : s.offsetX = 0) (hy0 : s.offsetY = 0)
    (hdx1 : -s.quadrantWidth ≤ dx) (hdx2 : dx ≤ s.quadrantWidth)
    (hdy1 : -s.quadrantHeight ≤ dy) (hdy2 : dy ≤ s.quadrantHeight) :
    (shiftQuadrants (shiftQuadrants s dx dy) (-dx) (-dy)).top = s.top ∧
    (shiftQuadrants (shiftQuadrants s dx dy) (-dx) (-dy)).right = s.right ∧
    (shiftQuadrants (shiftQuadrants s dx dy) (-dx) (-dy)).bottom = s.bottom ∧
    (shiftQuadrants (shiftQuadrants s dx dy) (-dx) (-dy)).left = s.left ∧
    (shiftQuadrants (shiftQuadrants s dx dy) (-dx) (-dy)).numRows = s.numRows ∧
    (shiftQuadrants (shiftQuadrants s dx dy) (-dx) (-dy)).numCols = s.numCols ∧
    (shiftQuadrants (shiftQuadrants s dx dy) (-dx) (-dy)).quadrantRows.map
        (fun c => (c.left, c.top, c.quadrants)) =
      s.quadrantRows.map (fun c => (c.left, c.top, c.quadrants)) ∧
    (shiftQuadrants (shiftQuadrants s dx dy) (-dx) (-dy)).quadrantCols.map
        (fun c => (c.left, c.top, c.quadrants)) =
      s.quadrantCols.map (fun c => (c.left, c.top, c.quadrants)) ∧
    (shiftQuadrants (shiftQuadrants s dx dy) (-dx) (-dy)).store.map
        (fun p => (p.1, p.2.left, p.2.top, p.2.right, p.2.bottom)) =
      s.store.map (fun p => (p.1, p.2.left, p.2.top, p.2.right, p.2.bottom)) := by
  have hoX : (shiftTranslate s dx dy).offsetX = s.offsetX + dx := rfl
  have hoY : (shiftTranslate s dx dy).offsetY = s.offsetY + dy := rfl
  have hqW : (shiftTranslate s dx dy).quadrantWidth = s.quadrantWidth := rfl
  have hqH : (shiftTranslate s dx dy).quadrantHeight = s.quadrantHeight := rfl
  have e1 : shiftQuadrants s dx dy = shiftTranslate s dx dy := by
    unfold shiftQuadrants
    apply adjustOffsets_id
    · rw [hoX, hqW, hx0]; omega
    · rw [hoX, hqW, hx0]; omega
    · rw [hoY, hqH, hy0]; omega
    · rw [hoY, hqH, hy0]; omega
  have e2 : shiftQuadrants (shiftTranslate s dx dy) (-dx) (-dy) =
      shiftTranslate (shiftTranslate s dx dy) (-dx) (-dy) := by
    unfold shiftQuadrants
    apply adjustOffsets_id
    · show ¬(-((shiftTranslate s dx dy).offsetX + -dx) > s.quadrantWidth)
      rw [hoX, hx0]; omega
    · show ¬((shiftTranslate s dx dy).offsetX + -dx > s.quadrantWidth)
      rw [hoX, hx0]; omega
    · show ¬(-((shiftTranslate s dx dy).offsetY + -dy) > s.quadrantHeight)
      rw [hoY, hy0]; omega
    · show ¬((shiftTranslate s dx dy).offsetY + -dy > s.quadrantHeight)
      rw [hoY, hy0]; omega
  rw [e1, e2]
  have hL : (shiftTranslate s dx dy).quadrantRows.map Container.quadrants =
      s.quadrantRows.map Container.quadrants := by
    rw [shiftTranslate_rows, List.map_map]
    exact List.map_congr_left (fun c _ => rfl)
  refine ⟨?_, ?_, ?_, ?_, rfl, rfl, ?_, ?_, ?_⟩
  · show s.top + dy + -dy = s.top
    omega
  · show s.right + dx + -dx = s.right
    omega
  · show s.bottom + dy + -dy = s.bottom
    omega
  · show s.left + dx + -dx = s.left
    omega
  · rw [shiftTranslate_rows, shiftTranslate_rows, List.map_map, List.map_map]
    apply List.map_congr_left
    intro c _
    show (c.left + dx + -dx, c.top + dy + -dy, c.quadrants) = (c.left, c.top, c.quadrants)
    simp only [Prod.mk.injEq]
    exact ⟨by omega, by omega, trivial⟩
  · rw [shiftTranslate_cols, shiftTranslate_cols, List.map_map, List.map_map]
    apply List.map_congr_left
    intro c _
    show (c.left + dx + -dx, c.top + dy + -dy, c.quadrants) = (c.left, c.top, c.quadrants)
    simp only [Prod.mk.injEq]
    exact ⟨by omega, by omega, trivial⟩
  · rw [shiftTranslate_store, hL, shiftTranslate_store]
    rw [storeFold_eq_map, storeFold_eq_map, List.map_map, List.map_map]
    apply List.map_congr_left
    intro p _
    simp only [Function.comp_apply]
    obtain ⟨h1, h2, h3, h4⟩ := shiftRec_iterate dx dy
      (((s.quadrantRows.map Container.quadrants).flatten).count p.1) p.2
    obtain ⟨k1, k2, k3, k4⟩ := shiftRec_iterate (-dx) (-dy)
      (((s.quadrantRows.map Container.quadrants).flatten).count p.1)
      ((shiftQuadrantRec dx dy)^[((s.quadrantRows.map Container.quadrants).flatten).count p.1]
        p.2)
    simp only [Prod.mk.injEq]
    refine ⟨trivial, ?_, ?_, ?_, ?_⟩
    · rw [k1, h1]; ring
    · rw [k2, h2]; ring
    · rw [k3, h3]; ring
    · rw [k4, h4]; ring

def qk3c : QKState := resetQuadrants qk3

theorem shiftQuadrants_roundtrip_witness :
    (0 ≤ qk3c.quadrantWidth ∧ 0 ≤ qk3c.quadrantHeight ∧
      qk3c.offsetX = 0 ∧ qk3c.offsetY = 0 ∧
      -qk3c.quadrantWidth ≤ (7 : Int) ∧ (7 : Int) ≤ qk3c.quadrantWidth ∧
      -qk3c.quadrantHeight ≤ (-3 : Int) ∧ (-3 : Int) ≤ qk3c.quadrantHeight) ∧
    (shiftQuadrants (shiftQuadrants qk3c 7 (-3)) (-7) (-(-3))).left = qk3c.left ∧
    (shiftQuadrants (shiftQuadrants qk3c 7 (-3)) (-7) (-(-3))).store.map
        (fun p => (p.1, p.2.left, p.2.top, p.2.right, p.2.bottom)) =
      qk3c.store.map (fun p => (p.1, p.2.left, p.2.top, p.2.right, p.2.bottom)) := by
  refine ⟨⟨by decide, by decide, by decide, by decide,
    by decide, by decide, by decide, by decide⟩, ?_, ?_⟩
  · exact (shiftQuadrants_roundtrip qk3c 7 (-3) (by decide) (by decide) (by decide)
      (by decide) (by decide) (by decide) (by decide) (by decide)).2.2.2.1
  · exact (shiftQuadrants_roundtrip qk3c 7 (-3) (by decide) (by decide) (by decide)
      (by decide) (by decide) (by decide) (by decide) (by decide)).2.2.2.2.2.2.2.2

/-! ### C1: which quadrants an entity occupies -/

structure QKThing where
  id : Nat
  group : List Char
  top : Int
  right : Int
  bottom : Int
  left : Int
  numquads : Nat
  quadrants : List Nat
  changed : Bool

/-- JS `findQuadrantRowStart`:
`Math.max(Math.floor((getTop(thing) - this.top) / quadrantHeight), 0)`
(`Int.fdiv` is the floor of the real quotient for a positive divisor). -/
def findQuadrantRowStart (s : QKState) (t : QKThing) : Int :=
  max ((t.top - s.top).fdiv s.quadrantHeight) 0

def findQuadrantRowEnd (s : QKState) (t : QKThing) : Int :=
  min ((t.bottom - s.top).fdiv s.quadrantHeight) (s.numRows - 1)

def findQuadrantColStart (s : QKState) (t : QKThing) : Int :=
  max ((t.left - s.left).fdiv s.quadrantWidth) 0

def findQuadrantColEnd (s : QKState) (t : QKThing) : Int :=
  min ((t.right - s.left).fdiv s.quadrantWidth) (s.numCols - 1)

/-- JS object property assignment `obj[k] = v` on a string-keyed record. -/
def assocUpdate {β : Type} (l : List (List Char × β)) (k : List Char) (v : β) :
    List (List Char × β) :=
  match l with
  | [] => [(k, v)]
  | (a, b) :: r => if a = k then (k, v) :: r else (a, b) :: assocUpdate r k v

/-- JS `markThingQuadrantsChanged`: mark the thing's first `numquads`
recorded quadrants changed. -/
def markThingQuadrantsChanged (s : QKState) (t : QKThing) : QKState :=
  let st2 := (t.quadrants.take t.numquads).foldl
    (fun st id => storeUpdate st id (fun q => { q with changed := true })) s.store
  { s with store := st2 }

/-- The quadrant-side half of JS `setThingInQuadrant`:
`quadrant.things[group][quadrant.numthings[group]] = thing;
quadrant.numthings[group] += 1; if (thing.changed) quadrant.changed = true`. -/
def thingIntoQuad (t : QKThing) (q : QuadRecord) : QuadRecord :=
  let n := (alookup t.group q.numthings).getD 0
  { q with
    things := assocUpdate q.things t.group
      (jsSetElem ((alookup t.group q.things).getD []) n t.id),
    numthings := assocUpdate q.numthings t.group (n + 1),
    changed := if t.changed then true else q.changed }

/-- JS `setThingInQuadrant`: record the quadrant in the thing
(`thing.quadrants[thing.numquads] = quadrant; numquads += 1`) and the
thing in the quadrant (`thingIntoQuad`). -/
def setThingInQuadrant (s : QKState) (t : QKThing) (qid : Nat) :
    QKState × QKThing :=
  let t2 := { t with
    quadrants := jsSetElem t.quadrants t.numquads qid,
    numquads := t.numquads + 1 }
  ({ s with store := storeUpdate s.store qid (thingIntoQuad t) }, t2)

/-- The quadrants visited by `determineThingQuadrants`' double loop, in
order (`quadrantRows[row].quadrants[col]`; the loop body never modifies
the containers, so the lookups can be precomputed). -/
def detCells (s : QKState) (t : QKThing) : List Nat :=
  (intRange (findQuadrantRowStart s t) (findQuadrantRowEnd s t)).flatMap (fun r =>
    (intRange (findQuadrantColStart s t) (findQuadrantColEnd s t)).map (fun c =>
      (containerAt s.quadrantRows r.toNat).quadrants.getD c.toNat 0))

def detLoop (L : List Nat) (s : QKState) (t : QKThing) : QKState × QKThing :=
  L.foldl (fun p qid => setThingInQuadrant p.1 p.2 qid) (s, t)

/-- JS `determineThingQuadrants`: mark the old quadrants changed if the
thing was changed, zero `numquads`, visit every cell in the clamped
row/column ranges, and clear the thing's changed flag. -/
def determineThingQuadrants (s : QKState) (t : QKThing) : QKState × QKThing :=
  let s1 := if t.changed then markThingQuadrantsChanged s t else s
  let p := detLoop (detCells s t) s1 { t with numquads := 0 }
  (p.1, { p.2 with changed := false })

/-- Whether a quadrant record holds a back-reference to thing `tid` under
group `grp` (among its first `numthings[grp]` entries). -/
def quadHasThing (q : QuadRecord) (grp : List Char) (tid : Nat) : Bool :=
  (((alookup grp q.things).getD []).take ((alookup grp q.numthings).getD 0)).contains tid

/-- Closed-box intersection of an entity box with the cell
`[cellLeft, cellLeft+qW] × [cellTop, cellTop+qH]` (the spec's reading,
"inclusive of partial overlap"). -/
def closedIntersects (cellLeft cellTop qW qH : Int) (t : QKThing) : Bool :=
  decide (t.top ≤ cellTop + qH) && decide (cellTop ≤ t.bottom) &&
  decide (t.left ≤ cellLeft + qW) && decide (cellLeft ≤ t.right)

/-- The entity `{top:10, left:0, right:5, bottom:15}` (fresh: no recorded
quadrants). -/
def thingC1 : QKThing :=
  { id := 0, group := str "solid", top := 10, right := 5, bottom := 15,
    left := 0, numquads := 0, quadrants := [], changed := false }

/-- C1 counterexample: on the 3×3 grid of 10×10 cells, cell (0,0) (span
`[0,10]×[0,10]`) intersects the closed bounding box of
`{top:10,left:0,right:5,bottom:15}` (they touch along `y = 10`), yet after
`determineThingQuadrants` the cell holds no back-reference to the entity:
`findQuadrantRowStart` computes `floor((10-0)/10) = 1`, so the occupied
set starts at row 1 (cell id 3 = (1,0) is occupied). -/
theorem determine_closed_intersection_fails :
    closedIntersects 0 0 10 10 thingC1 = true ∧
    quadHasThing
      (storeGet (determineThingQuadrants (resetQuadrants qk3) thingC1).1.store 0)
      (str "solid") thingC1.id = false ∧
    quadHasThing
      (storeGet (determineThingQuadrants (resetQuadrants qk3) thingC1).1.store 3)
      (str "solid") thingC1.id = true := by
  exact ⟨by decide, by decide, by decide⟩

theorem alookup_storeUpdate_ne (st : List (Nat × QuadRecord)) (id id' : Nat)
    (f : QuadRecord → QuadRecord) (h : id ≠ id') :
    alookup id (storeUpdate st id' f) = alookup id st := by
  induction st with
  | nil => rfl
  | cons p r ih =>
    simp only [storeUpdate, List.map_cons] at ih ⊢
    by_cases hp : p.1 = id'
    · rw [if_pos hp]
      simp only [alookup]
      have hpi : ¬(p.1 = id) := by
        intro hcon
        exact h (by rw [← hcon, hp])
      rw [if_neg hpi, if_neg hpi]
      exact ih
    · rw [if_neg hp]
      simp only [alookup]
      by_cases hpi : p.1 = id
      · rw [if_pos hpi, if_pos hpi]
      · rw [if_neg hpi, if_neg hpi]
        exact ih

theorem alookup_storeUpdate_self (st : List (Nat × QuadRecord)) (id : Nat)
    (f : QuadRecord → QuadRecord) :
    alookup id (storeUpdate st id f) = (alookup id st).map f := by
  induction st with
  | nil => rfl
  | cons p r ih =>
    simp only [storeUpdate, List.map_cons] at ih ⊢
    by_cases hp : p.1 = id
    · rw [if_pos hp]
      simp only [alookup, if_pos hp, Option.map_some']
    · rw [if_neg hp]
      simp only [alookup, if_neg hp]
      exact ih

theorem alookup_storeUpdate_isSome (st : List (Nat × QuadRecord)) (id id' : Nat)
    (f : QuadRecord → QuadRecord) :
    (alookup id (storeUpdate st id' f)).isSome = (alookup id st).isSome := by
  by_cases h : id = id'
  · subst h
    rw [alookup_storeUpdate_self]
    cases alookup id st <;> rfl
  · rw [alookup_storeUpdate_ne st id id' f h]

theorem alookup_assocUpdate_self {β : Type} (k : List Char) (v : β) :
    ∀ l : List (List Char × β), alookup k (assocUpdate l k v) = some v := by
  intro l
  induction l with
  | nil => simp [assocUpdate, alookup]
  | cons p r ih =>
    simp only [assocUpdate]
    by_cases hp : p.1 = k
    · rw [if_pos hp]
      simp [alookup]
    · rw [if_neg hp]
      simp only [alookup, if_neg hp]
      exact ih

theorem jsSetElem_append (l : List Nat) (v : Nat) :
    jsSetElem l l.length v = l ++ [v] := by
  simp [jsSetElem]

theorem alookup_map_pair {β : Type} (v : β) :
    ∀ (gs : List (List Char)) (g : List Char), g ∈ gs →
      alookup g (gs.map (fun x => (x, v))) = some v := by
  intro gs
  induction gs with
  | nil => intro g h; cases h
  | cons a r ih =>
    intro g h
    simp only [List.map_cons, alookup]
    by_cases hag : a = g
    · rw [if_pos hag]
    · rw [if_neg hag]
      apply ih
      rcases List.mem_cons.mp h with h1 | h1
      · exact absurd h1.symm hag
      · exact h1

theorem mem_intRange {a b x : Int} : x ∈ intRange a b ↔ a ≤ x ∧ x ≤ b := by
  unfold intRange
  rw [List.mem_map]
  constructor
  · rintro ⟨k, hk, he⟩
    rw [List.mem_range] at hk
    simp only [Int.ofNat_eq_coe] at he
    omega
  · intro h
    refine ⟨(x - a).toNat, ?_, ?_⟩
    · rw [List.mem_range]; omega
    · simp only [Int.ofNat_eq_coe]; omega

theorem alookup_append_some {α β : Type} [DecidableEq α] (k : α) :
    ∀ (l1 l2 : List (α × β)) (v : β), alookup k l1 = some v →
      alookup k (l1 ++ l2) = some v := by
  intro l1 l2
  induction l1 with
  | nil => intro v h; cases h
  | cons p r ih =>
    intro v h
    simp only [alookup] at h
    simp only [List.cons_append, alookup]
    by_cases hp : p.1 = k
    · rw [if_pos hp] at h ⊢
      exact h
    · rw [if_neg hp] at h ⊢
      exact ih v h

theorem alookup_append_none {α β : Type} [DecidableEq α] (k : α) :
    ∀ (l1 l2 : List (α × β)), alookup k l1 = none →
      alookup k (l1 ++ l2) = alookup k l2 := by
  intro l1 l2
  induction l1 with
  | nil => intro _; rfl
  | cons p r ih =>
    intro h
    simp only [alookup] at h
    simp only [List.cons_append, alookup]
    by_cases hp : p.1 = k
    · rw [if_pos hp] at h
      cases h
    · rw [if_neg hp] at h ⊢
      exact ih h

theorem alookup_range_map_none {β : Type} (f : Nat → β) :
    ∀ (n qid : Nat), n ≤ qid →
      alookup qid ((List.range n).map (fun k => (k, f k))) = none := by
  intro n
  induction n with
  | zero => intro qid _; rfl
  | succ n ih =>
    intro qid h
    rw [List.range_succ, List.map_append, alookup_append_none _ _ _ (ih qid (by omega))]
    simp only [List.map_cons, List.map_nil, alookup]
    rw [if_neg (by omega)]

theorem alookup_range_map {β : Type} (f : Nat → β) :
    ∀ (n qid : Nat), qid < n →
      alookup qid ((List.range n).map (fun k => (k, f k))) = some (f qid) := by
  intro n
  induction n with
  | zero => intro qid h; omega
  | succ n ih =>
    intro qid h
    rw [List.range_succ, List.map_append]
    by_cases hq : qid < n
    · exact alookup_append_some _ _ _ _ (ih qid hq)
    · have hqn : qid = n := by omega
      rw [alookup_append_none _ _ _ (alookup_range_map_none f n qid (by omega))]
      simp only [List.map_cons, List.map_nil, alookup]
      rw [if_pos hqn.symm, hqn]

theorem getD_range_map {β : Type} (f : Nat → β) (n i : Nat) (d : β) (h : i < n) :
    ((List.range n).map f).getD i d = f i := by
  rw [List.getD_eq_getElem?_getD]
  rw [List.getElem?_map]
  rw [List.getElem?_range h]
  rfl

theorem flatMap_congr_left {α β : Type} :
    ∀ (l : List α) (f g : α → List β), (∀ a ∈ l, f a = g a) →
      l.flatMap f = l.flatMap g := by
  intro l
  induction l with
  | nil => intro f g _; rfl
  | cons a r ih =>
    intro f g h
    simp only [List.flatMap_cons]
    rw [h a (by simp), ih f g (fun x hx => h x (by simp [hx]))]

theorem le_fdiv_iff (x q k : Int) (hq : 0 < q) : k ≤ x.fdiv q ↔ k * q ≤ x := by
  rw [Int.fdiv_eq_ediv _ (le_of_lt hq)]
  exact Int.le_ediv_iff_mul_le hq

theorem fdiv_le_iff (x q r : Int) (hq : 0 < q) : x.fdiv q ≤ r ↔ x < (r + 1) * q := by
  have h := le_fdiv_iff x q (r + 1) hq
  constructor
  · intro hle
    by_contra hcon
    push_neg at hcon
    have := h.mpr hcon
    omega
  · intro hlt
    by_contra hcon
    push_neg at hcon
    have := h.mp (by omega)
    omega

theorem alookup_mem {α β : Type} [DecidableEq α] (k : α) :
    ∀ (st : List (α × β)) (v : β), alookup k st = some v → (k, v) ∈ st := by
  intro st
  induction st with
  | nil => intro v h; cases h
  | cons p r ih =>
    intro v h
    simp only [alookup] at h
    by_cases hp : p.1 = k
    · rw [if_pos hp] at h
      cases h
      rw [← hp]
      exact List.mem_cons_self _ _
    · rw [if_neg hp] at h
      exact List.mem_cons_of_mem _ (ih v h)

theorem cell_id_inj (nC r1 c1 r2 c2 : Nat) (h1 : c1 < nC) (h2 : c2 < nC)
    (h : r1 * nC + c1 = r2 * nC + c2) : r1 = r2 ∧ c1 = c2 := by
  have hpos : 0 < nC := by omega
  have e1 : (c1 + r1 * nC) / nC = r1 := by
    rw [Nat.add_mul_div_right _ _ hpos, Nat.div_eq_of_lt h1]
    omega
  have e2 : (c2 + r2 * nC) / nC = r2 := by
    rw [Nat.add_mul_div_right _ _ hpos, Nat.div_eq_of_lt h2]
    omega
  have e3 : (c1 + r1 * nC) / nC = (c2 + r2 * nC) / nC := by
    have : c1 + r1 * nC = c2 + r2 * nC := by omega
    rw [this]
  have hr : r1 = r2 := by rw [← e1, e3, e2]
  refine ⟨hr, ?_⟩
  subst hr
  omega

/-- The quadrants of a state are dense for a group: the `numthings`
counter equals the length of the `things` array (true at reset, and
preserved because every insertion writes at index `numthings`). -/
def denseFor (grp : List Char) (st : List (Nat × QuadRecord)) : Prop :=
  ∀ p ∈ st, (alookup grp p.2.numthings).getD 0 = ((alookup grp p.2.things).getD []).length

theorem thingIntoQuad_spec (t : QKThing) (q : QuadRecord)
    (h : (alookup t.group q.numthings).getD 0 = ((alookup t.group q.things).getD []).length) :
    (alookup t.group (thingIntoQuad t q).numthings).getD 0 =
      ((alookup t.group (thingIntoQuad t q).things).getD []).length ∧
    ((alookup t.group (thingIntoQuad t q).things).getD []).take
        ((alookup t.group (thingIntoQuad t q).numthings).getD 0) =
      ((alookup t.group q.things).getD []).take
        ((alookup t.group q.numthings).getD 0) ++ [t.id] := by
  simp only [thingIntoQuad]
  rw [alookup_assocUpdate_self, alookup_assocUpdate_self]
  simp only [Option.getD_some]
  rw [h, jsSetElem_append]
  constructor
  · simp
  · have hlen : ((alookup t.group q.things).getD []).length + 1 =
        (((alookup t.group q.things).getD []) ++ [t.id]).length := by simp
    rw [hlen, List.take_length, List.take_length]

theorem setThing_store (s : QKState) (t : QKThing) (qid : Nat) :
    (setThingInQuadrant s t qid).1.store = storeUpdate s.store qid (thingIntoQuad t) := rfl

theorem denseFor_setThing (s : QKState) (t : QKThing) (qid : Nat)
    (hd : denseFor t.group s.store) :
    denseFor t.group (setThingInQuadrant s t qid).1.store := by
  intro p hp
  rw [setThing_store] at hp
  simp only [storeUpdate, List.mem_map] at hp
  obtain ⟨p0, hp0, he⟩ := hp
  by_cases h : p0.1 = qid
  · rw [if_pos h] at he
    rw [← he]
    exact (thingIntoQuad_spec t p0.2 (hd p0 hp0)).1
  · rw [if_neg h] at he
    rw [← he]
    exact hd p0 hp0

theorem detLoop_cons (a : Nat) (L : List Nat) (s : QKState) (t : QKThing) :
    detLoop (a :: L) s t =
      detLoop L (setThingInQuadrant s t a).1 (setThingInQuadrant s t a).2 := rfl

theorem detLoop_unvisited :
    ∀ (L : List Nat) (s : QKState) (t : QKThing) (qid : Nat), qid ∉ L →
      alookup qid (detLoop L s t).1.store = alookup qid s.store := by
  intro L
  induction L with
  | nil => intro s t qid _; rfl
  | cons a L ih =>
    intro s t qid hq
    have hqa : qid ≠ a := fun hcon => hq (by rw [hcon]; simp)
    have hqL : qid ∉ L := fun hcon => hq (by simp [hcon])
    rw [detLoop_cons, ih _ _ qid hqL, setThing_store,
      alookup_storeUpdate_ne _ _ _ _ hqa]

theorem detLoop_visited (grp : List Char) (tid : Nat) :
    ∀ (L : List Nat) (s : QKState) (t : QKThing), t.group = grp → t.id = tid →
      denseFor grp s.store →
      ∀ qid, qid ∈ L → (alookup qid s.store).isSome = true →
        quadHasThing (storeGet (detLoop L s t).1.store qid) grp tid = true := by
  intro L
  induction L with
  | nil => intro s t _ _ _ qid hmem; cases hmem
  | cons a L ih =>
    intro s t hg hi hd qid hmem hsome
    rw [detLoop_cons]
    have hg' : (setThingInQuadrant s t a).2.group = grp := hg
    have hi' : (setThingInQuadrant s t a).2.id = tid := hi
    have hd' : denseFor grp (setThingInQuadrant s t a).1.store := by
      rw [← hg]
      exact denseFor_setThing s t a (hg ▸ hd)
    by_cases hql : qid ∈ L
    · apply ih _ _ hg' hi' hd' qid hql
      rw [setThing_store, alookup_storeUpdate_isSome]
      exact hsome
    · have hqa : qid = a := by
        rcases List.mem_cons.mp hmem with h | h
        · exact h
        · exact absurd h hql
      subst hqa
      unfold storeGet
      rw [detLoop_unvisited L _ _ qid hql, setThing_store, alookup_storeUpdate_self]
      obtain ⟨q, hq⟩ := Option.isSome_iff_exists.mp hsome
      rw [hq]
      simp only [Option.map_some', Option.getD_some]
      have hdq : (alookup t.group q.numthings).getD 0 =
          ((alookup t.group q.things).getD []).length := by
        rw [hg]
        exact hd (qid, q) (alookup_mem qid s.store q hq)
      have hspec := (thingIntoQuad_spec t q hdq).2
      unfold quadHasThing
      rw [← hg, hspec, ← hi]
      simp

theorem detLoop_thing :
    ∀ (L : List Nat) (s : QKState) (t : QKThing), t.numquads = t.quadrants.length →
      (detLoop L s t).2.quadrants = t.quadrants ++ L ∧
      (detLoop L s t).2.numquads = t.numquads + L.length := by
  intro L
  induction L with
  | nil => intro s t _; simp [detLoop]
  | cons a L ih =>
    intro s t hlen
    rw [detLoop_cons]
    have ht2q : (setThingInQuadrant s t a).2.quadrants = t.quadrants ++ [a] := by
      show jsSetElem t.quadrants t.numquads a = t.quadrants ++ [a]
      rw [hlen, jsSetElem_append]
    have ht2n : (setThingInQuadrant s t a).2.numquads = t.numquads + 1 := rfl
    have hlen2 : (setThingInQuadrant s t a).2.numquads =
        (setThingInQuadrant s t a).2.quadrants.length := by
      rw [ht2q, ht2n, List.length_append, hlen]
      rfl
    obtain ⟨e1, e2⟩ := ih (setThingInQuadrant s t a).1 (setThingInQuadrant s t a).2 hlen2
    constructor
    · rw [e1, ht2q, List.append_assoc]
      rfl
    · rw [e2, ht2n, List.length_cons]
      omega

theorem alookup_map_pair_none {β : Type} (v : β) :
    ∀ (gs : List (List Char)) (g : List Char), g ∉ gs →
      alookup g (gs.map (fun x => (x, v))) = none := by
  intro gs
  induction gs with
  | nil => intro g _; rfl
  | cons a r ih =>
    intro g h
    simp only [List.map_cons, alookup]
    rw [if_neg (fun hcon => h (by rw [← hcon]; simp))]
    exact ih g (fun hcon => h (by simp [hcon]))

theorem alookup_map_pair_getD {β : Type} (v : β) (gs : List (List Char))
    (g : List Char) : (alookup g (gs.map (fun x => (x, v)))).getD v = v := by
  by_cases h : g ∈ gs
  · rw [alookup_map_pair v gs g h]
    rfl
  · rw [alookup_map_pair_none v gs g h]
    rfl

theorem reset_store_alookup (s : QKState) (qid : Nat)
    (h : qid < s.numRows.toNat * s.numCols.toNat) :
    alookup qid (resetQuadrants s).store = some (resetRecord s qid) := by
  show alookup qid ((List.range (s.numRows.toNat * s.numCols.toNat)).map
    (fun k => (k, resetRecord s k))) = some (resetRecord s qid)
  exact alookup_range_map _ _ _ h

theorem denseFor_reset (s : QKState) (grp : List Char) :
    denseFor grp (resetQuadrants s).store := by
  intro p hp
  have hp' : p ∈ (List.range (s.numRows.toNat * s.numCols.toNat)).map
      (fun k => (k, resetRecord s k)) := hp
  rw [List.mem_map] at hp'
  obtain ⟨k, _, he⟩ := hp'
  rw [← he]
  show (alookup grp (s.groupNames.map (fun g => (g, 0)))).getD 0 =
    ((alookup grp (s.groupNames.map (fun g => (g, ([] : List Nat))))).getD []).length
  rw [alookup_map_pair_getD]
  by_cases hg : grp ∈ s.groupNames
  · rw [alookup_map_pair _ _ _ hg]
    rfl
  · rw [alookup_map_pair_none _ _ _ hg]
    rfl

theorem reset_quadHasThing_false (s : QKState) (grp : List Char) (tid qid : Nat)
    (h : qid < s.numRows.toNat * s.numCols.toNat) :
    quadHasThing (storeGet (resetQuadrants s).store qid) grp tid = false := by
  unfold storeGet
  rw [reset_store_alookup s qid h]
  simp only [Option.getD_some]
  unfold quadHasThing
  have hth : (alookup grp (s.groupNames.map (fun g => (g, ([] : List Nat))))).getD [] = [] :=
    alookup_map_pair_getD [] s.groupNames grp
  show (((alookup grp (s.groupNames.map (fun g => (g, ([] : List Nat))))).getD []).take
    ((alookup grp (s.groupNames.map (fun g => (g, (0 : Nat))))).getD 0)).contains tid = false
  rw [hth]
  simp

theorem reset_rows_getD (s : QKState) (r : Nat) (h : r < s.numRows.toNat) :
    containerAt (resetQuadrants s).quadrantRows r =
      { left := s.startLeft, top := s.startTop + r * s.quadrantHeight,
        quadrants := (List.range s.numCols.toNat).map
          (fun j => r * s.numCols.toNat + j) } := by
  show ((List.range s.numRows.toNat).map (fun (i : Nat) =>
    ({ left := s.startLeft, top := s.startTop + i * s.quadrantHeight,
       quadrants := (List.range s.numCols.toNat).map
         (fun (j : Nat) => i * s.numCols.toNat + j) } : Container))).getD r dummyContainer = _
  rw [getD_range_map _ _ _ _ h]

theorem reset_cell_id (s : QKState) (r c : Nat) (hr : r < s.numRows.toNat)
    (hc : c < s.numCols.toNat) :
    (containerAt (resetQuadrants s).quadrantRows r).quadrants.getD c 0 =
      r * s.numCols.toNat + c := by
  rw [reset_rows_getD s r hr]
  show ((List.range s.numCols.toNat).map (fun j => r * s.numCols.toNat + j)).getD c 0 = _
  rw [getD_range_map _ _ _ _ hc]

theorem detCells_reset (s : QKState) (t : QKThing) :
    detCells (resetQuadrants s) t =
      (intRange (findQuadrantRowStart (resetQuadrants s) t)
          (findQuadrantRowEnd (resetQuadrants s) t)).flatMap (fun r =>
        (intRange (findQuadrantColStart (resetQuadrants s) t)
            (findQuadrantColEnd (resetQuadrants s) t)).map (fun c =>
          r.toNat * s.numCols.toNat + c.toNat)) := by
  unfold detCells
  apply flatMap_congr_left
  intro r hr
  apply List.map_congr_left
  intro c hc
  rw [mem_intRange] at hr hc
  have hr0 : 0 ≤ r := le_trans (le_max_right _ 0) hr.1
  have hc0 : 0 ≤ c := le_trans (le_max_right _ 0) hc.1
  have hrN : r ≤ (resetQuadrants s).numRows - 1 := le_trans hr.2 (min_le_right _ _)
  have hcN : c ≤ (resetQuadrants s).numCols - 1 := le_trans hc.2 (min_le_right _ _)
  have e5 : (resetQuadrants s).numRows = s.numRows := rfl
  have e6 : (resetQuadrants s).numCols = s.numCols := rfl
  rw [e5] at hrN
  rw [e6] at hcN
  have hrN' : r.toNat < s.numRows.toNat := by omega
  have hcN' : c.toNat < s.numCols.toNat := by omega
  exact reset_cell_id s r.toNat c.toNat hrN' hcN'

theorem mem_detCells_reset (s : QKState) (t : QKThing) (r c : Nat)
    (hH : 0 < s.quadrantHeight) (hW : 0 < s.quadrantWidth)
    (hr : r < s.numRows.toNat) (hc : c < s.numCols.toNat) :
    (r * s.numCols.toNat + c ∈ detCells (resetQuadrants s) t ↔
      (s.startTop + r * s.quadrantHeight ≤ t.bottom ∧
       t.top < s.startTop + ((r : Int) + 1) * s.quadrantHeight ∧
       s.startLeft + c * s.quadrantWidth ≤ t.right ∧
       t.left < s.startLeft + ((c : Int) + 1) * s.quadrantWidth)) := by
  have e1 : (resetQuadrants s).top = s.startTop := rfl
  have e2 : (resetQuadrants s).left = s.startLeft := rfl
  have e3 : (resetQuadrants s).quadrantHeight = s.quadrantHeight := rfl
  have e4 : (resetQuadrants s).quadrantWidth = s.quadrantWidth := rfl
  have e5 : (resetQuadrants s).numRows = s.numRows := rfl
  have e6 : (resetQuadrants s).numCols = s.numCols := rfl
  rw [detCells_reset]
  constructor
  · intro hmem
    rw [List.mem_flatMap] at hmem
    obtain ⟨ri, hri, hmem2⟩ := hmem
    rw [List.mem_map] at hmem2
    obtain ⟨ci, hci, he⟩ := hmem2
    rw [mem_intRange] at hri hci
    have hri0 : 0 ≤ ri := le_trans (le_max_right _ 0) hri.1
    have hci0 : 0 ≤ ci := le_trans (le_max_right _ 0) hci.1
    have hciN : ci ≤ (resetQuadrants s).numCols - 1 :=
      le_trans hci.2 (min_le_right _ _)
    rw [e6] at hciN
    have hciN' : ci.toNat < s.numCols.toNat := by omega
    obtain ⟨her, hec⟩ := cell_id_inj s.numCols.toNat ri.toNat ci.toNat r c hciN' hc he
    have hri_eq : ri = (r : Int) := by omega
    have hci_eq : ci = (c : Int) := by omega
    unfold findQuadrantRowStart findQuadrantRowEnd at hri
    unfold findQuadrantColStart findQuadrantColEnd at hci
    rw [e1, e3, hri_eq] at hri
    rw [e2, e4, hci_eq] at hci
    have hA : (t.top - s.startTop).fdiv s.quadrantHeight ≤ (r : Int) :=
      le_trans (le_max_left _ _) hri.1
    have hB : (r : Int) ≤ (t.bottom - s.startTop).fdiv s.quadrantHeight :=
      le_trans hri.2 (min_le_left _ _)
    have hC : (t.left - s.startLeft).fdiv s.quadrantWidth ≤ (c : Int) :=
      le_trans (le_max_left _ _) hci.1
    have hD : (c : Int) ≤ (t.right - s.startLeft).fdiv s.quadrantWidth :=
      le_trans hci.2 (min_le_left _ _)
    have i1 := (le_fdiv_iff _ _ _ hH).mp hB
    have i2 := (fdiv_le_iff _ _ _ hH).mp hA
    have i3 := (le_fdiv_iff _ _ _ hW).mp hD
    have i4 := (fdiv_le_iff _ _ _ hW).mp hC
    exact ⟨by linarith, by linarith, by linarith, by linarith⟩
  · intro hineq
    rw [List.mem_flatMap]
    refine ⟨(r : Int), ?_, ?_⟩
    · rw [mem_intRange]
      unfold findQuadrantRowStart findQuadrantRowEnd
      rw [e1, e3, e5]
      constructor
      · apply max_le
        · exact (fdiv_le_iff _ _ _ hH).mpr (by linarith [hineq.2.1])
        · exact Int.ofNat_nonneg r
      · apply le_min
        · exact (le_fdiv_iff _ _ _ hH).mpr (by linarith [hineq.1])
        · omega
    · rw [List.mem_map]
      refine ⟨(c : Int), ?_, ?_⟩
      · rw [mem_intRange]
        unfold findQuadrantColStart findQuadrantColEnd
        rw [e2, e4, e6]
        constructor
        · apply max_le
          · exact (fdiv_le_iff _ _ _ hW).mpr (by linarith [hineq.2.2.2])
          · exact Int.ofNat_nonneg c
        · apply le_min
          · exact (le_fdiv_iff _ _ _ hW).mpr (by linarith [hineq.2.2.1])
          · omega
      · simp

set_option maxHeartbeats 1000000 in
/-- C1 (amended): on a freshly reset grid, `determineThingQuadrants`
places a back-reference to the entity in exactly the cells whose
HALF-OPEN spans `[cellTop, cellTop + qH) × [cellLeft, cellLeft + qW)`
meet the entity's closed bounding box (with the row/column ranges clamped
to the grid), and the entity's recorded quadrant list is exactly that set
of cells in row-major order.  Closed-closed intersection (the original
claim) over-counts: an entity starting exactly on a cell's lower edge
touches the cell above but is not placed in it.  (The JS precondition that
the entity's group exists in the grid's groups is kept as a hypothesis.) -/
theorem determineThingQuadrants_halfopen (s : QKState) (t : QKThing)
    (hW : 0 < s.quadrantWidth) (hH : 0 < s.quadrantHeight)
    (hgrp : t.group ∈ s.groupNames)
    (hfresh : t.quadrants = []) (hnq : t.numquads = 0) :
    (∀ r c : Nat, r < s.numRows.toNat → c < s.numCols.toNat →
      (quadHasThing
          (storeGet (determineThingQuadrants (resetQuadrants s) t).1.store
            (r * s.numCols.toNat + c)) t.group t.id = true ↔
        (s.startTop + r * s.quadrantHeight ≤ t.bottom ∧
         t.top < s.startTop + ((r : Int) + 1) * s.quadrantHeight ∧
         s.startLeft + c * s.quadrantWidth ≤ t.right ∧
         t.left < s.startLeft + ((c : Int) + 1) * s.quadrantWidth))) ∧
    (determineThingQuadrants (resetQuadrants s) t).2.quadrants =
      detCells (resetQuadrants s) t ∧
    (determineThingQuadrants (resetQuadrants s) t).2.numquads =
      (detCells (resetQuadrants s) t).length := by
  have hs1 : (if t.changed = true then markThingQuadrantsChanged (resetQuadrants s) t
      else resetQuadrants s) = resetQuadrants s := by
    cases hch : t.changed <;> simp [markThingQuadrantsChanged, hnq]
  have hcomp1 : (determineThingQuadrants (resetQuadrants s) t).1 =
      (detLoop (detCells (resetQuadrants s) t) (resetQuadrants s)
        { t with numquads := 0 }).1 := by
    show (detLoop (detCells (resetQuadrants s) t)
      (if t.changed = true then markThingQuadrantsChanged (resetQuadrants s) t
        else resetQuadrants s) { t with numquads := 0 }).1 = _
    rw [hs1]
  have hcomp2q : (determineThingQuadrants (resetQuadrants s) t).2.quadrants =
      (detLoop (detCells (resetQuadrants s) t) (resetQuadrants s)
        { t with numquads := 0 }).2.quadrants := by
    show (detLoop (detCells (resetQuadrants s) t)
      (if t.changed = true then markThingQuadrantsChanged (resetQuadrants s) t
        else resetQuadrants s) { t with numquads := 0 }).2.quadrants = _
    rw [hs1]
  have hcomp2n : (determineThingQuadrants (resetQuadrants s) t).2.numquads =
      (detLoop (detCells (resetQuadrants s) t) (resetQuadrants s)
        { t with numquads := 0 }).2.numquads := by
    show (detLoop (detCells (resetQuadrants s) t)
      (if t.changed = true then markThingQuadrantsChanged (resetQuadrants s) t
        else resetQuadrants s) { t with numquads := 0 }).2.numquads = _
    rw [hs1]
  have hdlt := detLoop_thing (detCells (resetQuadrants s) t) (resetQuadrants s)
    { t with numquads := 0 } (by show (0 : Nat) = t.quadrants.length; rw [hfresh]; rfl)
  refine ⟨?_, ?_, ?_⟩
  · intro r c hr hc
    have hqid_lt : r * s.numCols.toNat + c < s.numRows.toNat * s.numCols.toNat := by
      have h2 : r * s.numCols.toNat + s.numCols.toNat = (r + 1) * s.numCols.toNat := by
        ring
      have h3 : (r + 1) * s.numCols.toNat ≤ s.numRows.toNat * s.numCols.toNat :=
        Nat.mul_le_mul_right _ (by omega)
      omega
    have hsome : (alookup (r * s.numCols.toNat + c) (resetQuadrants s).store).isSome
        = true := by
      rw [reset_store_alookup _ _ hqid_lt]
      rfl
    rw [hcomp1]
    rw [← mem_detCells_reset s t r c hH hW hr hc]
    constructor
    · intro htrue
      by_cases hmem : r * s.numCols.toNat + c ∈ detCells (resetQuadrants s) t
      · exact hmem
      · exfalso
        unfold storeGet at htrue
        rw [detLoop_unvisited _ _ _ _ hmem] at htrue
        have hfalse := reset_quadHasThing_false s t.group t.id
          (r * s.numCols.toNat + c) hqid_lt
        unfold storeGet at hfalse
        rw [hfalse] at htrue
        cases htrue
    · intro hmem
      exact detLoop_visited t.group t.id (detCells (resetQuadrants s) t)
        (resetQuadrants s) { t with numquads := 0 } rfl rfl
        (denseFor_reset s t.group) (r * s.numCols.toNat + c) hmem hsome
  · rw [hcomp2q, hdlt.1]
    have hq0 : ({ t with numquads := 0 } : QKThing).quadrants = t.quadrants := rfl
    rw [hq0, hfresh]
    exact List.nil_append _
  · rw [hcomp2n, hdlt.2]
    have hn0 : ({ t with numquads := 0 } : QKThing).numquads = 0 := rfl
    rw [hn0]
    exact Nat.zero_add _

/-- The entity of the spec's concrete scenario:
`{top:5, left:5, right:15, bottom:15}`. -/
def thingC1w : QKThing :=
  { id := 1, group := str "solid", top := 5, right := 15, bottom := 15,
    left := 5, numquads := 0, quadrants := [], changed := false }

theorem determineThingQuadrants_halfopen_witness :
    (0 < qk3.quadrantWidth ∧ 0 < qk3.quadrantHeight ∧
      thingC1w.group ∈ qk3.groupNames ∧ thingC1w.quadrants = [] ∧
      thingC1w.numquads = 0) ∧
    (determineThingQuadrants (resetQuadrants qk3) thingC1w).2.quadrants =
      detCells (resetQuadrants qk3) thingC1w ∧
    detCells (resetQuadrants qk3) thingC1w = [0, 1, 3, 4] := by
  refine ⟨⟨by decide, by decide, by decide, by decide, by decide⟩, ?_, by decide⟩
  exact (determineThingQuadrants_halfopen qk3 thingC1w (by decide) (by decide)
    (by decide) (by decide) (by decide)).2.1

end Engine
